import Mathlib

/-!
# drivers/serial/serialirq.c, drivers/video/vnc/vnc_color.c, fs/procfs/fs_procfscpuload.c

A shallow embedding of the interrupt and DMA level character transport of the
serial driver, of the colour conversions and the colour census of the VNC
server, and of the load figure of `cpuload_read`, followed by the properties
proved about them.

Conventions of the embedding.

* `struct uart_buffer_s` and `struct uart_dmaxfer_s` are declared in
  `nuttx/serial/serial.h`, which is not among the sources.  The index fields
  `head`, `tail`, `size` are natural numbers; the backing array is a map from
  index to character.  A pointer into a backing array is the index it points at,
  `none` is `NULL`.
* `length` and `nlength` hold the value of the `int` expression the code assigns
  to them (an `Int`, so that a subtraction is never silently truncated).
* Locals whose C type is visible in the file wrap as that type does:
  `uint16_t nbytes` modulo `2^16`, `size_t` and `unsigned int` modulo the width
  given by the build configuration.
* The lower half of the driver (`uart_txready`, `uart_send`, ...) is outside
  the file.  It is a script: the answer to the i-th call of each query, and the
  device records every call that is made.
* A `while` loop takes a fuel argument and returns `none` when the fuel runs
  out before the loop condition fails.  A `for` loop with a fixed bound takes
  the number of passes it has to go.
* In `vnc_color.c` a pixel is a natural number, the framebuffer is a map from
  byte offset to the pixel stored there, and `colors[]` and `counts[]` are maps
  from index to entry.  Shifts and masks are those of the source; a cast to an
  unsigned type of `w` bits is a reduction modulo `2^w`.
-/

namespace Serialirq

/-! ## Data model -/

/-- The build configuration the file is compiled under: the `CONFIG_` switches
it tests and the widths of the two platform integer types it names. -/
structure Config where
  CONFIG_SERIAL_IFLOWCONTROL : Bool
  CONFIG_SERIAL_IFLOWCONTROL_WATERMARKS : Bool
  CONFIG_SERIAL_IFLOWCONTROL_UPPER_WATERMARK : Nat
  uint_bits : Nat
  size_t_bits : Nat

/-- The ring buffer, `struct uart_buffer_s`. -/
structure uart_buffer_s where
  head : Nat
  tail : Nat
  size : Nat
  buffer : Nat → Nat

/-- The DMA transfer descriptor, `struct uart_dmaxfer_s`. -/
structure uart_dmaxfer_s where
  buffer : Option Nat
  length : Int
  nbuffer : Option Nat
  nlength : Int
  nbytes : Nat
deriving DecidableEq

/-- Modelled from the spec: the lower-half operations of section 6
(`hw_send_ready`, `hw_recv_ready`, `hw_recv`, `request_rx_flowcontrol`), which
`serial.h` maps to `dev->ops`.  Each is the script of its answers: `txready i`
is what the i-th call of `uart_txready` returns, `receive i` is the character
obtained from the i-th call of `uart_receive`, and `rxflowcontrol i n upper` is
what the i-th call of `uart_rxflowcontrol` returns when asked with `(n, upper)`. -/
structure uart_ops_s where
  txready : Nat → Bool
  rxavailable : Nat → Bool
  receive : Nat → Nat
  rxflowcontrol : Nat → Nat → Bool → Bool

/-- The device, `uart_dev_t`: the two ring buffers, the two DMA descriptors, the
lower half, and the record of the calls made across the boundary so far. -/
structure uart_dev_s where
  xmit : uart_buffer_s
  recv : uart_buffer_s
  dmatx : uart_dmaxfer_s
  dmarx : uart_dmaxfer_s
  ops : uart_ops_s
  ntxready : Nat
  sent : List Nat
  ndisabletxint : Nat
  ndatasent : Nat
  nrxavailable : Nat
  nreceive : Nat
  ndatareceived : Nat
  rxflow : List (Nat × Bool)
  ndmasend : Nat
  ndmareceive : Nat

/-- Conversion of an `int` value to an unsigned type of the given width. -/
def to_unsigned (bits : Nat) (x : Int) : Nat := (x % (2 : Int) ^ bits).toNat

/-! ## The boundary -/

/-- Modelled from the spec: `hw_send_ready() -> bool`.  Answers from the script
and counts the call. -/
def uart_txready (dev : uart_dev_s) : Bool × uart_dev_s :=
  (dev.ops.txready dev.ntxready, { dev with ntxready := dev.ntxready + 1 })

/-- Modelled from the spec: `hw_send(byte)`.  The character is appended to the
record of what was handed to the hardware. -/
def uart_send (dev : uart_dev_s) (ch : Nat) : uart_dev_s :=
  { dev with sent := dev.sent ++ [ch] }

/-- Modelled from the spec: `hw_disable_tx_interrupt()`. -/
def uart_disabletxint (dev : uart_dev_s) : uart_dev_s :=
  { dev with ndisabletxint := dev.ndisabletxint + 1 }

/-- Modelled from the spec: `notify_writers()`. -/
def uart_datasent (dev : uart_dev_s) : uart_dev_s :=
  { dev with ndatasent := dev.ndatasent + 1 }

/-- Modelled from the spec: `hw_recv_ready() -> bool`. -/
def uart_rxavailable (dev : uart_dev_s) : Bool × uart_dev_s :=
  (dev.ops.rxavailable dev.nrxavailable, { dev with nrxavailable := dev.nrxavailable + 1 })

/-- Modelled from the spec: `hw_recv() -> (byte, status)`.  The status word is
never read by the file and is left out. -/
def uart_receive (dev : uart_dev_s) : Nat × uart_dev_s :=
  (dev.ops.receive dev.nreceive, { dev with nreceive := dev.nreceive + 1 })

/-- Modelled from the spec: `notify_readers()`. -/
def uart_datareceived (dev : uart_dev_s) : uart_dev_s :=
  { dev with ndatareceived := dev.ndatareceived + 1 }

/-- Modelled from the spec: `request_rx_flowcontrol(n, assert) -> engaged`. -/
def uart_rxflowcontrol (dev : uart_dev_s) (nbuffered : Nat) (upper : Bool) :
    Bool × uart_dev_s :=
  (dev.ops.rxflowcontrol dev.rxflow.length nbuffered upper,
   { dev with rxflow := dev.rxflow ++ [(nbuffered, upper)] })

/-- Modelled from the spec: `dma_start_tx(descriptor)`. -/
def uart_dmasend (dev : uart_dev_s) : uart_dev_s :=
  { dev with ndmasend := dev.ndmasend + 1 }

/-- Modelled from the spec: `dma_start_rx(descriptor)`. -/
def uart_dmareceive (dev : uart_dev_s) : uart_dev_s :=
  { dev with ndmareceive := dev.ndmareceive + 1 }

/-! ## serialirq.c -/

/-- Lines 78-112, `uart_dorxflowcontrol` under
`CONFIG_SERIAL_IFLOWCONTROL_WATERMARKS`. -/
def uart_dorxflowcontrol_watermarks (cfg : Config) (dev : uart_dev_s)
    (watermark : Nat) : Bool × uart_dev_s :=
  let rxbuf := dev.recv
  let nbuffered : Nat :=
    if rxbuf.head ≥ rxbuf.tail then
      to_unsigned cfg.uint_bits ((rxbuf.head : Int) - rxbuf.tail)
    else
      to_unsigned cfg.uint_bits ((rxbuf.size : Int) - rxbuf.tail + rxbuf.head)
  if nbuffered ≥ watermark then
    let r := uart_rxflowcontrol dev nbuffered true
    if r.1 then (true, r.2) else (false, r.2)
  else
    (false, dev)

/-- Lines 114-133, `uart_dorxflowcontrol` without watermarks. -/
def uart_dorxflowcontrol_full (dev : uart_dev_s)
    (is_full : Bool) : Bool × uart_dev_s :=
  if is_full then
    let r := uart_rxflowcontrol dev dev.recv.size true
    if r.1 then (true, r.2) else (false, r.2)
  else
    (false, dev)

/-- The pre-computed watermark level, lines 243 and 417. -/
def watermark_level (cfg : Config) (rxbuf : uart_buffer_s) : Nat :=
  to_unsigned cfg.uint_bits
    (((cfg.CONFIG_SERIAL_IFLOWCONTROL_UPPER_WATERMARK * rxbuf.size : Nat) : Int) / 100)

/-- The conditional block of lines 246-258 and 429-441: which variant of
`uart_dorxflowcontrol` is called, if any.  The Boolean says whether the caller
must stop. -/
def dorxflowcontrol_configured (cfg : Config) (dev : uart_dev_s) (is_full : Bool) :
    Bool × uart_dev_s :=
  if cfg.CONFIG_SERIAL_IFLOWCONTROL then
    if cfg.CONFIG_SERIAL_IFLOWCONTROL_WATERMARKS then
      uart_dorxflowcontrol_watermarks cfg dev (watermark_level cfg dev.recv)
    else
      uart_dorxflowcontrol_full dev is_full
  else
    (false, dev)

/-- The wrapped successor of an index: `if (++i >= size) i = 0`, the form of
lines 231-236, 357-360, 405-412 and 463-466. -/
def next_index (i size : Nat) : Nat :=
  if i + 1 ≥ size then 0 else i + 1

/-- Lines 150-177, `uart_xmitchars_dma`. -/
def uart_xmitchars_dma (dev : uart_dev_s) : uart_dev_s :=
  if dev.xmit.head = dev.xmit.tail then
    dev
  else
    let xfer : uart_dmaxfer_s :=
      if dev.xmit.tail < dev.xmit.head then
        { dev.dmatx with
          buffer := some dev.xmit.tail
          length := (dev.xmit.head : Int) - dev.xmit.tail
          nbuffer := none
          nlength := 0 }
      else
        { dev.dmatx with
          buffer := some dev.xmit.tail
          length := (dev.xmit.size : Int) - dev.xmit.tail
          nbuffer := some 0
          nlength := dev.xmit.head }
    uart_dmasend { dev with dmatx := xfer }

/-- Lines 191-211, `uart_xmitchars_done`. -/
def uart_xmitchars_done (cfg : Config) (dev : uart_dev_s) : uart_dev_s :=
  let nbytes := dev.dmatx.nbytes % 2 ^ cfg.size_t_bits
  let tail := ((dev.xmit.tail + nbytes) % 2 ^ cfg.size_t_bits) % dev.xmit.size
  let dev1 : uart_dev_s :=
    { dev with
      xmit := { dev.xmit with tail := tail }
      dmatx := { dev.dmatx with nbytes := 0, length := 0, nlength := 0 } }
  if nbytes ≠ 0 then uart_datasent dev1 else dev1

/-- Lines 223-294, `uart_recvchars_dma`. -/
def uart_recvchars_dma (cfg : Config) (dev : uart_dev_s) : uart_dev_s :=
  let nexthead := next_index dev.recv.head dev.recv.size
  let is_full : Bool := nexthead == dev.recv.tail
  let g := dorxflowcontrol_configured cfg dev is_full
  if g.1 then
    g.2
  else if is_full then
    g.2
  else
    let dev1 := g.2
    let rxbuf := dev1.recv
    let xfer : uart_dmaxfer_s :=
      if rxbuf.tail ≤ rxbuf.head then
        if rxbuf.tail > 0 then
          { dev1.dmarx with
            buffer := some rxbuf.head
            nbuffer := some 0
            length := (rxbuf.size : Int) - rxbuf.head
            nlength := (rxbuf.tail : Int) - 1 }
        else
          { dev1.dmarx with
            buffer := some rxbuf.head
            nbuffer := some 0
            length := (rxbuf.size : Int) - rxbuf.head - 1
            nlength := 0 }
      else
        { dev1.dmarx with
          buffer := some rxbuf.head
          length := (rxbuf.tail : Int) - rxbuf.head - 1
          nbuffer := none
          nlength := 0 }
    uart_dmareceive { dev1 with dmarx := xfer }

/-- Lines 308-328, `uart_recvchars_done`. -/
def uart_recvchars_done (cfg : Config) (dev : uart_dev_s) : uart_dev_s :=
  let nbytes := dev.dmarx.nbytes % 2 ^ cfg.size_t_bits
  let head := ((dev.recv.head + nbytes) % 2 ^ cfg.size_t_bits) % dev.recv.size
  let dev1 : uart_dev_s :=
    { dev with
      recv := { dev.recv with head := head }
      dmarx := { dev.dmarx with nbytes := 0, length := 0, nlength := 0 } }
  if nbytes ≠ 0 then uart_datareceived dev1 else dev1

/-- Lines 352-360: the send step on the ring buffer.  Returns the character at
`tail` and the buffer with `tail` advanced. -/
def pop_one (txbuf : uart_buffer_s) : Nat × uart_buffer_s :=
  (txbuf.buffer txbuf.tail, { txbuf with tail := next_index txbuf.tail txbuf.size })

/-- Lines 348-361, the `while` loop of `uart_xmitchars`, with the running value
of the local `nbytes`. -/
def uart_xmitchars_loop : Nat → uart_dev_s → Nat → Option (uart_dev_s × Nat)
  | 0, _, _ => none
  | fuel + 1, dev, nbytes =>
    if dev.xmit.head ≠ dev.xmit.tail then
      let r := uart_txready dev
      if r.1 then
        let p := pop_one r.2.xmit
        let dev1 := uart_send r.2 p.1
        uart_xmitchars_loop fuel { dev1 with xmit := p.2 } ((nbytes + 1) % 65536)
      else
        some (r.2, nbytes)
    else
      some (dev, nbytes)

/-- Lines 342-385, `uart_xmitchars`. -/
def uart_xmitchars (fuel : Nat) (dev : uart_dev_s) : Option uart_dev_s :=
  match uart_xmitchars_loop fuel dev 0 with
  | none => none
  | some (dev1, nbytes) =>
    let dev2 := if dev1.xmit.head = dev1.xmit.tail then uart_disabletxint dev1 else dev1
    some (if nbytes ≠ 0 then uart_datasent dev2 else dev2)

/-- Lines 457-466: the store step on the ring buffer.  `nexthead` is the local
of that name; the result is the buffer and the new value of the local. -/
def recv_store (rxbuf : uart_buffer_s) (nexthead : Nat) (ch : Nat) :
    uart_buffer_s × Nat :=
  ({ rxbuf with buffer := Function.update rxbuf.buffer rxbuf.head ch, head := nexthead },
   next_index nexthead rxbuf.size)

/-- Lines 424-468, the `while` loop of `uart_recvchars`, with the running values
of the locals `nexthead` and `nbytes`. -/
def uart_recvchars_loop (cfg : Config) :
    Nat → uart_dev_s → Nat → Nat → Option (uart_dev_s × Nat)
  | 0, _, _, _ => none
  | fuel + 1, dev, nexthead, nbytes =>
    let a := uart_rxavailable dev
    if a.1 then
      let is_full : Bool := nexthead == a.2.recv.tail
      let g := dorxflowcontrol_configured cfg a.2 is_full
      if g.1 then
        some (g.2, nbytes)
      else
        let r := uart_receive g.2
        if !is_full then
          let s := recv_store r.2.recv nexthead r.1
          uart_recvchars_loop cfg fuel { r.2 with recv := s.1 } s.2 ((nbytes + 1) % 65536)
        else
          uart_recvchars_loop cfg fuel r.2 nexthead nbytes
    else
      some (a.2, nbytes)

/-- Lines 398-478, `uart_recvchars`. -/
def uart_recvchars (cfg : Config) (fuel : Nat) (dev : uart_dev_s) : Option uart_dev_s :=
  match uart_recvchars_loop cfg fuel dev (next_index dev.recv.head dev.recv.size) 0 with
  | none => none
  | some (dev1, nbytes) =>
    some (if nbytes ≠ 0 then uart_datareceived dev1 else dev1)

/-! ## vnc_color.c: the conversions -/

/-- Lines 78-90, `vnc_convert_rgb16_555` in a build with
`CONFIG_VNCSERVER_COLORFMT_RGB8`, where `lfb_color_t` is 8 bits wide.  The
expression is cast to `uint8_t` (line 87) and returned as `uint16_t`. -/
def vnc_convert_rgb16_555 (rgb : Nat) : Nat :=
  (((((rgb % 2 ^ 16) <<< 8) &&& 0x7000) |||
    (((rgb % 2 ^ 16) <<< 5) &&& 0x0380) |||
    (((rgb % 2 ^ 16) <<< 3) &&& 0x0018)) % 2 ^ 8) % 2 ^ 16

/-- Lines 92-104, `vnc_convert_rgb16_565` in a build with
`CONFIG_VNCSERVER_COLORFMT_RGB8`.  The expression is cast to `uint8_t`
(line 101) and returned as `uint16_t`. -/
def vnc_convert_rgb16_565 (rgb : Nat) : Nat :=
  (((((rgb % 2 ^ 16) <<< 8) &&& 0xe000) |||
    (((rgb % 2 ^ 16) <<< 6) &&& 0x0700) |||
    (((rgb % 2 ^ 16) <<< 3) &&& 0x0018)) % 2 ^ 8) % 2 ^ 16

/-- Lines 169-181, `vnc_convert_rgb32_888` in a build with
`CONFIG_VNCSERVER_COLORFMT_RGB16`, where `lfb_color_t` is 16 bits wide. -/
def vnc_convert_rgb32_888 (rgb : Nat) : Nat :=
  ((((rgb % 2 ^ 32) <<< 8) % 2 ^ 32) &&& 0x00f80000) |||
  ((((rgb % 2 ^ 32) <<< 6) % 2 ^ 32) &&& 0x0000fc00) |||
  ((((rgb % 2 ^ 32) <<< 3) % 2 ^ 32) &&& 0x000000f8)

/-- Lines 199-211, `vnc_convert_rgb8_332` in a build with
`CONFIG_VNCSERVER_COLORFMT_RGB32`, where `lfb_color_t` is 32 bits wide. -/
def vnc_convert_rgb8_332 (rgb : Nat) : Nat :=
  (((rgb >>> 16) &&& 0x00000070) |||
   ((rgb >>> 11) &&& 0x0000001c) |||
   ((rgb >>> 6) &&& 0x00000003)) % 2 ^ 8

/-! ## vnc_color.c: the colours of a rectangle -/

/-- What `vnc_colors` takes from outside the file: the macros `RFB_STRIDE` and
`RFB_BYTESPERPIXEL` of `vnc_server.h`, the size of `lfb_color_t` (the step of
`pixptr++`), the value of `E2BIG` of `errno.h`, and the width of `unsigned int`. -/
structure VncConfig where
  RFB_STRIDE : Nat
  RFB_BYTESPERPIXEL : Nat
  sizeof_lfb_color_t : Nat
  E2BIG : Nat
  uint_bits : Nat

/-- The fields of `struct fb_area_s` that `vnc_colors` reads. -/
structure fb_area_s where
  x : Nat
  y : Nat
  w : Nat
  h : Nat

/-- The caller's array `colors[]` and the locals `counts[]` and `ncolors` of
`vnc_colors`. -/
structure vnc_colors_s where
  colors : Nat → Nat
  counts : Nat → Nat
  ncolors : Nat

/-- Lines 319-325, the search loop `for (pixndx = ...; pixndx < ncolors;
pixndx++)` with `n` passes to go: the value of `pixndx` when the loop ends. -/
def vnc_colors_find (colors : Nat → Nat) (pixel : Nat) : Nat → Nat → Nat
  | 0, pixndx => pixndx
  | n + 1, pixndx =>
    if colors pixndx = pixel then pixndx
    else vnc_colors_find colors pixel n (pixndx + 1)

/-- Lines 318-356, the body of the column loop for one pixel.  The Boolean is
true when the body ends in `return -E2BIG`. -/
def vnc_colors_pixel (vc : VncConfig) (maxcolors : Nat) (st : vnc_colors_s) (pixel : Nat) :
    Bool × vnc_colors_s :=
  let pixndx := vnc_colors_find st.colors pixel st.ncolors 0
  if pixndx < st.ncolors then
    (false, { st with
      counts := Function.update st.counts pixndx ((st.counts pixndx + 1) % 2 ^ vc.uint_bits) })
  else if st.ncolors ≥ maxcolors then
    (true, st)
  else
    (false, { colors := Function.update st.colors st.ncolors pixel
              counts := Function.update st.counts st.ncolors 1
              ncolors := st.ncolors + 1 })

/-- Lines 314-357, the column loop with `n` columns to go.  `fb` gives the
pixel stored at a byte offset from `session->fb`, and `pixptr` is such an
offset. -/
def vnc_colors_row (vc : VncConfig) (fb : Nat → Nat) (maxcolors : Nat) :
    Nat → Nat → vnc_colors_s → Bool × vnc_colors_s
  | 0, _, st => (false, st)
  | n + 1, pixptr, st =>
    let r := vnc_colors_pixel vc maxcolors st (fb pixptr)
    if r.1 then r
    else vnc_colors_row vc fb maxcolors n (pixptr + vc.sizeof_lfb_color_t) r.2

/-- Lines 309-362, the row loop with `n` rows to go. -/
def vnc_colors_rows (vc : VncConfig) (fb : Nat → Nat) (maxcolors w : Nat) :
    Nat → Nat → vnc_colors_s → Bool × vnc_colors_s
  | 0, _, st => (false, st)
  | n + 1, rowstart, st =>
    let r := vnc_colors_row vc fb maxcolors w rowstart st
    if r.1 then r
    else vnc_colors_rows vc fb maxcolors w n (rowstart + vc.RFB_STRIDE) r.2

/-- Lines 374-385, the inner loop of the sort with `n` passes to go: the value
of `maxndx` when the loop ends. -/
def vnc_colors_maxndx (counts : Nat → Nat) : Nat → Nat → Nat → Nat
  | 0, _, maxndx => maxndx
  | n + 1, cmpndx, maxndx =>
    vnc_colors_maxndx counts n (cmpndx + 1)
      (if counts cmpndx > counts maxndx then cmpndx else maxndx)

/-- Lines 393-406, the exchange of colour `N = pixndx` and colour `M = maxndx`
with their counts.  The count passes through the `int` local `tmpcount` and
comes back unchanged. -/
def vnc_colors_swap (st : vnc_colors_s) (pixndx maxndx : Nat) : vnc_colors_s :=
  { st with
    colors := Function.update (Function.update st.colors pixndx (st.colors maxndx))
      maxndx (st.colors pixndx)
    counts := Function.update (Function.update st.counts pixndx (st.counts maxndx))
      maxndx (st.counts pixndx) }

/-- Lines 370-408, the outer loop of the sort with `n` passes to go. -/
def vnc_colors_sort : Nat → Nat → vnc_colors_s → vnc_colors_s
  | 0, _, st => st
  | n + 1, pixndx, st =>
    let maxndx := vnc_colors_maxndx st.counts (st.ncolors - (pixndx + 1)) (pixndx + 1) pixndx
    let st1 : vnc_colors_s := if maxndx ≠ pixndx then vnc_colors_swap st pixndx maxndx else st
    vnc_colors_sort n (pixndx + 1) st1

/-- Lines 279-413, `vnc_colors`: the returned value and the caller's array
`colors[]` on return. -/
def vnc_colors (vc : VncConfig) (fb : Nat → Nat) (rect : fb_area_s) (maxcolors : Nat)
    (colors : Nat → Nat) : Int × (Nat → Nat) :=
  let rowstart := vc.RFB_STRIDE * rect.y + vc.RFB_BYTESPERPIXEL * rect.x
  let r := vnc_colors_rows vc fb maxcolors rect.w rect.h rowstart
    { colors := colors, counts := fun _ => 0, ncolors := 0 }
  if r.1 then
    (-(vc.E2BIG : Int), r.2.colors)
  else
    let st := vnc_colors_sort (r.2.ncolors - 1) 0 r.2
    ((st.ncolors : Int), st.colors)

/-! ## fs_procfscpuload.c -/

/-- Line 245 of `cpuload_read`, after the clamp of lines 232-235: the value of
the local `tmp`, a `uint32_t`.  The product `1000 * active` and the difference
are formed in `uint32_t`. -/
def cpuload_read_tmp (active total : Nat) : Nat :=
  let active := if active > total then total else active
  to_unsigned 32 (1000 - ((1000 * active % 2 ^ 32 / total : Nat) : Int))

/-- Lines 232-253 of `cpuload_read`: from the sampled counts `active` and
`total` (both `uint32_t`) to the locals `intpart` and `fracpart` that are handed
to `procfs_snprintf`. -/
def cpuload_read (active total : Nat) : Nat × Nat :=
  if total > 0 then
    let tmp := cpuload_read_tmp active total
    let intpart := tmp / 10
    let fracpart := to_unsigned 32 ((tmp : Int) - ((10 * intpart % 2 ^ 32 : Nat) : Int))
    (intpart, fracpart)
  else
    (0, 0)

/-! ## Vocabulary of the properties -/

/-- Both indices lie inside the backing array: `0 <= head, tail < size`. -/
def inrange (b : uart_buffer_s) : Prop := b.head < b.size ∧ b.tail < b.size

instance (b : uart_buffer_s) : Decidable (inrange b) := by
  unfold inrange; infer_instance

/-- The occupied count in the words of the specification: `(head - tail) mod size`. -/
def occupied_count (b : uart_buffer_s) : Nat :=
  (((b.head : Int) - (b.tail : Int)) % (b.size : Int)).toNat

/-- The full test of lines 405-412 and 426: the wrapped successor of `head`
is `tail`. -/
def is_full (b : uart_buffer_s) : Bool := next_index b.head b.size == b.tail

/-- The characters of the occupied region `[tail, head)`, oldest first. -/
def contents (b : uart_buffer_s) : List Nat :=
  (List.range (occupied_count b)).map (fun i => b.buffer ((b.tail + i) % b.size))

/-- The free slots, in the words of the specification: one slot of the `size`
is given up, the rest less the occupied ones. -/
def free_count (b : uart_buffer_s) : Nat := b.size - 1 - occupied_count b

/-- The store step as `uart_recvchars` runs it on its first pass: `nexthead` is
the value lines 405-412 give the local, and the step is that of lines 457-466.
The caller has checked that the buffer is not full. -/
def push_one (b : uart_buffer_s) (ch : Nat) : uart_buffer_s :=
  (recv_store b (next_index b.head b.size) ch).1

/-- The characters a source delivers from its `n`-th on, `count` of them. -/
def source_bytes (ops : uart_ops_s) (n count : Nat) : List Nat :=
  (List.range count).map (fun i => ops.receive (n + i))

/-- One operation on a ring buffer: store a character, or take one. -/
inductive Op where
  | push (ch : Nat)
  | pop
deriving DecidableEq

/-- Runs a sequence of operations; returns the buffer and the characters taken,
oldest first. -/
def run_ops : uart_buffer_s → List Op → uart_buffer_s × List Nat
  | b, [] => (b, [])
  | b, Op.push ch :: ops => run_ops (push_one b ch) ops
  | b, Op.pop :: ops =>
    ((run_ops (pop_one b).2 ops).1, (pop_one b).1 :: (run_ops (pop_one b).2 ops).2)

/-- Every store finds the buffer not full (the test of line 453) and every take
finds it not empty (the test of line 348). -/
def respects : uart_buffer_s → List Op → Bool
  | _, [] => true
  | b, Op.push ch :: ops => !is_full b && respects (push_one b ch) ops
  | b, Op.pop :: ops => decide (b.head ≠ b.tail) && respects (pop_one b).2 ops

/-- The characters stored by a sequence of operations, in order. -/
def pushed : List Op → List Nat
  | [] => []
  | Op.push ch :: ops => ch :: pushed ops
  | Op.pop :: ops => pushed ops

/-- The number of takes in a sequence of operations. -/
def pops : List Op → Nat
  | [] => 0
  | Op.push _ :: ops => pops ops
  | Op.pop :: ops => pops ops + 1

/-- Modelled from the spec: the DMA engine fills in `bytes_completed` of the TX
descriptor when the transfer finishes (`xfer->nbytes`, a `size_t`). -/
def dmatx_report (dev : uart_dev_s) (n : Nat) : uart_dev_s :=
  { dev with dmatx := { dev.dmatx with nbytes := n } }

/-- Modelled from the spec: the DMA engine fills in `bytes_completed` of the RX
descriptor when the transfer finishes (`xfer->nbytes`, a `size_t`). -/
def dmarx_report (dev : uart_dev_s) (n : Nat) : uart_dev_s :=
  { dev with dmarx := { dev.dmarx with nbytes := n } }

/-- The cells a segment addresses, in order: `len` cells from the one its
pointer points at, none when the pointer is `NULL`. -/
def segment_slots (start : Option Nat) (len : Int) : List Nat :=
  match start with
  | none => []
  | some s => (List.range len.toNat).map (fun i => s + i)

/-- The cells a descriptor addresses: those of segment 1 followed by those of
segment 2. -/
def planned_slots (xfer : uart_dmaxfer_s) : List Nat :=
  segment_slots xfer.buffer xfer.length ++ segment_slots xfer.nbuffer xfer.nlength

/-- The cells of the occupied region `[tail, head)`, taken circularly. -/
def occupied_slots (b : uart_buffer_s) : List Nat :=
  (List.range (occupied_count b)).map (fun i => (b.tail + i) % b.size)

/-- The reserved slot: the cell just before `tail`, taken circularly.  A store
into it would make `head == tail` on a buffer that is not empty. -/
def reserved_slot (b : uart_buffer_s) : Nat := (b.tail + b.size - 1) % b.size

/-- Lines 86-93: the occupancy as the watermark variant of
`uart_dorxflowcontrol` computes it, an `unsigned int`. -/
def rx_nbuffered (cfg : Config) (rxbuf : uart_buffer_s) : Nat :=
  if rxbuf.head ≥ rxbuf.tail then
    to_unsigned cfg.uint_bits ((rxbuf.head : Int) - rxbuf.tail)
  else
    to_unsigned cfg.uint_bits ((rxbuf.size : Int) - rxbuf.tail + rxbuf.head)

/-- The threshold in the words of the specification:
`ceil(upper_watermark_percent * capacity / 100)`. -/
def threshold_ceil (p size : Nat) : Nat := (p * size + 99) / 100

/-- Lines 426-467: one pass through the body of the `while` loop of
`uart_recvchars`, entered after `uart_rxavailable` has answered true.  The
Boolean is true when the pass ends in `break`; the rest is the device and the
locals `nexthead` and `nbytes` as the pass leaves them. -/
def uart_recvchars_pass (cfg : Config) (dev : uart_dev_s) (nexthead nbytes : Nat) :
    Bool × uart_dev_s × Nat × Nat :=
  let is_full : Bool := nexthead == dev.recv.tail
  let g := dorxflowcontrol_configured cfg dev is_full
  if g.1 then
    (true, g.2, nexthead, nbytes)
  else
    let r := uart_receive g.2
    if !is_full then
      let s := recv_store r.2.recv nexthead r.1
      (false, { r.2 with recv := s.1 }, s.2, (nbytes + 1) % 65536)
    else
      (false, r.2, nexthead, nbytes)

/-- The device and the locals `nexthead` and `nbytes` after `j` complete passes
of the loop of `uart_recvchars`: each finds data available and runs to the end
of the body.  `none` when the loop ends before that. -/
def recv_passes (cfg : Config) : Nat → uart_dev_s → Nat → Nat → Option (uart_dev_s × Nat × Nat)
  | 0, dev, nexthead, nbytes => some (dev, nexthead, nbytes)
  | j + 1, dev, nexthead, nbytes =>
    if (uart_rxavailable dev).1 then
      if (uart_recvchars_pass cfg (uart_rxavailable dev).2 nexthead nbytes).1 then
        none
      else
        recv_passes cfg j
          (uart_recvchars_pass cfg (uart_rxavailable dev).2 nexthead nbytes).2.1
          (uart_recvchars_pass cfg (uart_rxavailable dev).2 nexthead nbytes).2.2.1
          (uart_recvchars_pass cfg (uart_rxavailable dev).2 nexthead nbytes).2.2.2
    else
      none

/-- Every entry the second record adds to the first is a request to assert:
`upper` is true. -/
def only_asserts (before after : List (Nat × Bool)) : Prop :=
  ∃ l, after = before ++ l ∧ ∀ c ∈ l, c.2 = true

/-- The bits `hi..lo` of a word, as a number. -/
def bit_field (x hi lo : Nat) : Nat := (x >>> lo) % 2 ^ (hi + 1 - lo)

/-- The layout drawn in the comment of lines 171-176, `RRRRR... GGGGGG..
BBBBB...`: pixel bits 15..11 in result bits 23..19, pixel bits 10..5 in result
bits 15..10, pixel bits 4..0 in result bits 7..3, every other bit 0. -/
def layout_rgb32_888 (pixel : Nat) : Nat :=
  bit_field pixel 15 11 * 2 ^ 19 + bit_field pixel 10 5 * 2 ^ 10 + bit_field pixel 4 0 * 2 ^ 3

/-- The layout drawn in the comment of lines 201-206, `RRRGGGBB`: pixel bits
23..21 in result bits 7..5, pixel bits 15..13 in result bits 4..2, pixel bits
7..6 in result bits 1..0. -/
def layout_rgb8_332 (pixel : Nat) : Nat :=
  bit_field pixel 23 21 * 2 ^ 5 + bit_field pixel 15 13 * 2 ^ 2 + bit_field pixel 7 6

/-- The layout drawn in the comment of lines 94-99, `RRR..GGG ...BB...`: pixel
bits 7..5 in result bits 15..13, pixel bits 4..2 in result bits 10..8, pixel
bits 1..0 in result bits 4..3, every other bit 0. -/
def layout_rgb16_565 (pixel : Nat) : Nat :=
  bit_field pixel 7 5 * 2 ^ 13 + bit_field pixel 4 2 * 2 ^ 8 + bit_field pixel 1 0 * 2 ^ 3

/-- The layout drawn in the comment of lines 80-85, `.RRR..GG G..BB...`: pixel
bits 7..5 in result bits 14..12, pixel bits 4..2 in result bits 9..7, pixel
bits 1..0 in result bits 4..3, every other bit 0. -/
def layout_rgb16_555 (pixel : Nat) : Nat :=
  bit_field pixel 7 5 * 2 ^ 12 + bit_field pixel 4 2 * 2 ^ 7 + bit_field pixel 1 0 * 2 ^ 3

/-- Modelled from the spec: the DMA engine (external) stores the bytes it
receives into the cells of segment 1, then those of segment 2, in the order
received, and fills in `bytes_completed` (`xfer->nbytes`) when the transfer
finishes. -/
def dma_fill (dev : uart_dev_s) (bytes : List Nat) : uart_dev_s :=
  { dev with
    recv := { dev.recv with
      buffer := (List.zip (planned_slots dev.dmarx) bytes).foldl
        (fun buf p => Function.update buf p.1 p.2) dev.recv.buffer }
    dmarx := { dev.dmarx with nbytes := bytes.length } }

/-- The pixels of the update rectangle, row by row: the pixel in row `r` and
column `c` of the rectangle is the one stored `RFB_STRIDE * (y + r) +
RFB_BYTESPERPIXEL * x` bytes into the framebuffer, plus `c` pixels. -/
def rect_pixels (vc : VncConfig) (fb : Nat → Nat) (rect : fb_area_s) : List Nat :=
  (List.range rect.h).flatMap (fun r =>
    (List.range rect.w).map (fun c =>
      fb (vc.RFB_STRIDE * rect.y + vc.RFB_BYTESPERPIXEL * rect.x + vc.RFB_STRIDE * r
        + vc.sizeof_lfb_color_t * c)))

/-- The body of the column loop of `vnc_colors` run over a list of pixels, in
order, stopping where it returns `-E2BIG`. -/
def vnc_colors_scan (vc : VncConfig) (maxcolors : Nat) :
    List Nat → vnc_colors_s → Bool × vnc_colors_s
  | [], st => (false, st)
  | p :: ps, st =>
    if (vnc_colors_pixel vc maxcolors st p).1 then vnc_colors_pixel vc maxcolors st p
    else vnc_colors_scan vc maxcolors ps (vnc_colors_pixel vc maxcolors st p).2

/-- The first `ncolors` entries of `colors[]` are the distinct values of a list
of pixels, each once. -/
def tallies (px : List Nat) (st : vnc_colors_s) : Prop :=
  (∀ i j, i < st.ncolors → j < st.ncolors → st.colors i = st.colors j → i = j) ∧
  (∀ v, (∃ i, i < st.ncolors ∧ st.colors i = v) ↔ v ∈ px)

/-- Entry `i` of `counts[]` is the number of occurrences of `colors[i]` in a
list of pixels. -/
def counted (px : List Nat) (st : vnc_colors_s) : Prop :=
  ∀ i, i < st.ncolors → st.counts i = px.count (st.colors i)

/-- The exchange of two indices. -/
def transpose (a b i : Nat) : Nat :=
  if i = b then a else if i = a then b else i

/-! ## Scenarios -/

/-- A lower half that is never ready, has nothing to deliver and never engages
flow control. -/
def idle_ops : uart_ops_s :=
  { txready := fun _ => false
    rxavailable := fun _ => false
    receive := fun _ => 0
    rxflowcontrol := fun _ _ _ => false }

/-- An empty ring buffer of the given size with both indices at `p`. -/
def empty_buffer (size p : Nat) : uart_buffer_s :=
  { head := p, tail := p, size := size, buffer := fun _ => 0 }

/-- A descriptor with nothing planned. -/
def idle_xfer : uart_dmaxfer_s :=
  { buffer := none, length := 0, nbuffer := none, nlength := 0, nbytes := 0 }

/-- A device with the given ring buffers and lower half, and no call recorded. -/
def fresh_dev (xmit recv : uart_buffer_s) (ops : uart_ops_s) : uart_dev_s :=
  { xmit := xmit, recv := recv, dmatx := idle_xfer, dmarx := idle_xfer, ops := ops
    ntxready := 0, sent := [], ndisabletxint := 0, ndatasent := 0
    nrxavailable := 0, nreceive := 0, ndatareceived := 0, rxflow := []
    ndmasend := 0, ndmareceive := 0 }

/-- The drain scenario of the specification: the TX buffer holds `A`, `B`, `C`
(65, 66, 67) in cells 0..2 of 4, and the hardware accepts exactly two sends. -/
def drain_dev : uart_dev_s :=
  fresh_dev { head := 3, tail := 0, size := 4, buffer := fun i => [65, 66, 67].getD i 0 }
    (empty_buffer 4 0) { idle_ops with txready := fun i => decide (i < 2) }

/-- A receive scenario: the RX buffer of size 4 holds one character (head 3,
tail 2), so two slots are free, and the source holds the three characters 10, 20,
30. -/
def fill_dev : uart_dev_s :=
  fresh_dev (empty_buffer 4 0) { head := 3, tail := 2, size := 4, buffer := fun _ => 0 }
    { idle_ops with
      rxavailable := fun i => decide (i < 3)
      receive := fun i => [10, 20, 30].getD i 0 }

/-- The overrun scenario of the specification: a full RX buffer of size 4 (head
3, tail 0) and a source of three characters. -/
def overrun_dev : uart_dev_s :=
  fresh_dev (empty_buffer 4 0)
    { head := 3, tail := 0, size := 4, buffer := fun i => [65, 66, 67].getD i 0 }
    { idle_ops with
      rxavailable := fun i => decide (i < 3)
      receive := fun i => [10, 20, 30].getD i 0 }

/-- A build without RX flow control, on a platform with 32-bit `unsigned int`
and `size_t`. -/
def cfg_noflow : Config :=
  { CONFIG_SERIAL_IFLOWCONTROL := false
    CONFIG_SERIAL_IFLOWCONTROL_WATERMARKS := false
    CONFIG_SERIAL_IFLOWCONTROL_UPPER_WATERMARK := 0
    uint_bits := 32
    size_t_bits := 32 }

/-- The wraparound scenario of the specification on a buffer of size 4 that
starts empty at index 0: store `a`, `b`, `c` (97, 98, 99), take two, store `d`,
`e` (100, 101). -/
def wrap_ops : List Op :=
  [Op.push 97, Op.push 98, Op.push 99, Op.pop, Op.pop, Op.push 100, Op.push 101]

/-- A device whose RX buffer was filled from empty with the three characters a
buffer of size 4 can hold, and whose source offers one more. -/
def full_dev : uart_dev_s :=
  fresh_dev (empty_buffer 4 0) (run_ops (empty_buffer 4 1) ([7, 8, 9].map Op.push)).1
    { idle_ops with
      rxavailable := fun i => decide (i < 1)
      receive := fun _ => 10 }

/-- The TX planning scenario of the specification: `size = 8`, `tail = 6`,
`head = 2`, four bytes pending across the end of the array. -/
def txplan_dev : uart_dev_s :=
  fresh_dev { head := 2, tail := 6, size := 8, buffer := fun _ => 0 } (empty_buffer 8 0)
    idle_ops

/-- The wrapped RX planning scenario of the specification: `size = 8`,
`head = 6`, `tail = 2`.  The lower half answers every flow-control request with
"engaged". -/
def rxplan_wrapped_dev : uart_dev_s :=
  fresh_dev (empty_buffer 8 0) { head := 6, tail := 2, size := 8, buffer := fun _ => 0 }
    { idle_ops with rxflowcontrol := fun _ _ _ => true }

/-- The non-wrapped RX planning scenario of the specification: `size = 8`,
`head = 2`, `tail = 6`.  The lower half answers every flow-control request with
"engaged". -/
def rxplan_linear_dev : uart_dev_s :=
  fresh_dev (empty_buffer 8 0) { head := 2, tail := 6, size := 8, buffer := fun _ => 0 }
    { idle_ops with rxflowcontrol := fun _ _ _ => true }

/-- A build with watermark flow control at an upper watermark of 50 percent, on
a platform with 32-bit `unsigned int` and `size_t`. -/
def cfg_watermark : Config :=
  { CONFIG_SERIAL_IFLOWCONTROL := true
    CONFIG_SERIAL_IFLOWCONTROL_WATERMARKS := true
    CONFIG_SERIAL_IFLOWCONTROL_UPPER_WATERMARK := 50
    uint_bits := 32
    size_t_bits := 32 }

/-- A completion report that no transfer can have earned: a TX buffer of size 3
with `tail = 1`, and the descriptor reporting `SIZE_MAX = 2^32 - 1` bytes. -/
def txdone_wrap_dev : uart_dev_s :=
  dmatx_report
    (fresh_dev { head := 0, tail := 1, size := 3, buffer := fun _ => 0 } (empty_buffer 3 0)
      idle_ops) 4294967295

/-- The same on the RX side: an RX buffer of size 3 with `head = 1`, and the
descriptor reporting `SIZE_MAX = 2^32 - 1` bytes. -/
def rxdone_wrap_dev : uart_dev_s :=
  dmarx_report
    (fresh_dev (empty_buffer 3 0) { head := 1, tail := 0, size := 3, buffer := fun _ => 0 }
      idle_ops) 4294967295

/-- A lower half whose transmitter is always ready. -/
def ready_ops : uart_ops_s :=
  { idle_ops with txready := fun _ => true }

/-- The TX planning scenario with distinct bytes (cell `i` holds `100 + i`) and
hardware that is always ready. -/
def txdrain_dev : uart_dev_s :=
  fresh_dev { head := 2, tail := 6, size := 8, buffer := fun i => 100 + i } (empty_buffer 8 0)
    ready_ops

/-- A lower half that answers every flow-control request with "engaged". -/
def engaging_ops : uart_ops_s :=
  { idle_ops with rxflowcontrol := fun _ _ _ => true }

/-- The watermark scenario of the specification at the threshold: capacity 10,
occupancy 5 (head 5, tail 0). -/
def watermark_at5_dev : uart_dev_s :=
  fresh_dev (empty_buffer 10 0) { head := 5, tail := 0, size := 10, buffer := fun _ => 0 }
    engaging_ops

/-- The watermark scenario of the specification below the threshold: capacity
10, occupancy 4 (head 4, tail 0). -/
def watermark_at4_dev : uart_dev_s :=
  fresh_dev (empty_buffer 10 0) { head := 4, tail := 0, size := 10, buffer := fun _ => 0 }
    engaging_ops

/-- A build with full-detection flow control (no watermarks), on a platform
with 32-bit `unsigned int` and `size_t`. -/
def cfg_fulldetect : Config :=
  { CONFIG_SERIAL_IFLOWCONTROL := true
    CONFIG_SERIAL_IFLOWCONTROL_WATERMARKS := false
    CONFIG_SERIAL_IFLOWCONTROL_UPPER_WATERMARK := 0
    uint_bits := 32
    size_t_bits := 32 }

/-- An RX buffer of size 4 with one free slot (head 2, tail 0), a source of two
characters, and a lower half that takes every flow-control request without
engaging. -/
def fulldetect_dev : uart_dev_s :=
  fresh_dev (empty_buffer 4 0) { head := 2, tail := 0, size := 4, buffer := fun _ => 0 }
    { idle_ops with
      rxavailable := fun i => decide (i < 2)
      receive := fun i => [10, 20].getD i 0 }

/-- An RX buffer of size 4 with one free slot (head 2, tail 0), a source of five
characters, and a lower half that engages on every flow-control request. -/
def engage_dev : uart_dev_s :=
  fresh_dev (empty_buffer 4 0) { head := 2, tail := 0, size := 4, buffer := fun _ => 0 }
    { engaging_ops with
      rxavailable := fun i => decide (i < 5)
      receive := fun i => [10, 20, 30, 40, 50].getD i 0 }

/-- The state of `engage_dev` and of the locals `nexthead` and `nbytes` after
one complete pass of the loop of `uart_recvchars`: the character 10 is in cell
2, `head` is 3, and the buffer is full. -/
def engage_after_one : uart_dev_s × Nat × Nat :=
  ({ engage_dev with
      recv := { head := 3, tail := 0, size := 4, buffer := Function.update (fun _ => 0) 2 10 }
      nrxavailable := 1
      nreceive := 1 }, 0, 1)

/-- An RX buffer of size 8 with a wrapped free region of three cells (head 6,
tail 2) and a source that holds exactly the three bytes 10, 20, 30. -/
def rxagree_dev : uart_dev_s :=
  fresh_dev (empty_buffer 4 0) { head := 6, tail := 2, size := 8, buffer := fun i => 100 + i }
    { idle_ops with
      rxavailable := fun i => decide (i < 3)
      receive := fun i => [10, 20, 30].getD i 0 }

/-- A build with 16-bit pixels, rows of 8 bytes, `E2BIG = 7` and a 32-bit
`unsigned int`. -/
def vnc_build : VncConfig :=
  { RFB_STRIDE := 8, RFB_BYTESPERPIXEL := 2, sizeof_lfb_color_t := 2, E2BIG := 7
    uint_bits := 32 }

/-- A framebuffer of three rows of four pixels:
`5 7 5 0`, `9 9 9 0`, `1 2 3 4`. -/
def vnc_fb : Nat → Nat :=
  fun a => [5, 7, 5, 0, 9, 9, 9, 0, 1, 2, 3, 4].getD (a / 2) 0

/-- The rectangle of the first three columns of the first two rows: its pixels
are `5 7 5` and `9 9 9`. -/
def vnc_rect : fb_area_s := { x := 0, y := 0, w := 3, h := 2 }

/-- A device whose RX buffer was filled from empty with the three characters a
buffer of size 4 can hold, whose source offers one more, and whose lower half
engages on every flow-control request. -/
def full_engage_dev : uart_dev_s :=
  fresh_dev (empty_buffer 4 0) (run_ops (empty_buffer 4 1) ([7, 8, 9].map Op.push)).1
    { engaging_ops with
      rxavailable := fun i => decide (i < 1)
      receive := fun _ => 10 }

/-! ## Index arithmetic -/

theorem next_index_lt {i size : Nat} (h : 0 < size) : next_index i size < size := by
  unfold next_index
  split_ifs <;> omega

theorem next_index_eq_mod {i size : Nat} (h : i < size) :
    next_index i size = (i + 1) % size := by
  unfold next_index
  split_ifs with h1
  · have : i + 1 = size := by omega
    rw [this, Nat.mod_self]
  · rw [Nat.mod_eq_of_lt (by omega)]

theorem add_mod_cases (a s : Nat) (h : a < 2 * s) :
    a % s = if a < s then a else a - s := by
  split_ifs with h1
  · exact Nat.mod_eq_of_lt h1
  · rw [Nat.mod_eq_sub_mod (by omega), Nat.mod_eq_of_lt (by omega)]

theorem add_mod_ne {h d s : Nat} (hh : h < s) (hd : 0 < d) (hds : d < s) :
    (h + d) % s ≠ h := by
  rw [add_mod_cases (h + d) s (by omega)]
  split_ifs <;> omega

theorem occupied_count_eq (b : uart_buffer_s) (h : inrange b) :
    occupied_count b =
      if b.tail ≤ b.head then b.head - b.tail else b.size - b.tail + b.head := by
  obtain ⟨hh, ht⟩ := h
  unfold occupied_count
  split_ifs with hle
  · rw [Int.emod_eq_of_lt (by omega) (by omega)]
    omega
  · rw [← Int.add_emod_self, Int.emod_eq_of_lt (by omega) (by omega)]
    omega

theorem occupied_count_lt (b : uart_buffer_s) (h : inrange b) :
    occupied_count b < b.size := by
  rw [occupied_count_eq b h]
  obtain ⟨hh, ht⟩ := h
  split_ifs <;> omega

theorem occupied_count_zero_iff (b : uart_buffer_s) (h : inrange b) :
    occupied_count b = 0 ↔ b.head = b.tail := by
  rw [occupied_count_eq b h]
  obtain ⟨hh, ht⟩ := h
  split_ifs <;> omega

/-! ## The transmit loop -/

/-- One pass of the send step on an in-range, non-empty buffer lowers the
occupied count by one and keeps the indices in range. -/
theorem pop_one_spec (b : uart_buffer_s) (h : inrange b) (hne : b.head ≠ b.tail) :
    inrange (pop_one b).2 ∧ occupied_count (pop_one b).2 + 1 = occupied_count b := by
  have hr : inrange (pop_one b).2 := ⟨h.1, next_index_lt (by have := h.1; omega)⟩
  refine ⟨hr, ?_⟩
  rw [occupied_count_eq _ hr, occupied_count_eq b h]
  obtain ⟨hh, ht⟩ := h
  simp only [pop_one, next_index]
  split_ifs <;> omega

/-- What the send loop does on an in-range buffer when the hardware accepts
`k` characters and, if that leaves characters in the buffer, then reports not
ready: it returns, having sent the first `min n k` buffered
characters and advanced `tail` by as many, and it has changed nothing else. -/
theorem uart_xmitchars_loop_spec :
    ∀ (fuel : Nat) (dev : uart_dev_s) (nbytes k : Nat),
      inrange dev.xmit → nbytes < 65536 →
      (∀ i, i < k → dev.ops.txready (dev.ntxready + i) = true) →
      (k < occupied_count dev.xmit → dev.ops.txready (dev.ntxready + k) = false) →
      min (occupied_count dev.xmit) k < fuel →
      ∃ dev1, uart_xmitchars_loop fuel dev nbytes
          = some (dev1, (nbytes + min (occupied_count dev.xmit) k) % 65536) ∧
        dev1.sent = dev.sent ++ (List.range (min (occupied_count dev.xmit) k)).map
          (fun i => dev.xmit.buffer ((dev.xmit.tail + i) % dev.xmit.size)) ∧
        dev1.xmit.tail = (dev.xmit.tail + min (occupied_count dev.xmit) k) % dev.xmit.size ∧
        dev1.xmit.head = dev.xmit.head ∧
        dev1.xmit.buffer = dev.xmit.buffer ∧
        dev1.xmit.size = dev.xmit.size ∧
        dev1.recv = dev.recv ∧ dev1.dmatx = dev.dmatx ∧ dev1.dmarx = dev.dmarx ∧
        dev1.ops = dev.ops ∧
        dev1.ntxready = dev.ntxready + min (occupied_count dev.xmit) k +
          (if k < occupied_count dev.xmit then 1 else 0) ∧
        dev1.ndisabletxint = dev.ndisabletxint ∧ dev1.ndatasent = dev.ndatasent ∧
        dev1.nrxavailable = dev.nrxavailable ∧ dev1.nreceive = dev.nreceive ∧
        dev1.ndatareceived = dev.ndatareceived ∧ dev1.rxflow = dev.rxflow ∧
        dev1.ndmasend = dev.ndmasend ∧ dev1.ndmareceive = dev.ndmareceive := by
  intro fuel
  induction fuel with
  | zero => intro dev nbytes k _ _ _ _ hf; omega
  | succ fuel ih =>
    intro dev nbytes k hr hnb hk hk1 hf
    by_cases hne : dev.xmit.head = dev.xmit.tail
    · have h0 : occupied_count dev.xmit = 0 := (occupied_count_zero_iff _ hr).2 hne
      refine ⟨dev, ?_⟩
      have ht := hr.2
      simp [uart_xmitchars_loop, hne, h0, Nat.mod_eq_of_lt ht]
      omega
    · have hpos : 0 < occupied_count dev.xmit := by
        have := (occupied_count_zero_iff _ hr).not.2 hne
        omega
      cases k with
      | zero =>
        refine ⟨(uart_txready dev).2, ?_⟩
        have ht := hr.2
        have hk0 : dev.ops.txready dev.ntxready = false := by simpa using hk1 hpos
        simp [uart_xmitchars_loop, hne, uart_txready, hk0, Nat.mod_eq_of_lt ht, hpos]
        omega
      | succ k =>
        have hk0 : dev.ops.txready dev.ntxready = true := by simpa using hk 0 (by omega)
        obtain ⟨hr1, hocc⟩ := pop_one_spec dev.xmit hr hne
        have hmin : min (occupied_count dev.xmit) (k + 1)
            = min (occupied_count (pop_one dev.xmit).2) k + 1 := by
          rw [← hocc]; omega
        obtain ⟨dev1, hrun, hsent, htail, hhead, hbuf, hsize, h1, h2, h3, h4, h5, h6, h7, h8,
            h9, h10, h11, h12, h13⟩ :=
          ih { (uart_send (uart_txready dev).2 (pop_one dev.xmit).1) with
                xmit := (pop_one dev.xmit).2 } ((nbytes + 1) % 65536) k hr1
            (Nat.mod_lt _ (by norm_num))
            (by intro i hi
                have := hk (i + 1) (by omega)
                simpa [uart_send, uart_txready, Nat.add_assoc, Nat.add_comm 1 i] using this)
            (by intro hlt
                dsimp only at hlt
                have := hk1 (by omega)
                simpa [uart_send, uart_txready, Nat.add_assoc, Nat.add_comm 1 k] using this)
            (by dsimp only; omega)
        dsimp only at hrun hsent htail hhead hbuf hsize h1 h2 h3 h4 h5 h6 h7 h8 h9 h10 h11 h12 h13
        refine ⟨dev1, ?_, ?_, ?_, ?_, ?_, ?_, ?_, ?_, ?_, ?_, ?_, ?_, ?_, ?_, ?_, ?_, ?_, ?_, ?_⟩
        · rw [uart_xmitchars_loop]
          simp only [ne_eq, hne, not_false_eq_true, if_true]
          have : (uart_txready dev).1 = true := by simpa [uart_txready] using hk0
          simp only [this, if_true]
          rw [show (uart_txready dev).2.xmit = dev.xmit from rfl, hrun, hmin]
          congr 2
          omega
        · rw [hsent, hmin, List.range_succ_eq_map]
          have hs : dev.xmit.tail < dev.xmit.size := hr.2
          simp only [uart_send, uart_txready, pop_one, List.map_cons, List.map_map,
            List.append_assoc, List.singleton_append, Nat.add_zero, Nat.mod_eq_of_lt hs]
          congr 2
          apply List.map_congr_left
          intro i _
          simp only [Function.comp]
          rw [next_index_eq_mod hs, Nat.mod_add_mod]
          congr 2
          omega
        · rw [htail, hmin]
          have hs : dev.xmit.tail < dev.xmit.size := hr.2
          simp only [pop_one]
          rw [next_index_eq_mod hs, Nat.mod_add_mod]
          congr 1
          omega
        · rw [hhead]; rfl
        · rw [hbuf]; rfl
        · rw [hsize]; rfl
        · rw [h1]; rfl
        · rw [h2]; rfl
        · rw [h3]; rfl
        · rw [h4]; rfl
        · rw [h5, hmin]
          simp only [uart_send, uart_txready]
          rw [← hocc]
          split_ifs <;> omega
        · rw [h6]; rfl
        · rw [h7]; rfl
        · rw [h8]; rfl
        · rw [h9]; rfl
        · rw [h10]; rfl
        · rw [h11]; rfl
        · rw [h12]; rfl
        · rw [h13]; rfl

/-! ## The receive loop -/

theorem dorxflowcontrol_configured_off (cfg : Config) (h : cfg.CONFIG_SERIAL_IFLOWCONTROL = false)
    (dev : uart_dev_s) (full : Bool) : dorxflowcontrol_configured cfg dev full = (false, dev) := by
  simp [dorxflowcontrol_configured, h]

theorem is_full_iff_free (b : uart_buffer_s) (h : inrange b) :
    is_full b = true ↔ free_count b = 0 := by
  unfold is_full free_count
  rw [occupied_count_eq b h]
  obtain ⟨hh, ht⟩ := h
  simp only [next_index, beq_iff_eq]
  split_ifs <;> omega

/-- One pass of the store step on an in-range buffer that is not full raises
the occupied count by one and keeps the indices in range. -/
theorem push_one_spec (b : uart_buffer_s) (ch : Nat) (h : inrange b)
    (hnf : is_full b = false) :
    inrange (push_one b ch) ∧ occupied_count (push_one b ch) = occupied_count b + 1 := by
  have hr : inrange (push_one b ch) := ⟨next_index_lt (by have := h.1; omega), h.2⟩
  refine ⟨hr, ?_⟩
  rw [occupied_count_eq _ hr, occupied_count_eq b h]
  obtain ⟨hh, ht⟩ := h
  simp only [is_full, next_index, beq_eq_false_iff_ne] at hnf
  simp only [push_one, recv_store, next_index]
  split_ifs at hnf ⊢ <;> omega

theorem source_bytes_succ (ops : uart_ops_s) (n count : Nat) :
    source_bytes ops n (count + 1) = ops.receive n :: source_bytes ops (n + 1) count := by
  simp only [source_bytes, List.range_succ_eq_map, List.map_cons, List.map_map, Nat.add_zero]
  congr 1
  apply List.map_congr_left
  intro i _
  simp only [Function.comp]
  congr 1
  omega

/-- What the receive loop does without flow control on an in-range buffer when
the source holds exactly `k` characters: it returns, having read all `k`, stored
the first `min f k` of them with the store step, and changed nothing else. -/
theorem uart_recvchars_loop_spec (cfg : Config)
    (hcfg : cfg.CONFIG_SERIAL_IFLOWCONTROL = false) :
    ∀ (fuel : Nat) (dev : uart_dev_s) (nbytes k : Nat),
      inrange dev.recv → nbytes < 65536 →
      (∀ i, i < k → dev.ops.rxavailable (dev.nrxavailable + i) = true) →
      dev.ops.rxavailable (dev.nrxavailable + k) = false →
      k < fuel →
      uart_recvchars_loop cfg fuel dev (next_index dev.recv.head dev.recv.size) nbytes
        = some ({ dev with
                  recv := (source_bytes dev.ops dev.nreceive
                    (min (free_count dev.recv) k)).foldl push_one dev.recv
                  nrxavailable := dev.nrxavailable + k + 1
                  nreceive := dev.nreceive + k },
                (nbytes + min (free_count dev.recv) k) % 65536) := by
  intro fuel
  induction fuel with
  | zero => intro dev nbytes k _ _ _ _ hf; omega
  | succ fuel ih =>
    intro dev nbytes k hr hnb hk hk1 hf
    cases k with
    | zero =>
      have hk0 : dev.ops.rxavailable dev.nrxavailable = false := by simpa using hk1
      simp [uart_recvchars_loop, uart_rxavailable, hk0, source_bytes, Nat.mod_eq_of_lt hnb]
    | succ k =>
      have hk0 : dev.ops.rxavailable dev.nrxavailable = true := by simpa using hk 0 (by omega)
      rw [uart_recvchars_loop]
      simp only [uart_rxavailable, hk0, if_true, dorxflowcontrol_configured_off cfg hcfg,
        Bool.false_eq_true, if_false, uart_receive]
      by_cases hfull : is_full dev.recv = true
      · have hf0 : free_count dev.recv = 0 := (is_full_iff_free _ hr).1 hfull
        have hfull1 : (next_index dev.recv.head dev.recv.size == dev.recv.tail) = true := hfull
        simp only [hfull1, Bool.not_true, Bool.false_eq_true, if_false]
        have := ih { dev with nrxavailable := dev.nrxavailable + 1, nreceive := dev.nreceive + 1 }
          nbytes k hr hnb
          (by intro i hi
              have := hk (i + 1) (by omega)
              simpa [Nat.add_assoc, Nat.add_comm 1 i] using this)
          (by simpa [Nat.add_assoc, Nat.add_comm 1 k] using hk1)
          (by omega)
        dsimp only at this
        rw [this, hf0]
        simp [source_bytes, Nat.add_assoc, Nat.add_comm 1 k]
      · have hnf : is_full dev.recv = false := by simpa using hfull
        have hfull1 : (next_index dev.recv.head dev.recv.size == dev.recv.tail) = false := hnf
        obtain ⟨hr1, hocc⟩ := push_one_spec dev.recv (dev.ops.receive dev.nreceive) hr hnf
        have hfpos : 0 < free_count dev.recv := by
          have := (is_full_iff_free _ hr).not.1 hfull
          omega
        have hfree : free_count (push_one dev.recv (dev.ops.receive dev.nreceive)) + 1
            = free_count dev.recv := by
          unfold free_count at hfpos ⊢
          have hsz : (push_one dev.recv (dev.ops.receive dev.nreceive)).size = dev.recv.size := rfl
          rw [hocc, hsz]
          omega
        simp only [hfull1, Bool.not_false, if_true]
        have := ih { dev with
            recv := push_one dev.recv (dev.ops.receive dev.nreceive)
            nrxavailable := dev.nrxavailable + 1, nreceive := dev.nreceive + 1 }
          ((nbytes + 1) % 65536) k hr1 (Nat.mod_lt _ (by norm_num))
          (by intro i hi
              have := hk (i + 1) (by omega)
              simpa [Nat.add_assoc, Nat.add_comm 1 i] using this)
          (by simpa [Nat.add_assoc, Nat.add_comm 1 k] using hk1)
          (by omega)
        dsimp only at this
        have hmin : min (free_count dev.recv) (k + 1)
            = min (free_count (push_one dev.recv (dev.ops.receive dev.nreceive))) k + 1 := by
          rw [← hfree]; omega
        have hstep : (recv_store dev.recv (next_index dev.recv.head dev.recv.size)
              (dev.ops.receive dev.nreceive)).1
            = push_one dev.recv (dev.ops.receive dev.nreceive) := rfl
        have hnext : (recv_store dev.recv (next_index dev.recv.head dev.recv.size)
              (dev.ops.receive dev.nreceive)).2
            = next_index (push_one dev.recv (dev.ops.receive dev.nreceive)).head
                (push_one dev.recv (dev.ops.receive dev.nreceive)).size := rfl
        rw [hstep, hnext, this, hmin, source_bytes_succ]
        simp only [List.foldl_cons, Option.some.injEq, Prod.mk.injEq, uart_dev_s.mk.injEq,
          true_and, and_true]
        refine ⟨⟨by omega, by omega⟩, by omega⟩

/-- The store step run over a list of at most `size` characters from an
in-range `head`: character `i` lands in cell `(head + i) mod size`, `head` moves
on by the length of the list, and nothing else changes. -/
theorem foldl_push_one_spec :
    ∀ (cs : List Nat) (b : uart_buffer_s), b.head < b.size → cs.length ≤ b.size →
      (cs.foldl push_one b).head = (b.head + cs.length) % b.size ∧
      (cs.foldl push_one b).tail = b.tail ∧
      (cs.foldl push_one b).size = b.size ∧
      (∀ i, i < cs.length →
        cs[i]? = some ((cs.foldl push_one b).buffer ((b.head + i) % b.size))) ∧
      (∀ j, (∀ i, i < cs.length → j ≠ (b.head + i) % b.size) →
        (cs.foldl push_one b).buffer j = b.buffer j) := by
  intro cs
  induction cs with
  | nil =>
    intro b hh _
    simp [Nat.mod_eq_of_lt hh]
  | cons c cs ih =>
    intro b hh hlen
    simp only [List.length_cons] at hlen
    have hsz : (push_one b c).size = b.size := rfl
    have hhd : (push_one b c).head = (b.head + 1) % b.size := next_index_eq_mod hh
    have hbuf : (push_one b c).buffer = Function.update b.buffer b.head c := rfl
    obtain ⟨h1, h2, h3, h4, h5⟩ := ih (push_one b c)
      (by rw [hhd, hsz]; exact Nat.mod_lt _ (by omega)) (by rw [hsz]; omega)
    rw [hsz, hhd] at h1 h4 h5
    simp only [Nat.mod_add_mod] at h1 h4 h5
    simp only [List.foldl_cons, List.length_cons]
    refine ⟨by rw [h1]; congr 1; omega, h2, by rw [h3, hsz], ?_, ?_⟩
    · intro i hi
      cases i with
      | zero =>
        have := h5 b.head (fun i hi1 => by
          have := add_mod_ne hh (Nat.succ_pos i) (show i + 1 < b.size by omega)
          rw [show b.head + 1 + i = b.head + i.succ by omega]
          exact fun h => this h.symm)
        simp [this, hbuf, Nat.mod_eq_of_lt hh]
      | succ i =>
        have := h4 i (by omega)
        rw [List.getElem?_cons_succ, this]
        congr 3
        omega
    · intro j hj
      have hj0 : j ≠ b.head := by
        have := hj 0 (by omega)
        simpa [Nat.mod_eq_of_lt hh] using this
      rw [h5 j (fun i hi => by
        have := hj (i + 1) (by omega)
        rwa [show b.head + (i + 1) = b.head + 1 + i by omega] at this), hbuf,
        Function.update_noteq hj0]

theorem source_bytes_length (ops : uart_ops_s) (n count : Nat) :
    (source_bytes ops n count).length = count := by
  simp [source_bytes]

theorem source_bytes_getElem? (ops : uart_ops_s) (n count i : Nat) (h : i < count) :
    (source_bytes ops n count)[i]? = some (ops.receive (n + i)) := by
  simp [source_bytes, List.getElem?_map, List.getElem?_range h]

/-! ## Sequences of stores and takes -/

theorem contents_length (b : uart_buffer_s) : (contents b).length = occupied_count b := by
  simp [contents]

theorem tail_add_occupied (b : uart_buffer_s) (h : inrange b) :
    (b.tail + occupied_count b) % b.size = b.head := by
  rw [occupied_count_eq b h]
  obtain ⟨hh, ht⟩ := h
  split_ifs with hle
  · rw [add_mod_cases _ _ (by omega)]; split_ifs <;> omega
  · rw [add_mod_cases _ _ (by omega)]; split_ifs <;> omega

theorem tail_add_ne_head (b : uart_buffer_s) (h : inrange b) (i : Nat)
    (hi : i < occupied_count b) : (b.tail + i) % b.size ≠ b.head := by
  rw [occupied_count_eq b h] at hi
  obtain ⟨hh, ht⟩ := h
  split_ifs at hi with hle
  · rw [add_mod_cases _ _ (by omega)]; split_ifs <;> omega
  · rw [add_mod_cases _ _ (by omega)]; split_ifs <;> omega

/-- A store on a buffer that is not full appends the character to the occupied
region. -/
theorem contents_push_one (b : uart_buffer_s) (ch : Nat) (h : inrange b)
    (hnf : is_full b = false) : contents (push_one b ch) = contents b ++ [ch] := by
  obtain ⟨_, hocc⟩ := push_one_spec b ch h hnf
  unfold contents
  rw [hocc, List.range_succ, List.map_append]
  have hb : (push_one b ch).buffer = Function.update b.buffer b.head ch := rfl
  have ht : (push_one b ch).tail = b.tail := rfl
  have hs : (push_one b ch).size = b.size := rfl
  rw [hb, ht, hs]
  congr 1
  · apply List.map_congr_left
    intro i hi
    rw [Function.update_noteq (tail_add_ne_head b h i (List.mem_range.1 hi))]
  · simp only [List.map_cons, List.map_nil]
    rw [tail_add_occupied b h, Function.update_same]

/-- A take from a buffer that is not empty removes the oldest character of the
occupied region and returns it. -/
theorem contents_pop_one (b : uart_buffer_s) (h : inrange b) (hne : b.head ≠ b.tail) :
    contents b = (pop_one b).1 :: contents (pop_one b).2 := by
  obtain ⟨_, hocc⟩ := pop_one_spec b h hne
  unfold contents
  rw [← hocc, List.range_succ_eq_map, List.map_cons, List.map_map]
  have hb : (pop_one b).2.buffer = b.buffer := rfl
  have ht : (pop_one b).2.tail = (b.tail + 1) % b.size := next_index_eq_mod h.2
  have hs : (pop_one b).2.size = b.size := rfl
  rw [hb, ht, hs]
  congr 1
  · simp [pop_one, Nat.mod_eq_of_lt h.2]
  · apply List.map_congr_left
    intro i _
    simp only [Function.comp, Nat.mod_add_mod]
    congr 2
    omega

/-- The FIFO invariant: along a sequence that respects the not-full and
not-empty preconditions the indices stay in range, what was in the buffer
followed by what was stored is what was taken followed by what is in the buffer,
and every take returned a character. -/
theorem run_ops_spec :
    ∀ (ops : List Op) (b : uart_buffer_s), inrange b → respects b ops = true →
      inrange (run_ops b ops).1 ∧
      contents b ++ pushed ops = (run_ops b ops).2 ++ contents (run_ops b ops).1 ∧
      (run_ops b ops).2.length = pops ops := by
  intro ops
  induction ops with
  | nil => intro b h _; simp [run_ops, pushed, pops, h]
  | cons op ops ih =>
    intro b h hr
    cases op with
    | push ch =>
      simp only [respects, Bool.and_eq_true, Bool.not_eq_true'] at hr
      obtain ⟨h1, h2, h3⟩ := ih (push_one b ch) (push_one_spec b ch h hr.1).1 hr.2
      refine ⟨h1, ?_, h3⟩
      rw [run_ops, ← h2, contents_push_one b ch h hr.1]
      simp [pushed]
    | pop =>
      simp only [respects, Bool.and_eq_true, decide_eq_true_eq] at hr
      obtain ⟨h1, h2, h3⟩ := ih (pop_one b).2 (pop_one_spec b h hr.1).1 hr.2
      refine ⟨h1, ?_, by simp [run_ops, pops, h3]⟩
      rw [contents_pop_one b h hr.1]
      simp only [run_ops, pushed, List.cons_append, h2]

theorem respects_take :
    ∀ (ops : List Op) (b : uart_buffer_s) (n : Nat), respects b ops = true →
      respects b (ops.take n) = true := by
  intro ops
  induction ops with
  | nil => intro b n _; simp [respects]
  | cons op ops ih =>
    intro b n hr
    cases n with
    | zero => simp [respects]
    | succ n =>
      cases op with
      | push ch =>
        simp only [respects, Bool.and_eq_true] at hr
        simp [respects, hr.1, ih _ n hr.2]
      | pop =>
        simp only [respects, Bool.and_eq_true] at hr
        simp only [List.take_succ_cons, respects, Bool.and_eq_true]
        exact ⟨hr.1, ih _ n hr.2⟩

theorem run_ops_append :
    ∀ (o1 o2 : List Op) (b : uart_buffer_s),
      run_ops b (o1 ++ o2) =
        ((run_ops (run_ops b o1).1 o2).1, (run_ops b o1).2 ++ (run_ops (run_ops b o1).1 o2).2) := by
  intro o1
  induction o1 with
  | nil => intro o2 b; simp [run_ops]
  | cons op o1 ih =>
    intro o2 b
    cases op with
    | push ch => simp [run_ops, ih]
    | pop => simp [run_ops, ih]

theorem respects_append :
    ∀ (o1 o2 : List Op) (b : uart_buffer_s),
      respects b (o1 ++ o2) = (respects b o1 && respects (run_ops b o1).1 o2) := by
  intro o1
  induction o1 with
  | nil => intro o2 b; simp [respects, run_ops]
  | cons op o1 ih =>
    intro o2 b
    cases op with
    | push ch => simp [respects, run_ops, ih, Bool.and_assoc]
    | pop => simp [respects, run_ops, ih, Bool.and_assoc]

theorem run_ops_pushes :
    ∀ (cs : List Nat) (b : uart_buffer_s),
      run_ops b (cs.map Op.push) = (cs.foldl push_one b, []) := by
  intro cs
  induction cs with
  | nil => intro b; rfl
  | cons c cs ih => intro b; simp [run_ops, ih]

theorem pushed_pushes (cs : List Nat) : pushed (cs.map Op.push) = cs := by
  induction cs with
  | nil => rfl
  | cons c cs ih => simp [pushed, ih]

theorem pushed_pops (n : Nat) : pushed (List.replicate n Op.pop) = [] := by
  induction n with
  | zero => rfl
  | succ n ih => simp [List.replicate_succ, pushed, ih]

theorem pops_pops (n : Nat) : pops (List.replicate n Op.pop) = n := by
  induction n with
  | zero => rfl
  | succ n ih => simp [List.replicate_succ, pops, ih]

theorem pushed_append (o1 o2 : List Op) : pushed (o1 ++ o2) = pushed o1 ++ pushed o2 := by
  induction o1 with
  | nil => rfl
  | cons op o1 ih => cases op <;> simp [pushed, ih]

theorem pops_append (o1 o2 : List Op) : pops (o1 ++ o2) = pops o1 + pops o2 := by
  induction o1 with
  | nil => simp [pops]
  | cons op o1 ih =>
    cases op with
    | push ch => simp [pops, ih]
    | pop => simp [pops, ih]; omega

theorem pops_pushes (cs : List Nat) : pops (cs.map Op.push) = 0 := by
  induction cs with
  | nil => rfl
  | cons c cs ih => simp [pops, ih]

/-- Storing at most as many characters as there are free slots never meets a
full buffer. -/
theorem respects_pushes :
    ∀ (cs : List Nat) (b : uart_buffer_s), inrange b → cs.length ≤ free_count b →
      respects b (cs.map Op.push) = true := by
  intro cs
  induction cs with
  | nil => intro b _ _; rfl
  | cons c cs ih =>
    intro b h hlen
    simp only [List.length_cons] at hlen
    have hnf : is_full b = false := by
      have := (is_full_iff_free b h).not.2 (by omega)
      simpa using this
    obtain ⟨h1, hocc⟩ := push_one_spec b c h hnf
    have hfree : free_count (push_one b c) + 1 = free_count b := by
      unfold free_count at hlen ⊢
      have hsz : (push_one b c).size = b.size := rfl
      rw [hocc, hsz]
      omega
    simp only [List.map_cons, respects, hnf, Bool.not_false, Bool.true_and]
    exact ih _ h1 (by omega)

/-- Taking at most as many characters as are occupied never meets an empty
buffer. -/
theorem respects_pops :
    ∀ (n : Nat) (b : uart_buffer_s), inrange b → n ≤ occupied_count b →
      respects b (List.replicate n Op.pop) = true := by
  intro n
  induction n with
  | zero => intro b _ _; rfl
  | succ n ih =>
    intro b h hn
    have hne : b.head ≠ b.tail := by
      have := (occupied_count_zero_iff b h).not.1 (by omega)
      exact this
    obtain ⟨h1, hocc⟩ := pop_one_spec b h hne
    simp only [List.replicate_succ, respects, hne, ne_eq, not_false_eq_true, decide_True,
      Bool.true_and]
    exact ih _ h1 (by omega)

/-- An empty in-range buffer has nothing occupied and `size - 1` slots free. -/
theorem empty_counts (b : uart_buffer_s) (hempty : b.head = b.tail) (hhead : b.head < b.size) :
    inrange b ∧ occupied_count b = 0 ∧ free_count b = b.size - 1 ∧ contents b = [] := by
  have hr : inrange b := ⟨hhead, hempty ▸ hhead⟩
  have h0 : occupied_count b = 0 := (occupied_count_zero_iff b hr).2 hempty
  refine ⟨hr, h0, by simp [free_count, h0], ?_⟩
  simp [contents, h0]

/-- Storing `n <= size - 1` characters into an empty buffer and taking `n`
back: both runs respect the preconditions, the characters come back in order,
and the buffer ends empty. -/
theorem roundtrip_spec (b : uart_buffer_s) (cs : List Nat)
    (hempty : b.head = b.tail) (hhead : b.head < b.size) (hlen : cs.length ≤ b.size - 1) :
    respects b (cs.map Op.push) = true ∧
    inrange (cs.foldl push_one b) ∧
    occupied_count (cs.foldl push_one b) = cs.length ∧
    respects (cs.foldl push_one b) (List.replicate cs.length Op.pop) = true ∧
    (run_ops (cs.foldl push_one b) (List.replicate cs.length Op.pop)).2 = cs ∧
    inrange (run_ops (cs.foldl push_one b) (List.replicate cs.length Op.pop)).1 ∧
    occupied_count (run_ops (cs.foldl push_one b) (List.replicate cs.length Op.pop)).1 = 0 := by
  obtain ⟨hr, h0, hfree, hnil⟩ := empty_counts b hempty hhead
  have hresp1 := respects_pushes cs b hr (by omega)
  obtain ⟨hr1, hfifo1, -⟩ := run_ops_spec _ b hr hresp1
  rw [run_ops_pushes] at hr1 hfifo1
  dsimp only at hr1 hfifo1
  simp only [hnil, pushed_pushes, List.nil_append] at hfifo1
  have hocc1 : occupied_count (cs.foldl push_one b) = cs.length := by
    rw [← contents_length, ← hfifo1]
  have hresp2 := respects_pops cs.length _ hr1 (by omega)
  obtain ⟨hr2, hfifo2, hlen2⟩ := run_ops_spec _ _ hr1 hresp2
  rw [pushed_pops, List.append_nil, ← hfifo1] at hfifo2
  rw [pops_pops] at hlen2
  have hlen3 := congrArg List.length hfifo2
  rw [List.length_append, contents_length] at hlen3
  have hocc2 : occupied_count
      (run_ops (cs.foldl push_one b) (List.replicate cs.length Op.pop)).1 = 0 := by omega
  have hnil2 : contents
      (run_ops (cs.foldl push_one b) (List.replicate cs.length Op.pop)).1 = [] := by
    apply List.eq_nil_of_length_eq_zero
    rw [contents_length, hocc2]
  rw [hnil2, List.append_nil] at hfifo2
  exact ⟨hresp1, hr1, hocc1, hresp2, hfifo2.symm, hr2, hocc2⟩

/-- Without flow control, on a full in-range RX buffer against a source of `m`
characters, the receive loop reads all `m` and stores none. -/
theorem uart_recvchars_loop_full (cfg : Config) (dev : uart_dev_s) (m fuel : Nat)
    (hcfg : cfg.CONFIG_SERIAL_IFLOWCONTROL = false)
    (hhead : dev.recv.head < dev.recv.size)
    (hfull : (dev.recv.head + 1) % dev.recv.size = dev.recv.tail)
    (havail : ∀ i, i < m → dev.ops.rxavailable (dev.nrxavailable + i) = true)
    (hend : dev.ops.rxavailable (dev.nrxavailable + m) = false)
    (hfuel : m < fuel) :
    uart_recvchars_loop cfg fuel dev (next_index dev.recv.head dev.recv.size) 0
      = some ({ dev with nrxavailable := dev.nrxavailable + m + 1
                         nreceive := dev.nreceive + m }, 0) := by
  have hrange : inrange dev.recv :=
    ⟨hhead, by rw [← hfull]; exact Nat.mod_lt _ (by omega)⟩
  have hfree : free_count dev.recv = 0 := by
    apply (is_full_iff_free _ hrange).1
    simp [is_full, next_index_eq_mod hhead, hfull]
  have hloop := uart_recvchars_loop_spec cfg hcfg fuel dev 0 m hrange (by norm_num)
    havail hend hfuel
  rw [hfree] at hloop
  simpa only [Nat.zero_min, source_bytes, List.range_zero, List.map_nil, List.foldl_nil,
    Nat.add_zero, Nat.zero_mod] using hloop

/-- The flow-control block touches nothing but the record of the
`uart_rxflowcontrol` calls. -/
theorem dorxflowcontrol_configured_frame (cfg : Config) (dev : uart_dev_s) (full : Bool) :
    (dorxflowcontrol_configured cfg dev full).2
      = { dev with rxflow := (dorxflowcontrol_configured cfg dev full).2.rxflow } := by
  unfold dorxflowcontrol_configured uart_dorxflowcontrol_watermarks uart_dorxflowcontrol_full
    uart_rxflowcontrol
  dsimp only
  split_ifs <;> rfl

/-- In every build configuration, on a full RX buffer against a source of `m`
characters, the receive loop returns with `received == 0` and the buffer
untouched; it has read at most `m` characters. -/
theorem uart_recvchars_loop_full_any (cfg : Config) :
    ∀ (fuel : Nat) (dev : uart_dev_s) (m : Nat),
      next_index dev.recv.head dev.recv.size = dev.recv.tail →
      (∀ i, i < m → dev.ops.rxavailable (dev.nrxavailable + i) = true) →
      dev.ops.rxavailable (dev.nrxavailable + m) = false →
      m < fuel →
      ∃ dev1, uart_recvchars_loop cfg fuel dev (next_index dev.recv.head dev.recv.size) 0
          = some (dev1, 0) ∧
        dev1.recv = dev.recv ∧ dev1.nreceive ≤ dev.nreceive + m ∧
        dev1.ndatareceived = dev.ndatareceived := by
  intro fuel
  induction fuel with
  | zero => intro dev m _ _ _ hf; omega
  | succ fuel ih =>
    intro dev m hfull hk hk1 hf
    cases m with
    | zero =>
      have hk0 : dev.ops.rxavailable dev.nrxavailable = false := by simpa using hk1
      exact ⟨(uart_rxavailable dev).2,
        by simp [uart_recvchars_loop, uart_rxavailable, hk0], rfl, by simp [uart_rxavailable],
        rfl⟩
    | succ m =>
      have hk0 : dev.ops.rxavailable dev.nrxavailable = true := by simpa using hk 0 (by omega)
      have hframe := dorxflowcontrol_configured_frame cfg (uart_rxavailable dev).2
        (next_index dev.recv.head dev.recv.size == (uart_rxavailable dev).2.recv.tail)
      rw [uart_recvchars_loop]
      have ha : (uart_rxavailable dev).1 = true := hk0
      simp only [ha, if_true]
      generalize dorxflowcontrol_configured cfg (uart_rxavailable dev).2
        (next_index dev.recv.head dev.recv.size == (uart_rxavailable dev).2.recv.tail) = g
        at hframe ⊢
      have hrecv : g.2.recv = dev.recv := by rw [hframe]; rfl
      have hops : g.2.ops = dev.ops := by rw [hframe]; rfl
      have hnrx : g.2.nrxavailable = dev.nrxavailable + 1 := by rw [hframe]; rfl
      have hnrc : g.2.nreceive = dev.nreceive := by rw [hframe]; rfl
      have hndr : g.2.ndatareceived = dev.ndatareceived := by rw [hframe]; rfl
      by_cases hg : g.1 = true
      · simp only [hg, if_true]
        exact ⟨g.2, rfl, hrecv, by omega, hndr⟩
      · have hfull1 : (next_index dev.recv.head dev.recv.size
            == (uart_rxavailable dev).2.recv.tail) = true := by
          simpa [uart_rxavailable] using hfull
        simp only [hg, if_false, hfull1, Bool.not_true, Bool.false_eq_true]
        obtain ⟨dev1, h1, h2, h3, h4⟩ := ih (uart_receive g.2).2 m
          (by simpa [uart_receive, hrecv] using hfull)
          (by intro i hi
              have := hk (i + 1) (by omega)
              simpa [uart_receive, hops, hnrx, Nat.add_assoc, Nat.add_comm 1 i] using this)
          (by simpa [uart_receive, hops, hnrx, Nat.add_assoc, Nat.add_comm 1 m] using hk1)
          (by omega)
        have hr2 : (uart_receive g.2).2.recv = dev.recv := by simp [uart_receive, hrecv]
        rw [hr2] at h1 h2
        refine ⟨dev1, h1, h2, ?_, ?_⟩
        · simp only [uart_receive, hnrc] at h3
          omega
        · simpa [uart_receive, hndr] using h4

/-! ## The receive planner -/

/-- What `uart_recvchars_dma` plans on an in-range RX buffer that is not full
when the flow-control block does not tell it to stop. -/
theorem uart_recvchars_dma_spec (cfg : Config) (dev : uart_dev_s)
    (hrange : inrange dev.recv)
    (hnotfull : (dev.recv.head + 1) % dev.recv.size ≠ dev.recv.tail)
    (hflow : (dorxflowcontrol_configured cfg dev false).1 = false) :
    (dev.recv.tail ≤ dev.recv.head → 0 < dev.recv.tail →
      (uart_recvchars_dma cfg dev).dmarx.buffer = some dev.recv.head ∧
      (uart_recvchars_dma cfg dev).dmarx.length = ((dev.recv.size - dev.recv.head : Nat) : Int) ∧
      (uart_recvchars_dma cfg dev).dmarx.nbuffer = some 0 ∧
      (uart_recvchars_dma cfg dev).dmarx.nlength = ((dev.recv.tail - 1 : Nat) : Int)) ∧
    (dev.recv.tail = 0 →
      (uart_recvchars_dma cfg dev).dmarx.buffer = some dev.recv.head ∧
      (uart_recvchars_dma cfg dev).dmarx.length
        = ((dev.recv.size - 1 - dev.recv.head : Nat) : Int) ∧
      (uart_recvchars_dma cfg dev).dmarx.nlength = 0) ∧
    (dev.recv.tail > dev.recv.head →
      (uart_recvchars_dma cfg dev).dmarx.buffer = some dev.recv.head ∧
      (uart_recvchars_dma cfg dev).dmarx.length
        = ((dev.recv.tail - 1 - dev.recv.head : Nat) : Int) ∧
      (uart_recvchars_dma cfg dev).dmarx.nbuffer = none ∧
      (uart_recvchars_dma cfg dev).dmarx.nlength = 0) ∧
    (uart_recvchars_dma cfg dev).ndmareceive = dev.ndmareceive + 1 := by
  have hfull : (next_index dev.recv.head dev.recv.size == dev.recv.tail) = false := by
    rw [next_index_eq_mod hrange.1]
    simpa using hnotfull
  have hframe := dorxflowcontrol_configured_frame cfg dev false
  obtain ⟨hh, ht⟩ := hrange
  unfold uart_recvchars_dma
  simp only [hfull, hflow, Bool.false_eq_true, if_false]
  generalize dorxflowcontrol_configured cfg dev false = g at hframe
  have hrecv : g.2.recv = dev.recv := by rw [hframe]
  have hndma : g.2.ndmareceive = dev.ndmareceive := by rw [hframe]
  refine ⟨?_, ?_, ?_, ?_⟩
  · intro hle hpos
    simp only [hrecv, hle, hpos, if_true, uart_dmareceive, gt_iff_lt, true_and]
    omega
  · intro h0
    have hle : dev.recv.tail ≤ dev.recv.head := by omega
    have hnpos : ¬ dev.recv.tail > 0 := by omega
    simp only [hrecv, hle, hnpos, if_true, if_false, uart_dmareceive, true_and, and_true]
    omega
  · intro hgt
    have hnle : ¬ dev.recv.tail ≤ dev.recv.head := by omega
    simp only [hrecv, hnle, if_false, uart_dmareceive, true_and, and_true]
    omega
  · simp [uart_dmareceive, hndma]

/-! ## The completion handlers -/

/-- The whole effect of `uart_xmitchars_done`. -/
theorem uart_xmitchars_done_eq (cfg : Config) (dev : uart_dev_s) :
    uart_xmitchars_done cfg dev =
      { dev with
        xmit := { dev.xmit with
          tail := ((dev.xmit.tail + dev.dmatx.nbytes % 2 ^ cfg.size_t_bits)
            % 2 ^ cfg.size_t_bits) % dev.xmit.size }
        dmatx := { dev.dmatx with nbytes := 0, length := 0, nlength := 0 }
        ndatasent := dev.ndatasent
          + (if dev.dmatx.nbytes % 2 ^ cfg.size_t_bits = 0 then 0 else 1) } := by
  by_cases h : dev.dmatx.nbytes % 2 ^ cfg.size_t_bits = 0 <;>
    simp [uart_xmitchars_done, uart_datasent, h]

/-- The whole effect of `uart_recvchars_done`. -/
theorem uart_recvchars_done_eq (cfg : Config) (dev : uart_dev_s) :
    uart_recvchars_done cfg dev =
      { dev with
        recv := { dev.recv with
          head := ((dev.recv.head + dev.dmarx.nbytes % 2 ^ cfg.size_t_bits)
            % 2 ^ cfg.size_t_bits) % dev.recv.size }
        dmarx := { dev.dmarx with nbytes := 0, length := 0, nlength := 0 }
        ndatareceived := dev.ndatareceived
          + (if dev.dmarx.nbytes % 2 ^ cfg.size_t_bits = 0 then 0 else 1) } := by
  by_cases h : dev.dmarx.nbytes % 2 ^ cfg.size_t_bits = 0 <;>
    simp [uart_recvchars_done, uart_datareceived, h]

/-- When the sum `index + nbytes` fits `size_t`, the two reductions modulo the
width of `size_t` do nothing. -/
theorem size_t_sum_fits {i n w : Nat} (h : i + n < 2 ^ w) :
    n % 2 ^ w = n ∧ (i + n) % 2 ^ w = i + n :=
  ⟨Nat.mod_eq_of_lt (by omega), Nat.mod_eq_of_lt h⟩

/-- On a device whose TX descriptor is clear and whose `tail` is in range,
`uart_xmitchars_done` changes nothing. -/
theorem uart_xmitchars_done_clear (cfg : Config) (dev : uart_dev_s)
    (hn : dev.dmatx.nbytes = 0) (hl : dev.dmatx.length = 0) (hnl : dev.dmatx.nlength = 0)
    (ht : dev.xmit.tail < dev.xmit.size) (hw : dev.xmit.tail < 2 ^ cfg.size_t_bits) :
    uart_xmitchars_done cfg dev = dev := by
  rw [uart_xmitchars_done_eq]
  obtain ⟨⟨xh, xt, xs, xb⟩, recv, ⟨b, l, nb, nl, n⟩, dmarx, ops, a1, a2, a3, a4, a5, a6, a7,
    a8, a9, a10⟩ := dev
  simp only at hn hl hnl ht hw
  subst hn hl hnl
  simp [Nat.mod_eq_of_lt hw, Nat.mod_eq_of_lt ht]

/-- On a device whose RX descriptor is clear and whose `head` is in range,
`uart_recvchars_done` changes nothing. -/
theorem uart_recvchars_done_clear (cfg : Config) (dev : uart_dev_s)
    (hn : dev.dmarx.nbytes = 0) (hl : dev.dmarx.length = 0) (hnl : dev.dmarx.nlength = 0)
    (hh : dev.recv.head < dev.recv.size) (hw : dev.recv.head < 2 ^ cfg.size_t_bits) :
    uart_recvchars_done cfg dev = dev := by
  rw [uart_recvchars_done_eq]
  obtain ⟨xmit, ⟨rh, rt, rs, rb⟩, dmatx, ⟨b, l, nb, nl, n⟩, ops, a1, a2, a3, a4, a5, a6, a7,
    a8, a9, a10⟩ := dev
  simp only at hn hl hnl hh hw
  subst hn hl hnl
  simp [Nat.mod_eq_of_lt hw, Nat.mod_eq_of_lt hh]

/-! ## The transmit planner -/

/-- The plan of `uart_xmitchars_dma` on an in-range, non-empty buffer addresses
the cells `tail, tail + 1, ...` modulo `size`, one for each occupied byte, and
its two lengths add up to the occupied count. -/
theorem uart_xmitchars_dma_slots (dev : uart_dev_s)
    (hrange : inrange dev.xmit) (hne : dev.xmit.head ≠ dev.xmit.tail) :
    (uart_xmitchars_dma dev).dmatx.length + (uart_xmitchars_dma dev).dmatx.nlength
      = (occupied_count dev.xmit : Int) ∧
    planned_slots (uart_xmitchars_dma dev).dmatx
      = (List.range (occupied_count dev.xmit)).map
          (fun i => (dev.xmit.tail + i) % dev.xmit.size) := by
  rw [occupied_count_eq _ hrange]
  obtain ⟨hh, ht⟩ := hrange
  by_cases hlt : dev.xmit.tail < dev.xmit.head
  · have hle : dev.xmit.tail ≤ dev.xmit.head := by omega
    simp only [uart_xmitchars_dma, hne, if_false, hlt, if_true, uart_dmasend, hle,
      planned_slots, segment_slots, List.append_nil]
    refine ⟨by omega, ?_⟩
    rw [show ((dev.xmit.head : Int) - dev.xmit.tail).toNat = dev.xmit.head - dev.xmit.tail
      by omega]
    apply List.map_congr_left
    intro i hi
    rw [List.mem_range] at hi
    rw [Nat.mod_eq_of_lt (by omega)]
  · have hnle : ¬ dev.xmit.tail ≤ dev.xmit.head := by omega
    simp only [uart_xmitchars_dma, hne, if_false, hlt, uart_dmasend, hnle,
      planned_slots, segment_slots]
    refine ⟨by omega, ?_⟩
    rw [show ((dev.xmit.size : Int) - dev.xmit.tail).toNat = dev.xmit.size - dev.xmit.tail
      by omega, Int.toNat_ofNat, List.range_add, List.map_append, List.map_map]
    congr 1
    · apply List.map_congr_left
      intro i hi
      rw [List.mem_range] at hi
      rw [Nat.mod_eq_of_lt (by omega)]
    · apply List.map_congr_left
      intro i hi
      rw [List.mem_range] at hi
      simp only [Function.comp]
      rw [add_mod_cases _ _ (by omega)]
      split_ifs <;> omega

/-- Every script of answers starts with some number `k <= n` of `true`s and, if
`k < n`, has `false` at position `k`. -/
theorem ready_prefix (p : Nat → Bool) (n : Nat) :
    ∃ k, k ≤ n ∧ (∀ i, i < k → p i = true) ∧ (k < n → p k = false) := by
  induction n with
  | zero => exact ⟨0, le_refl _, fun i hi => by omega, fun h => by omega⟩
  | succ n ih =>
    obtain ⟨k, hk, hall, hstop⟩ := ih
    by_cases hkn : k < n
    · exact ⟨k, by omega, hall, fun _ => hstop hkn⟩
    · have hkeq : k = n := by omega
      subst hkeq
      by_cases hp : p k = true
      · refine ⟨k + 1, le_refl _, ?_, fun h => by omega⟩
        intro i hi
        by_cases hik : i = k
        · rw [hik]; exact hp
        · exact hall i (by omega)
      · exact ⟨k, by omega, hall, fun _ => by simpa using hp⟩

/-- Which cells are occupied, without the modulus. -/
theorem mem_occupied_slots (b : uart_buffer_s) (h : inrange b) (j : Nat) :
    j ∈ occupied_slots b ↔
      if b.tail ≤ b.head then b.tail ≤ j ∧ j < b.head
      else (b.tail ≤ j ∧ j < b.size) ∨ j < b.head := by
  unfold occupied_slots
  rw [occupied_count_eq b h]
  obtain ⟨hh, ht⟩ := h
  simp only [List.mem_map, List.mem_range]
  constructor
  · rintro ⟨i, hi, rfl⟩
    split_ifs at hi ⊢ <;> rw [add_mod_cases _ _ (by omega)] <;> split_ifs <;> omega
  · intro hj
    split_ifs at hj ⊢ with hle
    · exact ⟨j - b.tail, by omega, by rw [Nat.mod_eq_of_lt (by omega)]; omega⟩
    · by_cases hjt : b.tail ≤ j
      · exact ⟨j - b.tail, by omega, by rw [Nat.mod_eq_of_lt (by omega)]; omega⟩
      · refine ⟨b.size - b.tail + j, by omega, ?_⟩
        rw [add_mod_cases _ _ (by omega)]
        split_ifs <;> omega

theorem reserved_slot_eq (b : uart_buffer_s) (h : inrange b) :
    reserved_slot b = if b.tail = 0 then b.size - 1 else b.tail - 1 := by
  obtain ⟨hh, ht⟩ := h
  unfold reserved_slot
  rw [add_mod_cases _ _ (by omega)]
  split_ifs <;> omega

theorem mem_segment_slots (s : Nat) (len : Int) (j : Nat) :
    j ∈ segment_slots (some s) len ↔ s ≤ j ∧ (j : Int) < s + len := by
  simp only [segment_slots, List.mem_map, List.mem_range]
  constructor
  · rintro ⟨i, hi, rfl⟩
    omega
  · intro hj
    exact ⟨j - s, by omega, by omega⟩

theorem segment_slots_zero (s : Option Nat) : segment_slots s 0 = [] := by
  cases s <;> simp [segment_slots]

theorem segment_slots_length (s : Nat) (len : Int) :
    (segment_slots (some s) len).length = len.toNat := by
  simp [segment_slots]

/-- The plan of `uart_recvchars_dma`, when it gets to plan, on an in-range
buffer that is not full: its two lengths add up to the free count, and the cells
it addresses are the cells of the array that are neither occupied nor the
reserved slot. -/
theorem uart_recvchars_dma_slots (cfg : Config) (dev : uart_dev_s)
    (hrange : inrange dev.recv)
    (hnotfull : (dev.recv.head + 1) % dev.recv.size ≠ dev.recv.tail)
    (hflow : (dorxflowcontrol_configured cfg dev false).1 = false) :
    (uart_recvchars_dma cfg dev).dmarx.length + (uart_recvchars_dma cfg dev).dmarx.nlength
      = (free_count dev.recv : Int) ∧
    (planned_slots (uart_recvchars_dma cfg dev).dmarx).length = free_count dev.recv ∧
    ∀ j, j ∈ planned_slots (uart_recvchars_dma cfg dev).dmarx ↔
      j < dev.recv.size ∧ j ∉ occupied_slots dev.recv ∧ j ≠ reserved_slot dev.recv := by
  obtain ⟨hA, hB, hC, -⟩ := uart_recvchars_dma_spec cfg dev hrange hnotfull hflow
  have hocc := occupied_count_eq _ hrange
  have hres := reserved_slot_eq _ hrange
  have hmem := mem_occupied_slots _ hrange
  obtain ⟨hh, ht⟩ := hrange
  have hnf := hnotfull
  rw [add_mod_cases _ _ (by omega)] at hnf
  unfold free_count planned_slots
  by_cases hle : dev.recv.tail ≤ dev.recv.head
  · by_cases hpos : 0 < dev.recv.tail
    · obtain ⟨h1, h2, h3, h4⟩ := hA hle hpos
      rw [h1, h2, h3, h4, hocc, hres]
      simp only [hle, if_true] at hmem ⊢
      refine ⟨by omega, ?_, ?_⟩
      · rw [List.length_append, segment_slots_length, segment_slots_length]
        omega
      · intro j
        rw [List.mem_append, mem_segment_slots, mem_segment_slots, hmem j]
        split_ifs <;> omega
    · obtain ⟨h1, h2, h4⟩ := hB (by omega)
      rw [h1, h2, h4, hocc, hres, segment_slots_zero]
      simp only [hle, if_true] at hmem ⊢
      refine ⟨by split_ifs at hnf <;> omega, ?_, ?_⟩
      · rw [List.append_nil, segment_slots_length]
        split_ifs at hnf <;> omega
      · intro j
        rw [List.append_nil, mem_segment_slots, hmem j]
        split_ifs at hnf ⊢ <;> omega
  · obtain ⟨h1, h2, h3, h4⟩ := hC (by omega)
    rw [h1, h2, h3, h4, hocc, hres]
    simp only [hle, if_false] at hmem ⊢
    refine ⟨by split_ifs at hnf <;> omega, ?_, ?_⟩
    · simp only [segment_slots, List.append_nil, List.length_map, List.length_range]
      split_ifs at hnf <;> omega
    · intro j
      simp only [segment_slots, List.append_nil]
      rw [← segment_slots, mem_segment_slots, hmem j]
      split_ifs at hnf ⊢ <;> omega

/-! ## Planning followed by completion -/

/-- Advancing `head` by at most the free count keeps the indices in range and
raises the occupied count by the same amount. -/
theorem advance_head_spec (b : uart_buffer_s) (n : Nat) (h : inrange b)
    (hn : n ≤ free_count b) :
    inrange { b with head := (b.head + n) % b.size } ∧
    occupied_count { b with head := (b.head + n) % b.size } = occupied_count b + n := by
  have hpos : 0 < b.size := by have := h.1; omega
  have hr : inrange { b with head := (b.head + n) % b.size } := ⟨Nat.mod_lt _ hpos, h.2⟩
  refine ⟨hr, ?_⟩
  rw [occupied_count_eq _ hr, occupied_count_eq b h]
  unfold free_count at hn
  rw [occupied_count_eq b h] at hn
  obtain ⟨hh, ht⟩ := h
  dsimp only
  by_cases hle : b.tail ≤ b.head
  · rw [if_pos hle] at hn ⊢
    rw [add_mod_cases _ _ (by omega)]
    split_ifs <;> omega
  · rw [if_neg hle] at hn ⊢
    rw [add_mod_cases _ _ (by omega)]
    split_ifs <;> omega

/-- Advancing `tail` by at most the occupied count keeps the indices in range
and lowers the occupied count by the same amount. -/
theorem advance_tail_spec (b : uart_buffer_s) (n : Nat) (h : inrange b)
    (hn : n ≤ occupied_count b) :
    inrange { b with tail := (b.tail + n) % b.size } ∧
    occupied_count { b with tail := (b.tail + n) % b.size } + n = occupied_count b := by
  have hpos : 0 < b.size := by have := h.1; omega
  have hr : inrange { b with tail := (b.tail + n) % b.size } := ⟨h.1, Nat.mod_lt _ hpos⟩
  refine ⟨hr, ?_⟩
  rw [occupied_count_eq _ hr, occupied_count_eq b h]
  rw [occupied_count_eq b h] at hn
  obtain ⟨hh, ht⟩ := h
  dsimp only
  by_cases hle : b.tail ≤ b.head
  · rw [if_pos hle] at hn ⊢
    rw [add_mod_cases _ _ (by omega)]
    split_ifs <;> omega
  · rw [if_neg hle] at hn ⊢
    rw [add_mod_cases _ _ (by omega)]
    split_ifs <;> omega

/-- What `uart_recvchars_dma` never touches: everything but the RX descriptor,
the count of `uart_dmareceive` calls and the record of flow-control requests. -/
theorem uart_recvchars_dma_frame (cfg : Config) (dev : uart_dev_s) :
    (uart_recvchars_dma cfg dev).recv = dev.recv ∧
    (uart_recvchars_dma cfg dev).xmit = dev.xmit ∧
    (uart_recvchars_dma cfg dev).dmatx = dev.dmatx ∧
    (uart_recvchars_dma cfg dev).ops = dev.ops ∧
    (uart_recvchars_dma cfg dev).ntxready = dev.ntxready ∧
    (uart_recvchars_dma cfg dev).sent = dev.sent ∧
    (uart_recvchars_dma cfg dev).ndisabletxint = dev.ndisabletxint ∧
    (uart_recvchars_dma cfg dev).ndatasent = dev.ndatasent ∧
    (uart_recvchars_dma cfg dev).nrxavailable = dev.nrxavailable ∧
    (uart_recvchars_dma cfg dev).nreceive = dev.nreceive ∧
    (uart_recvchars_dma cfg dev).ndatareceived = dev.ndatareceived ∧
    (uart_recvchars_dma cfg dev).ndmasend = dev.ndmasend := by
  have hframe := dorxflowcontrol_configured_frame cfg dev
    (next_index dev.recv.head dev.recv.size == dev.recv.tail)
  unfold uart_recvchars_dma
  dsimp only
  generalize dorxflowcontrol_configured cfg dev
    (next_index dev.recv.head dev.recv.size == dev.recv.tail) = g at hframe
  have h1 : g.2.recv = dev.recv := by rw [hframe]
  have h2 : g.2.xmit = dev.xmit := by rw [hframe]
  have h3 : g.2.dmatx = dev.dmatx := by rw [hframe]
  have h4 : g.2.ops = dev.ops := by rw [hframe]
  have h5 : g.2.ntxready = dev.ntxready := by rw [hframe]
  have h6 : g.2.sent = dev.sent := by rw [hframe]
  have h7 : g.2.ndisabletxint = dev.ndisabletxint := by rw [hframe]
  have h8 : g.2.ndatasent = dev.ndatasent := by rw [hframe]
  have h9 : g.2.nrxavailable = dev.nrxavailable := by rw [hframe]
  have h10 : g.2.nreceive = dev.nreceive := by rw [hframe]
  have h11 : g.2.ndatareceived = dev.ndatareceived := by rw [hframe]
  have h12 : g.2.ndmasend = dev.ndmasend := by rw [hframe]
  split_ifs <;>
    exact ⟨h1, h2, h3, h4, h5, h6, h7, h8, h9, h10, h11, h12⟩

/-- What `uart_xmitchars_dma` never touches: everything but the TX descriptor
and the count of `uart_dmasend` calls. -/
theorem uart_xmitchars_dma_frame (dev : uart_dev_s) :
    uart_xmitchars_dma dev =
      { dev with
        dmatx := (uart_xmitchars_dma dev).dmatx
        ndmasend := (uart_xmitchars_dma dev).ndmasend } := by
  unfold uart_xmitchars_dma
  split_ifs <;> rfl

/-- If `uart_recvchars_dma` starts a transfer, the flow-control block did not
tell it to stop. -/
theorem uart_recvchars_dma_started (cfg : Config) (dev : uart_dev_s)
    (hhead : dev.recv.head < dev.recv.size)
    (hnotfull : (dev.recv.head + 1) % dev.recv.size ≠ dev.recv.tail)
    (hstart : (uart_recvchars_dma cfg dev).ndmareceive = dev.ndmareceive + 1) :
    (dorxflowcontrol_configured cfg dev false).1 = false := by
  have hfull : (next_index dev.recv.head dev.recv.size == dev.recv.tail) = false := by
    rw [next_index_eq_mod hhead]
    simpa using hnotfull
  have hframe := dorxflowcontrol_configured_frame cfg dev false
  by_contra hcon
  have hg : (dorxflowcontrol_configured cfg dev false).1 = true := by simpa using hcon
  unfold uart_recvchars_dma at hstart
  simp only [hfull, hg, if_true] at hstart
  rw [hframe] at hstart
  simp at hstart

/-! ## The transmit routine against any hardware -/

/-- `uart_xmitchars` on an in-range buffer, whatever the hardware answers: with
fuel above the occupied count it returns, having sent some number `k` of bytes
no greater than the occupied count; the loop leaves `nbytes = k mod 2^16`, the
TX interrupt is disabled exactly if the buffer is then empty, and the writers
are woken exactly if `nbytes` is not zero. -/
theorem uart_xmitchars_any (dev : uart_dev_s) (fuel : Nat)
    (hrange : inrange dev.xmit) (hfuel : occupied_count dev.xmit < fuel) :
    ∃ k dev1, k ≤ occupied_count dev.xmit ∧
      uart_xmitchars fuel dev = some dev1 ∧
      dev1.sent = dev.sent ++ (List.range k).map
        (fun i => dev.xmit.buffer ((dev.xmit.tail + i) % dev.xmit.size)) ∧
      dev1.xmit.tail = (dev.xmit.tail + k) % dev.xmit.size ∧
      dev1.xmit.head = dev.xmit.head ∧
      dev1.xmit.buffer = dev.xmit.buffer ∧
      dev1.xmit.size = dev.xmit.size ∧
      dev1.ndisabletxint
        = dev.ndisabletxint + (if dev1.xmit.head = dev1.xmit.tail then 1 else 0) ∧
      dev1.ndatasent = dev.ndatasent + (if k % 65536 = 0 then 0 else 1) := by
  obtain ⟨k, hk, hall, hstop⟩ :=
    ready_prefix (fun i => dev.ops.txready (dev.ntxready + i)) (occupied_count dev.xmit)
  obtain ⟨d, hrun, hsent, htail, hhead, hbuf, hsize, -, -, -, -, -, hdis, hds, -⟩ :=
    uart_xmitchars_loop_spec fuel dev 0 k hrange (by norm_num) hall hstop
      (by rw [Nat.min_eq_right hk]; omega)
  rw [Nat.min_eq_right hk] at hrun hsent htail
  rw [Nat.zero_add] at hrun
  refine ⟨k, _, hk, by rw [uart_xmitchars, hrun], ?_⟩
  by_cases he : d.xmit.head = d.xmit.tail
  · have hd : d.ndisabletxint + 1
        = dev.ndisabletxint + (if d.xmit.head = d.xmit.tail then 1 else 0) := by
      rw [if_pos he, hdis]
    by_cases hz : k % 65536 = 0
    · rw [if_pos he, if_neg (not_not.2 hz), if_pos hz]
      exact ⟨hsent, htail, hhead, hbuf, hsize, hd, by simp [uart_disabletxint, hds]⟩
    · rw [if_pos he, if_pos hz, if_neg hz]
      exact ⟨hsent, htail, hhead, hbuf, hsize, hd,
        by simp [uart_datasent, uart_disabletxint, hds]⟩
  · have hd : d.ndisabletxint
        = dev.ndisabletxint + (if d.xmit.head = d.xmit.tail then 1 else 0) := by
      rw [if_neg he, hdis, Nat.add_zero]
    by_cases hz : k % 65536 = 0
    · rw [if_neg he, if_neg (not_not.2 hz), if_pos hz]
      exact ⟨hsent, htail, hhead, hbuf, hsize, hd, by simp [hds]⟩
    · rw [if_neg he, if_pos hz, if_neg hz]
      exact ⟨hsent, htail, hhead, hbuf, hsize, hd, by simp [uart_datasent, hds]⟩

/-! ## The flow-control policy -/

theorem to_unsigned_of_lt (bits n : Nat) (h : n < 2 ^ bits) :
    to_unsigned bits (n : Int) = n := by
  unfold to_unsigned
  have h2 : ((n : Int)) < (2 : Int) ^ bits := by exact_mod_cast h
  rw [Int.emod_eq_of_lt (by omega) h2]
  exact Int.toNat_ofNat n

/-- The watermark variant of `uart_dorxflowcontrol` in terms of the occupancy
it computes. -/
theorem uart_dorxflowcontrol_watermarks_eq (cfg : Config) (dev : uart_dev_s)
    (watermark : Nat) :
    uart_dorxflowcontrol_watermarks cfg dev watermark =
      if rx_nbuffered cfg dev.recv ≥ watermark then
        (dev.ops.rxflowcontrol dev.rxflow.length (rx_nbuffered cfg dev.recv) true,
          { dev with rxflow := dev.rxflow ++ [(rx_nbuffered cfg dev.recv, true)] })
      else (false, dev) := by
  unfold uart_dorxflowcontrol_watermarks rx_nbuffered uart_rxflowcontrol
  dsimp only
  split_ifs <;> simp_all

/-- On an in-range buffer whose size fits `unsigned int`, the branch-based
occupancy is the occupied count. -/
theorem rx_nbuffered_eq (cfg : Config) (b : uart_buffer_s) (h : inrange b)
    (htype : b.size ≤ 2 ^ cfg.uint_bits) : rx_nbuffered cfg b = occupied_count b := by
  rw [occupied_count_eq b h]
  obtain ⟨hh, ht⟩ := h
  unfold rx_nbuffered
  by_cases hle : b.tail ≤ b.head
  · rw [if_pos hle, if_pos hle]
    rw [show ((b.head : Int) - b.tail) = ((b.head - b.tail : Nat) : Int) by omega]
    exact to_unsigned_of_lt _ _ (by omega)
  · rw [if_neg hle, if_neg hle]
    rw [show ((b.size : Int) - b.tail + b.head) = ((b.size - b.tail + b.head : Nat) : Int)
      by omega]
    exact to_unsigned_of_lt _ _ (by omega)

/-! ## The receive loop in every build configuration -/

theorem only_asserts_refl (l : List (Nat × Bool)) : only_asserts l l :=
  ⟨[], by simp, by simp⟩

theorem only_asserts_trans {a b c : List (Nat × Bool)}
    (h1 : only_asserts a b) (h2 : only_asserts b c) : only_asserts a c := by
  obtain ⟨l1, rfl, h1⟩ := h1
  obtain ⟨l2, rfl, h2⟩ := h2
  refine ⟨l1 ++ l2, by simp, ?_⟩
  intro x hx
  rcases List.mem_append.1 hx with h | h
  · exact h1 x h
  · exact h2 x h

/-- The flow-control block makes at most one request, and that one asserts. -/
theorem dorxflowcontrol_configured_asserts (cfg : Config) (dev : uart_dev_s) (full : Bool) :
    only_asserts dev.rxflow (dorxflowcontrol_configured cfg dev full).2.rxflow := by
  unfold dorxflowcontrol_configured uart_dorxflowcontrol_watermarks uart_dorxflowcontrol_full
    uart_rxflowcontrol
  dsimp only
  split_ifs <;> first | exact only_asserts_refl _ | exact ⟨[_], rfl, by simp⟩

/-- One turn of the `while` loop of `uart_recvchars` is the test of
`uart_rxavailable` followed by one pass through the body. -/
theorem uart_recvchars_loop_succ (cfg : Config) (fuel : Nat) (dev : uart_dev_s)
    (nexthead nbytes : Nat) :
    uart_recvchars_loop cfg (fuel + 1) dev nexthead nbytes =
      if (uart_rxavailable dev).1 then
        if (uart_recvchars_pass cfg (uart_rxavailable dev).2 nexthead nbytes).1 then
          some ((uart_recvchars_pass cfg (uart_rxavailable dev).2 nexthead nbytes).2.1, nbytes)
        else
          uart_recvchars_loop cfg fuel
            (uart_recvchars_pass cfg (uart_rxavailable dev).2 nexthead nbytes).2.1
            (uart_recvchars_pass cfg (uart_rxavailable dev).2 nexthead nbytes).2.2.1
            (uart_recvchars_pass cfg (uart_rxavailable dev).2 nexthead nbytes).2.2.2
      else some ((uart_rxavailable dev).2, nbytes) := by
  rw [uart_recvchars_loop]
  unfold uart_recvchars_pass
  dsimp only
  cases (uart_rxavailable dev).1
  · rfl
  · simp only [if_true]
    generalize dorxflowcontrol_configured cfg (uart_rxavailable dev).2
      (nexthead == (uart_rxavailable dev).2.recv.tail) = g
    cases g.1
    · cases (nexthead == (uart_rxavailable dev).2.recv.tail) <;> rfl
    · rfl

/-- What one pass through the body of the loop of `uart_recvchars` does, in
every build configuration. -/
theorem uart_recvchars_pass_spec (cfg : Config) (dev : uart_dev_s) (nexthead nbytes : Nat)
    (p : Bool × uart_dev_s × Nat × Nat)
    (hp : uart_recvchars_pass cfg dev nexthead nbytes = p) :
    (p.2.1.recv.tail = dev.recv.tail ∧ p.2.1.recv.size = dev.recv.size ∧
      p.2.1.xmit = dev.xmit ∧ p.2.1.ops = dev.ops ∧ p.2.1.dmatx = dev.dmatx ∧
      p.2.1.dmarx = dev.dmarx ∧ p.2.1.ntxready = dev.ntxready ∧ p.2.1.sent = dev.sent ∧
      p.2.1.ndisabletxint = dev.ndisabletxint ∧ p.2.1.ndatasent = dev.ndatasent ∧
      p.2.1.nrxavailable = dev.nrxavailable ∧ p.2.1.ndatareceived = dev.ndatareceived ∧
      p.2.1.ndmasend = dev.ndmasend ∧ p.2.1.ndmareceive = dev.ndmareceive ∧
      only_asserts dev.rxflow p.2.1.rxflow) ∧
    p.1 = (dorxflowcontrol_configured cfg dev (nexthead == dev.recv.tail)).1 ∧
    p.2.1.rxflow = (dorxflowcontrol_configured cfg dev (nexthead == dev.recv.tail)).2.rxflow ∧
    (p.1 = true → p.2.1.recv = dev.recv ∧ p.2.1.nreceive = dev.nreceive) ∧
    (p.1 = false → p.2.1.nreceive = dev.nreceive + 1 ∧
      ((nexthead == dev.recv.tail) = false →
        p.2.1.recv = (recv_store dev.recv nexthead (dev.ops.receive dev.nreceive)).1 ∧
        p.2.2.1 = next_index nexthead dev.recv.size ∧ p.2.2.2 = (nbytes + 1) % 65536) ∧
      ((nexthead == dev.recv.tail) = true →
        p.2.1.recv = dev.recv ∧ p.2.2.1 = nexthead ∧ p.2.2.2 = nbytes)) := by
  have hframe := dorxflowcontrol_configured_frame cfg dev (nexthead == dev.recv.tail)
  have hass := dorxflowcontrol_configured_asserts cfg dev (nexthead == dev.recv.tail)
  unfold uart_recvchars_pass at hp
  dsimp only at hp
  generalize dorxflowcontrol_configured cfg dev (nexthead == dev.recv.tail) = g
    at hframe hass hp ⊢
  have h1 : g.2.recv = dev.recv := by rw [hframe]
  have h2 : g.2.xmit = dev.xmit := by rw [hframe]
  have h3 : g.2.ops = dev.ops := by rw [hframe]
  have h4 : g.2.dmatx = dev.dmatx := by rw [hframe]
  have h5 : g.2.dmarx = dev.dmarx := by rw [hframe]
  have h6 : g.2.ntxready = dev.ntxready := by rw [hframe]
  have h7 : g.2.sent = dev.sent := by rw [hframe]
  have h8 : g.2.ndisabletxint = dev.ndisabletxint := by rw [hframe]
  have h9 : g.2.ndatasent = dev.ndatasent := by rw [hframe]
  have h10 : g.2.nrxavailable = dev.nrxavailable := by rw [hframe]
  have h11 : g.2.ndatareceived = dev.ndatareceived := by rw [hframe]
  have h12 : g.2.ndmasend = dev.ndmasend := by rw [hframe]
  have h13 : g.2.ndmareceive = dev.ndmareceive := by rw [hframe]
  have h14 : g.2.nreceive = dev.nreceive := by rw [hframe]
  have ht : g.2.recv.tail = dev.recv.tail := by rw [h1]
  have hs : g.2.recv.size = dev.recv.size := by rw [h1]
  by_cases hg : g.1 = true
  · rw [if_pos hg] at hp
    subst hp
    exact ⟨⟨ht, hs, h2, h3, h4, h5, h6, h7, h8, h9, h10, h11, h12, h13, hass⟩,
      hg.symm, rfl, fun _ => ⟨h1, h14⟩, fun h => Bool.noConfusion h⟩
  · have hg0 : g.1 = false := by simpa using hg
    rw [if_neg hg] at hp
    by_cases hf : (nexthead == dev.recv.tail) = true
    · rw [if_neg (by simp [hf])] at hp
      subst hp
      exact ⟨⟨ht, hs, h2, h3, h4, h5, h6, h7, h8, h9, h10, h11, h12, h13, hass⟩,
        hg0.symm, rfl, fun h => Bool.noConfusion h,
        fun _ => ⟨congrArg (· + 1) h14, fun h => Bool.noConfusion (hf.symm.trans h),
          fun _ => ⟨h1, rfl, rfl⟩⟩⟩
    · have hf0 : (nexthead == dev.recv.tail) = false := by simpa using hf
      rw [if_pos (by simp [hf0])] at hp
      subst hp
      have hst : (recv_store g.2.recv nexthead (g.2.ops.receive g.2.nreceive)).1
          = (recv_store dev.recv nexthead (dev.ops.receive dev.nreceive)).1 := by
        rw [h1, h3, h14]
      exact ⟨⟨ht, hs, h2, h3, h4, h5, h6, h7, h8, h9, h10, h11, h12, h13, hass⟩,
        hg0.symm, rfl, fun h => Bool.noConfusion h,
        fun _ => ⟨congrArg (· + 1) h14,
          fun _ => ⟨hst, congrArg (next_index nexthead) hs, rfl⟩,
          fun h => Bool.noConfusion (hf0.symm.trans h)⟩⟩

/-- The frame of the loop of `uart_recvchars`, in every build configuration and
on every buffer: when the loop ends it has left alone `tail` and `size` of the
RX buffer, the TX buffer, both descriptors and every record other than those of
`uart_rxavailable`, `uart_receive` and `uart_rxflowcontrol`; and every request
it made to `uart_rxflowcontrol` asserts. -/
theorem uart_recvchars_loop_frame (cfg : Config) :
    ∀ (fuel : Nat) (dev : uart_dev_s) (nexthead nbytes : Nat) (r : uart_dev_s × Nat),
      uart_recvchars_loop cfg fuel dev nexthead nbytes = some r →
      r.1.recv.tail = dev.recv.tail ∧ r.1.recv.size = dev.recv.size ∧ r.1.xmit = dev.xmit ∧
      r.1.ops = dev.ops ∧ r.1.dmatx = dev.dmatx ∧ r.1.dmarx = dev.dmarx ∧
      r.1.ntxready = dev.ntxready ∧ r.1.sent = dev.sent ∧
      r.1.ndisabletxint = dev.ndisabletxint ∧ r.1.ndatasent = dev.ndatasent ∧
      r.1.ndatareceived = dev.ndatareceived ∧ r.1.ndmasend = dev.ndmasend ∧
      r.1.ndmareceive = dev.ndmareceive ∧ only_asserts dev.rxflow r.1.rxflow := by
  intro fuel
  induction fuel with
  | zero =>
    intro dev nh nb r h
    simp [uart_recvchars_loop] at h
  | succ fuel ih =>
    intro dev nh nb r h
    rw [uart_recvchars_loop_succ] at h
    by_cases ha : (uart_rxavailable dev).1 = true
    · rw [if_pos ha] at h
      obtain ⟨⟨p1, p2, p3, p4, p5, p6, p7, p8, p9, p10, -, p12, p13, p14, p15⟩, -, -, -, -⟩ :=
        uart_recvchars_pass_spec cfg (uart_rxavailable dev).2 nh nb _ rfl
      by_cases hb : (uart_recvchars_pass cfg (uart_rxavailable dev).2 nh nb).1 = true
      · rw [if_pos hb] at h
        cases h
        exact ⟨p1, p2, p3, p4, p5, p6, p7, p8, p9, p10, p12, p13, p14, p15⟩
      · rw [if_neg hb] at h
        obtain ⟨q1, q2, q3, q4, q5, q6, q7, q8, q9, q10, q12, q13, q14, q15⟩ := ih _ _ _ _ h
        exact ⟨q1.trans p1, q2.trans p2, q3.trans p3, q4.trans p4, q5.trans p5, q6.trans p6,
          q7.trans p7, q8.trans p8, q9.trans p9, q10.trans p10, q12.trans p12, q13.trans p13,
          q14.trans p14, only_asserts_trans p15 q15⟩
    · rw [if_neg ha] at h
      cases h
      exact ⟨rfl, rfl, rfl, rfl, rfl, rfl, rfl, rfl, rfl, rfl, rfl, rfl, rfl,
        only_asserts_refl _⟩

/-- The state after `j` complete passes of the loop of `uart_recvchars`, in
every build configuration: each pass has read one character; `tail`, `size` and
the TX buffer are as at entry; every request to `uart_rxflowcontrol` asserts;
the local `nexthead` is the wrapped successor of the current `head`; and the
loop goes on from that state. -/
theorem recv_passes_spec (cfg : Config) :
    ∀ (j : Nat) (dev : uart_dev_s) (nexthead nbytes : Nat) (s : uart_dev_s × Nat × Nat),
      recv_passes cfg j dev nexthead nbytes = some s →
      s.1.recv.tail = dev.recv.tail ∧ s.1.recv.size = dev.recv.size ∧ s.1.xmit = dev.xmit ∧
      s.1.ops = dev.ops ∧ s.1.nreceive = dev.nreceive + j ∧
      s.1.nrxavailable = dev.nrxavailable + j ∧
      s.1.ndatareceived = dev.ndatareceived ∧
      only_asserts dev.rxflow s.1.rxflow ∧
      (nexthead = next_index dev.recv.head dev.recv.size →
        s.2.1 = next_index s.1.recv.head s.1.recv.size) ∧
      ∀ fuel, uart_recvchars_loop cfg (fuel + j) dev nexthead nbytes
        = uart_recvchars_loop cfg fuel s.1 s.2.1 s.2.2 := by
  intro j
  induction j with
  | zero =>
    intro dev nh nb s h
    simp only [recv_passes, Option.some.injEq] at h
    subst h
    exact ⟨rfl, rfl, rfl, rfl, rfl, rfl, rfl, only_asserts_refl _, fun h => h, fun _ => rfl⟩
  | succ j ih =>
    intro dev nh nb s h
    rw [recv_passes] at h
    by_cases ha : (uart_rxavailable dev).1 = true
    · rw [if_pos ha] at h
      obtain ⟨⟨p1, p2, p3, p4, -, -, -, -, -, -, p11, p12, -, -, p15⟩, -, -, -, pf⟩ :=
        uart_recvchars_pass_spec cfg (uart_rxavailable dev).2 nh nb _ rfl
      by_cases hb : (uart_recvchars_pass cfg (uart_rxavailable dev).2 nh nb).1 = true
      · rw [if_pos hb] at h
        cases h
      · rw [if_neg hb] at h
        have hb0 : (uart_recvchars_pass cfg (uart_rxavailable dev).2 nh nb).1 = false := by
          simpa using hb
        obtain ⟨pn, pst, pfull⟩ := pf hb0
        have hn : (uart_recvchars_pass cfg (uart_rxavailable dev).2 nh nb).2.1.nreceive
            = dev.nreceive + 1 := pn
        have hx : (uart_recvchars_pass cfg (uart_rxavailable dev).2 nh nb).2.1.nrxavailable
            = dev.nrxavailable + 1 := p11
        obtain ⟨q1, q2, q3, q4, q5, q6, q7, q8, q9, q10⟩ := ih _ _ _ _ h
        refine ⟨q1.trans p1, q2.trans p2, q3.trans p3, q4.trans p4, by omega, by omega,
          q7.trans p12, only_asserts_trans p15 q8, ?_, ?_⟩
        · intro hnh
          apply q9
          by_cases hf : (nh == (uart_rxavailable dev).2.recv.tail) = true
          · obtain ⟨e1, e2, -⟩ := pfull hf
            rw [e1, e2, hnh]
            rfl
          · have hf0 : (nh == (uart_rxavailable dev).2.recv.tail) = false := by simpa using hf
            obtain ⟨e1, e2, -⟩ := pst hf0
            rw [e1, e2]
            rfl
        · intro fuel
          rw [show fuel + (j + 1) = (fuel + j) + 1 from rfl, uart_recvchars_loop_succ,
            if_pos ha, if_neg hb]
          exact q10 fuel
    · rw [if_neg ha] at h
      cases h

/-- The loop of `uart_recvchars` in every build configuration, on an in-range
buffer and against every hardware behaviour: when it ends, the RX buffer is the
buffer at entry after the store step has run over the first `m` characters read,
for some `m` no greater than the free count, and the local `nbytes` has grown
by `m` modulo `2^16`. -/
theorem uart_recvchars_loop_any (cfg : Config) :
    ∀ (fuel : Nat) (dev : uart_dev_s) (nbytes : Nat) (r : uart_dev_s × Nat),
      inrange dev.recv → nbytes < 65536 →
      uart_recvchars_loop cfg fuel dev (next_index dev.recv.head dev.recv.size) nbytes
        = some r →
      ∃ m, m ≤ free_count dev.recv ∧ dev.nreceive + m ≤ r.1.nreceive ∧
        r.1.recv = (source_bytes dev.ops dev.nreceive m).foldl push_one dev.recv ∧
        r.2 = (nbytes + m) % 65536 := by
  intro fuel
  induction fuel with
  | zero =>
    intro dev nb r _ _ h
    simp [uart_recvchars_loop] at h
  | succ fuel ih =>
    intro dev nb r hr hnb h
    have hzero : (source_bytes dev.ops dev.nreceive 0).foldl push_one dev.recv = dev.recv := by
      simp [source_bytes]
    rw [uart_recvchars_loop_succ] at h
    by_cases ha : (uart_rxavailable dev).1 = true
    · rw [if_pos ha] at h
      obtain ⟨⟨-, -, -, p4, -⟩, -, -, pt, pf⟩ :=
        uart_recvchars_pass_spec cfg (uart_rxavailable dev).2
          (next_index dev.recv.head dev.recv.size) nb _ rfl
      by_cases hb : (uart_recvchars_pass cfg (uart_rxavailable dev).2
          (next_index dev.recv.head dev.recv.size) nb).1 = true
      · rw [if_pos hb] at h
        cases h
        obtain ⟨e1, e2⟩ := pt hb
        exact ⟨0, Nat.zero_le _, Nat.le_of_eq e2.symm, by rw [hzero]; exact e1,
          (Nat.mod_eq_of_lt hnb).symm⟩
      · rw [if_neg hb] at h
        have hb0 : (uart_recvchars_pass cfg (uart_rxavailable dev).2
            (next_index dev.recv.head dev.recv.size) nb).1 = false := by simpa using hb
        obtain ⟨pn, pst, pfull⟩ := pf hb0
        have hn : (uart_recvchars_pass cfg (uart_rxavailable dev).2
            (next_index dev.recv.head dev.recv.size) nb).2.1.nreceive = dev.nreceive + 1 := pn
        have hops : (uart_recvchars_pass cfg (uart_rxavailable dev).2
            (next_index dev.recv.head dev.recv.size) nb).2.1.ops = dev.ops := p4
        by_cases hfull : is_full dev.recv = true
        · obtain ⟨e1, e2, e3⟩ := pfull hfull
          have e1x : (uart_recvchars_pass cfg (uart_rxavailable dev).2
              (next_index dev.recv.head dev.recv.size) nb).2.1.recv = dev.recv := e1
          rw [e2, e3] at h
          have h2 : uart_recvchars_loop cfg fuel
              (uart_recvchars_pass cfg (uart_rxavailable dev).2
                (next_index dev.recv.head dev.recv.size) nb).2.1
              (next_index (uart_recvchars_pass cfg (uart_rxavailable dev).2
                (next_index dev.recv.head dev.recv.size) nb).2.1.recv.head
                (uart_recvchars_pass cfg (uart_rxavailable dev).2
                (next_index dev.recv.head dev.recv.size) nb).2.1.recv.size) nb = some r := by
            rw [e1x]; exact h
          obtain ⟨m, hm, hrd, hrecv, hcnt⟩ := ih _ _ _ (by rw [e1x]; exact hr) hnb h2
          rw [e1x] at hm hrecv
          have hf0 : free_count dev.recv = 0 := (is_full_iff_free _ hr).1 hfull
          have hm0 : m = 0 := by omega
          subst hm0
          refine ⟨0, Nat.zero_le _, by omega, ?_, hcnt⟩
          rw [hrecv, hzero]
          simp [source_bytes]
        · have hnf : is_full dev.recv = false := by simpa using hfull
          obtain ⟨e1, e2, e3⟩ := pst hnf
          have e1x : (uart_recvchars_pass cfg (uart_rxavailable dev).2
              (next_index dev.recv.head dev.recv.size) nb).2.1.recv
              = push_one dev.recv (dev.ops.receive dev.nreceive) := e1
          obtain ⟨hr1, hocc⟩ := push_one_spec dev.recv (dev.ops.receive dev.nreceive) hr hnf
          have hfpos : 0 < free_count dev.recv := by
            have := (is_full_iff_free _ hr).not.1 hfull
            omega
          have hfree : free_count (push_one dev.recv (dev.ops.receive dev.nreceive)) + 1
              = free_count dev.recv := by
            unfold free_count at hfpos ⊢
            have hsz : (push_one dev.recv (dev.ops.receive dev.nreceive)).size
                = dev.recv.size := rfl
            rw [hocc, hsz]
            omega
          rw [e2, e3] at h
          have h2 : uart_recvchars_loop cfg fuel
              (uart_recvchars_pass cfg (uart_rxavailable dev).2
                (next_index dev.recv.head dev.recv.size) nb).2.1
              (next_index (uart_recvchars_pass cfg (uart_rxavailable dev).2
                (next_index dev.recv.head dev.recv.size) nb).2.1.recv.head
                (uart_recvchars_pass cfg (uart_rxavailable dev).2
                (next_index dev.recv.head dev.recv.size) nb).2.1.recv.size)
              ((nb + 1) % 65536) = some r := by
            rw [e1x]; exact h
          obtain ⟨m, hm, hrd, hrecv, hcnt⟩ :=
            ih _ _ _ (by rw [e1x]; exact hr1) (Nat.mod_lt _ (by norm_num)) h2
          rw [e1x] at hm hrecv
          rw [hops, hn] at hrecv
          refine ⟨m + 1, by omega, by omega, ?_, by omega⟩
          rw [hrecv, source_bytes_succ, List.foldl_cons]
    · rw [if_neg ha] at h
      cases h
      exact ⟨0, Nat.zero_le _, Nat.le_refl _, hzero.symm, (Nat.mod_eq_of_lt hnb).symm⟩

/-- The loop of `uart_recvchars` ends, in every build configuration, once the
hardware reports no more data: fuel above the number of characters the source
holds is enough. -/
theorem uart_recvchars_loop_returns (cfg : Config) :
    ∀ (fuel : Nat) (dev : uart_dev_s) (nexthead nbytes k : Nat),
      dev.ops.rxavailable (dev.nrxavailable + k) = false → k < fuel →
      ∃ r, uart_recvchars_loop cfg fuel dev nexthead nbytes = some r := by
  intro fuel
  induction fuel with
  | zero => intro dev nh nb k _ hf; omega
  | succ fuel ih =>
    intro dev nh nb k hk hf
    rw [uart_recvchars_loop_succ]
    by_cases ha : (uart_rxavailable dev).1 = true
    · rw [if_pos ha]
      by_cases hb : (uart_recvchars_pass cfg (uart_rxavailable dev).2 nh nb).1 = true
      · rw [if_pos hb]
        exact ⟨_, rfl⟩
      · rw [if_neg hb]
        obtain ⟨⟨-, -, -, p4, -, -, -, -, -, -, p11, -⟩, -⟩ :=
          uart_recvchars_pass_spec cfg (uart_rxavailable dev).2 nh nb _ rfl
        have hx : (uart_recvchars_pass cfg (uart_rxavailable dev).2 nh nb).2.1.nrxavailable
            = dev.nrxavailable + 1 := p11
        have hops : (uart_recvchars_pass cfg (uart_rxavailable dev).2 nh nb).2.1.ops
            = dev.ops := p4
        have ha1 : dev.ops.rxavailable dev.nrxavailable = true := ha
        cases k with
        | zero => rw [Nat.add_zero, ha1] at hk; exact Bool.noConfusion hk
        | succ k =>
          apply ih _ _ _ k _ (by omega)
          rw [hops, hx, Nat.add_assoc, Nat.add_comm 1 k]
          exact hk
    · rw [if_neg ha]
      exact ⟨_, rfl⟩

/-- The frame of the loop of `uart_xmitchars` on every buffer: when the loop
ends it has left alone `head`, the storage and `size` of the TX buffer, the RX
buffer and both descriptors. -/
theorem uart_xmitchars_loop_frame :
    ∀ (fuel : Nat) (dev : uart_dev_s) (nbytes : Nat) (r : uart_dev_s × Nat),
      uart_xmitchars_loop fuel dev nbytes = some r →
      r.1.xmit.head = dev.xmit.head ∧ r.1.xmit.buffer = dev.xmit.buffer ∧
      r.1.xmit.size = dev.xmit.size ∧ r.1.recv = dev.recv ∧
      r.1.dmatx = dev.dmatx ∧ r.1.dmarx = dev.dmarx ∧ r.1.rxflow = dev.rxflow := by
  intro fuel
  induction fuel with
  | zero =>
    intro dev nb r h
    simp [uart_xmitchars_loop] at h
  | succ fuel ih =>
    intro dev nb r h
    rw [uart_xmitchars_loop] at h
    by_cases hne : dev.xmit.head ≠ dev.xmit.tail
    · rw [if_pos hne] at h
      dsimp only at h
      by_cases hr : (uart_txready dev).1 = true
      · rw [if_pos hr] at h
        obtain ⟨q1, q2, q3, q4, q5, q6, q7⟩ := ih _ _ _ h
        exact ⟨q1, q2, q3, q4, q5, q6, q7⟩
      · rw [if_neg hr] at h
        cases h
        exact ⟨rfl, rfl, rfl, rfl, rfl, rfl, rfl⟩
    · rw [if_neg hne] at h
      cases h
      exact ⟨rfl, rfl, rfl, rfl, rfl, rfl, rfl⟩

/-- The store step run over a list that fits the free slots of an in-range
buffer keeps the indices in range and raises the occupied count by the length of
the list. -/
theorem foldl_push_one_count (cs : List Nat) (b : uart_buffer_s) (h : inrange b)
    (hlen : cs.length ≤ free_count b) :
    inrange (cs.foldl push_one b) ∧
    occupied_count (cs.foldl push_one b) = occupied_count b + cs.length := by
  have hlt := occupied_count_lt b h
  obtain ⟨h1, h2, h3, -, -⟩ := foldl_push_one_spec cs b h.1
    (by unfold free_count at hlen; omega)
  have hr : inrange (cs.foldl push_one b) :=
    ⟨by rw [h1, h3]; exact Nat.mod_lt _ (by have := h.1; omega), by rw [h2, h3]; exact h.2⟩
  refine ⟨hr, ?_⟩
  rw [occupied_count_eq _ hr, h1, h2, h3]
  unfold free_count at hlen
  rw [occupied_count_eq b h] at hlen hlt ⊢
  obtain ⟨hh, ht⟩ := h
  rw [add_mod_cases _ _ (by omega)]
  split_ifs at hlen hlt ⊢ <;> omega

/-- The cells the store step writes when it runs over `m` characters that fit
the free slots: none of them is occupied, none is the reserved slot. -/
theorem stored_cells_free (b : uart_buffer_s) (h : inrange b) (m i : Nat)
    (hm : m ≤ free_count b) (hi : i < m) :
    (b.head + i) % b.size ∉ occupied_slots b ∧ (b.head + i) % b.size ≠ reserved_slot b := by
  have hlt := occupied_count_lt b h
  rw [mem_occupied_slots b h, reserved_slot_eq b h]
  unfold free_count at hm
  rw [occupied_count_eq b h] at hm hlt
  obtain ⟨hh, ht⟩ := h
  rw [add_mod_cases _ _ (by omega)]
  split_ifs at hm hlt ⊢ <;> omega

/-- What `uart_recvchars` returns is what its loop left, with the readers woken
exactly if the local `nbytes` is not zero. -/
theorem uart_recvchars_result (cfg : Config) (fuel : Nat) (dev dev1 : uart_dev_s)
    (h : uart_recvchars cfg fuel dev = some dev1) :
    ∃ r, uart_recvchars_loop cfg fuel dev (next_index dev.recv.head dev.recv.size) 0 = some r ∧
      dev1.recv = r.1.recv ∧ dev1.xmit = r.1.xmit ∧ dev1.rxflow = r.1.rxflow ∧
      dev1.nreceive = r.1.nreceive ∧
      dev1.ndatareceived = r.1.ndatareceived + (if r.2 = 0 then 0 else 1) := by
  unfold uart_recvchars at h
  cases hl : uart_recvchars_loop cfg fuel dev (next_index dev.recv.head dev.recv.size) 0 with
  | none => rw [hl] at h; cases h
  | some r =>
    rw [hl] at h
    obtain ⟨d, nb⟩ := r
    have h1 := Option.some.inj h
    refine ⟨(d, nb), rfl, ?_⟩
    rw [← h1]
    by_cases hz : nb = 0
    · simp [hz]
    · simp [hz, uart_datareceived]

/-- What `uart_xmitchars` returns is what its loop left, but for the records of
`uart_disabletxint` and `uart_datasent`. -/
theorem uart_xmitchars_result (fuel : Nat) (dev dev1 : uart_dev_s)
    (h : uart_xmitchars fuel dev = some dev1) :
    ∃ r, uart_xmitchars_loop fuel dev 0 = some r ∧
      dev1.xmit = r.1.xmit ∧ dev1.recv = r.1.recv ∧ dev1.rxflow = r.1.rxflow := by
  unfold uart_xmitchars at h
  cases hl : uart_xmitchars_loop fuel dev 0 with
  | none => rw [hl] at h; cases h
  | some r =>
    rw [hl] at h
    obtain ⟨d, nb⟩ := r
    have h1 := Option.some.inj h
    refine ⟨(d, nb), rfl, ?_⟩
    rw [← h1]
    by_cases hz : nb = 0 <;> by_cases he : d.xmit.head = d.xmit.tail <;>
      simp [hz, he, uart_datasent, uart_disabletxint]

/-- Every request `uart_recvchars_dma` makes to `uart_rxflowcontrol` asserts. -/
theorem uart_recvchars_dma_asserts (cfg : Config) (dev : uart_dev_s) :
    only_asserts dev.rxflow (uart_recvchars_dma cfg dev).rxflow := by
  have hass := dorxflowcontrol_configured_asserts cfg dev
    (next_index dev.recv.head dev.recv.size == dev.recv.tail)
  unfold uart_recvchars_dma
  dsimp only
  generalize dorxflowcontrol_configured cfg dev
    (next_index dev.recv.head dev.recv.size == dev.recv.tail) = g at hass
  split_ifs <;> exact hass

/-- `uart_recvchars` without flow control on an in-range buffer against a source
of exactly `k` characters: it returns, having read all `k` and stored the first
`min f k` of them, and has woken the readers exactly if `min f k` is not zero
modulo `2^16`. -/
theorem uart_recvchars_noflow (cfg : Config) (hcfg : cfg.CONFIG_SERIAL_IFLOWCONTROL = false)
    (fuel : Nat) (dev : uart_dev_s) (k : Nat) (hr : inrange dev.recv)
    (hk : ∀ i, i < k → dev.ops.rxavailable (dev.nrxavailable + i) = true)
    (hk1 : dev.ops.rxavailable (dev.nrxavailable + k) = false) (hf : k < fuel) :
    ∃ dev1, uart_recvchars cfg fuel dev = some dev1 ∧
      dev1.recv = (source_bytes dev.ops dev.nreceive
        (min (free_count dev.recv) k)).foldl push_one dev.recv ∧
      dev1.nreceive = dev.nreceive + k ∧
      dev1.ndatareceived = dev.ndatareceived
        + (if min (free_count dev.recv) k % 65536 = 0 then 0 else 1) := by
  have hloop := uart_recvchars_loop_spec cfg hcfg fuel dev 0 k hr (by norm_num) hk hk1 hf
  rw [Nat.zero_add] at hloop
  refine ⟨_, by rw [uart_recvchars, hloop], ?_⟩
  by_cases hz : min (free_count dev.recv) k % 65536 = 0
  · simp [hz]
  · simp [hz, uart_datareceived]

/-! ## When a transfer starts -/

/-- If `uart_recvchars_dma` starts a transfer, the RX buffer was not full. -/
theorem uart_recvchars_dma_started_notfull (cfg : Config) (dev : uart_dev_s)
    (hhead : dev.recv.head < dev.recv.size)
    (hstart : (uart_recvchars_dma cfg dev).ndmareceive = dev.ndmareceive + 1) :
    (dev.recv.head + 1) % dev.recv.size ≠ dev.recv.tail := by
  intro hfull
  have hf : (next_index dev.recv.head dev.recv.size == dev.recv.tail) = true := by
    rw [next_index_eq_mod hhead, hfull]
    exact beq_self_eq_true _
  have hframe := dorxflowcontrol_configured_frame cfg dev true
  unfold uart_recvchars_dma at hstart
  simp only [hf, if_true, ite_self] at hstart
  rw [hframe] at hstart
  have h2 : dev.ndmareceive = dev.ndmareceive + 1 := hstart
  omega

/-- If `uart_xmitchars_dma` starts a transfer, the TX buffer was not empty. -/
theorem uart_xmitchars_dma_started_nonempty (dev : uart_dev_s)
    (hstart : (uart_xmitchars_dma dev).ndmasend = dev.ndmasend + 1) :
    dev.xmit.head ≠ dev.xmit.tail := by
  intro he
  unfold uart_xmitchars_dma at hstart
  rw [if_pos he] at hstart
  omega

/-- The bytes `uart_xmitchars` has handed to `uart_send` are those its loop
handed over. -/
theorem uart_xmitchars_sent (fuel : Nat) (dev : uart_dev_s) (r : uart_dev_s × Nat)
    (h : uart_xmitchars_loop fuel dev 0 = some r) :
    ∃ dev1, uart_xmitchars fuel dev = some dev1 ∧ dev1.sent = r.1.sent ∧
      dev1.ntxready = r.1.ntxready := by
  obtain ⟨d, nb⟩ := r
  refine ⟨_, by rw [uart_xmitchars, h], ?_⟩
  by_cases hz : nb = 0 <;> by_cases he : d.xmit.head = d.xmit.tail <;>
    simp [hz, he, uart_datasent, uart_disabletxint]

/-! ## The load figure -/

/-- The quotient of line 245 never exceeds 1000, whether or not the product
`1000 * active` wraps. -/
theorem cpuload_quotient_le (active total : Nat) (ht : total < 2 ^ 32) (hle : active ≤ total) :
    1000 * active % 2 ^ 32 / total ≤ 1000 := by
  have h32 : (2 : Nat) ^ 32 = 4294967296 := by norm_num
  rw [h32] at ht ⊢
  by_cases h0 : total = 0
  · subst h0
    simp
  · apply Nat.le_of_lt_succ
    rw [Nat.div_lt_iff_lt_mul (by omega)]
    by_cases hov : 1000 * active < 4294967296
    · rw [Nat.mod_eq_of_lt hov]
      omega
    · have hm : 1000 * active % 4294967296 < 4294967296 := Nat.mod_lt _ (by norm_num)
      generalize 1000 * active % 4294967296 = m at hm
      omega

/-- The local `tmp` of line 245 as a natural number. -/
theorem cpuload_read_tmp_eq (active total : Nat) (ht : total < 2 ^ 32) :
    cpuload_read_tmp active total
      = 1000 - 1000 * min active total % 2 ^ 32 / total := by
  have hmin : (if active > total then total else active) = min active total := by
    split_ifs <;> omega
  have hq := cpuload_quotient_le (min active total) total ht (Nat.min_le_right _ _)
  unfold cpuload_read_tmp
  dsimp only
  rw [hmin]
  generalize 1000 * min active total % 2 ^ 32 / total = q at hq
  have hcast : (1000 : Int) - ((q : Nat) : Int) = ((1000 - q : Nat) : Int) := by
    omega
  rw [hcast]
  exact to_unsigned_of_lt _ _ (lt_of_le_of_lt (Nat.sub_le _ _) (by norm_num))

/-! ## A DMA transfer against the byte-mode loop -/

/-- The plan of `uart_recvchars_dma`, when it gets to plan, addresses the free
cells in the order `head, head + 1, ...` modulo `size`. -/
theorem uart_recvchars_dma_slots_order (cfg : Config) (dev : uart_dev_s)
    (hrange : inrange dev.recv)
    (hnotfull : (dev.recv.head + 1) % dev.recv.size ≠ dev.recv.tail)
    (hflow : (dorxflowcontrol_configured cfg dev false).1 = false) :
    planned_slots (uart_recvchars_dma cfg dev).dmarx
      = (List.range (free_count dev.recv)).map
          (fun i => (dev.recv.head + i) % dev.recv.size) := by
  obtain ⟨hA, hB, hC, -⟩ := uart_recvchars_dma_spec cfg dev hrange hnotfull hflow
  have hocc := occupied_count_eq _ hrange
  obtain ⟨hh, ht⟩ := hrange
  have hnf := hnotfull
  rw [add_mod_cases _ _ (by omega)] at hnf
  unfold free_count planned_slots
  rw [hocc]
  by_cases hle : dev.recv.tail ≤ dev.recv.head
  · rw [if_pos hle]
    by_cases hpos : 0 < dev.recv.tail
    · obtain ⟨h1, h2, h3, h4⟩ := hA hle hpos
      rw [h1, h2, h3, h4]
      simp only [segment_slots, Int.toNat_ofNat]
      rw [show dev.recv.size - 1 - (dev.recv.head - dev.recv.tail)
        = (dev.recv.size - dev.recv.head) + (dev.recv.tail - 1) by omega,
        List.range_add, List.map_append, List.map_map]
      congr 1
      · apply List.map_congr_left
        intro i hi
        rw [List.mem_range] at hi
        rw [Nat.mod_eq_of_lt (by omega)]
      · apply List.map_congr_left
        intro i hi
        rw [List.mem_range] at hi
        simp only [Function.comp]
        rw [add_mod_cases _ _ (by omega)]
        split_ifs <;> omega
    · obtain ⟨h1, h2, h4⟩ := hB (by omega)
      rw [h1, h2, h4, segment_slots_zero, List.append_nil]
      simp only [segment_slots, Int.toNat_ofNat]
      rw [show dev.recv.size - 1 - (dev.recv.head - dev.recv.tail)
        = dev.recv.size - 1 - dev.recv.head by omega]
      apply List.map_congr_left
      intro i hi
      rw [List.mem_range] at hi
      rw [Nat.mod_eq_of_lt (by omega)]
  · rw [if_neg hle]
    obtain ⟨h1, h2, h3, h4⟩ := hC (by omega)
    rw [h1, h2, h3, h4]
    simp only [segment_slots, Int.toNat_ofNat, List.append_nil]
    rw [show dev.recv.size - 1 - (dev.recv.size - dev.recv.tail + dev.recv.head)
      = dev.recv.tail - 1 - dev.recv.head by omega]
    apply List.map_congr_left
    intro i hi
    rw [List.mem_range] at hi
    rw [Nat.mod_eq_of_lt (by omega)]

/-- Storing a list of bytes, in order, into the cells `head, head + 1, ...`
modulo `size` gives the storage the store step builds byte by byte. -/
theorem dma_fill_eq_push :
    ∀ (cs : List Nat) (b : uart_buffer_s) (m : Nat), b.head < b.size → cs.length ≤ m →
      (List.zip ((List.range m).map (fun i => (b.head + i) % b.size)) cs).foldl
          (fun buf p => Function.update buf p.1 p.2) b.buffer
        = (cs.foldl push_one b).buffer := by
  intro cs
  induction cs with
  | nil =>
    intro b m _ _
    simp
  | cons c cs ih =>
    intro b m hh hlen
    cases m with
    | zero => simp at hlen
    | succ m =>
      simp only [List.length_cons] at hlen
      have hsz : (push_one b c).size = b.size := rfl
      have hhd : (push_one b c).head = (b.head + 1) % b.size := next_index_eq_mod hh
      have hbuf : (push_one b c).buffer = Function.update b.buffer b.head c := rfl
      have hih := ih (push_one b c) m
        (by rw [hhd, hsz]; exact Nat.mod_lt _ (by omega)) (by omega)
      rw [hsz, hhd, hbuf] at hih
      rw [List.range_succ_eq_map, List.map_cons, List.map_map, List.zip_cons_cons,
        List.foldl_cons, List.foldl_cons, ← hih, Nat.add_zero, Nat.mod_eq_of_lt hh]
      congr 2
      apply List.map_congr_left
      intro i _
      simp only [Function.comp, Nat.mod_add_mod]
      congr 1
      omega

/-! ## The colours of a rectangle -/

/-- The search loop of `vnc_colors` stops at the first index from `p` on that
holds the pixel, or after `n` passes. -/
theorem vnc_colors_find_spec (colors : Nat → Nat) (pixel : Nat) :
    ∀ (n p : Nat),
      p ≤ vnc_colors_find colors pixel n p ∧ vnc_colors_find colors pixel n p ≤ p + n ∧
      (vnc_colors_find colors pixel n p < p + n →
        colors (vnc_colors_find colors pixel n p) = pixel) ∧
      (∀ i, p ≤ i → i < vnc_colors_find colors pixel n p → colors i ≠ pixel) := by
  intro n
  induction n with
  | zero =>
    intro p
    exact ⟨le_refl _, le_refl _, fun h => absurd h (lt_irrefl _),
      fun i h1 h2 => absurd (lt_of_le_of_lt h1 h2) (lt_irrefl _)⟩
  | succ n ih =>
    intro p
    rw [vnc_colors_find]
    by_cases h : colors p = pixel
    · rw [if_pos h]
      exact ⟨le_refl _, by omega, fun _ => h, fun i h1 h2 => by omega⟩
    · rw [if_neg h]
      obtain ⟨a, b, c, d⟩ := ih (p + 1)
      refine ⟨by omega, by omega, fun hlt => c (by omega), fun i h1 h2 => ?_⟩
      by_cases hi : i = p
      · rw [hi]; exact h
      · exact d i (by omega) h2

/-- What the body of the column loop does to the tallies: it returns `-E2BIG`
only on a pixel not seen before when `maxcolors` colours are already stored;
otherwise the tallies are those of the pixels seen so far with this one added. -/
theorem vnc_colors_pixel_spec (vc : VncConfig) (maxcolors : Nat) (st : vnc_colors_s)
    (p : Nat) (seen : List Nat) (ht : tallies seen st) (hle : st.ncolors ≤ maxcolors) :
    ((vnc_colors_pixel vc maxcolors st p).1 = true → p ∉ seen ∧ st.ncolors = maxcolors) ∧
    ((vnc_colors_pixel vc maxcolors st p).1 = false →
      tallies (seen ++ [p]) (vnc_colors_pixel vc maxcolors st p).2 ∧
      (vnc_colors_pixel vc maxcolors st p).2.ncolors ≤ maxcolors ∧
      (counted seen st → seen.length + 1 < 2 ^ vc.uint_bits →
        counted (seen ++ [p]) (vnc_colors_pixel vc maxcolors st p).2)) := by
  obtain ⟨hinj, hmem⟩ := ht
  obtain ⟨-, hk2, hk3, hk4⟩ := vnc_colors_find_spec st.colors p st.ncolors 0
  unfold vnc_colors_pixel
  dsimp only
  generalize vnc_colors_find st.colors p st.ncolors 0 = k at hk2 hk3 hk4
  rw [Nat.zero_add] at hk2 hk3
  by_cases hk : k < st.ncolors
  · rw [if_pos hk]
    have hcol : st.colors k = p := hk3 hk
    have hp : p ∈ seen := (hmem p).1 ⟨k, hk, hcol⟩
    refine ⟨fun h => Bool.noConfusion h, fun _ => ⟨⟨hinj, ?_⟩, hle, ?_⟩⟩
    · intro v
      rw [List.mem_append, List.mem_singleton]
      constructor
      · intro h
        exact Or.inl ((hmem v).1 h)
      · rintro (h | h)
        · exact (hmem v).2 h
        · rw [h]; exact ⟨k, hk, hcol⟩
    · intro hc hfit i hi
      dsimp only at hi ⊢
      rw [List.count_append, List.count_singleton, Function.update_apply]
      by_cases hik : i = k
      · have hle2 := List.count_le_length (st.colors k) seen
        rw [if_pos hik, hik, hc k hk, hcol, Nat.mod_eq_of_lt (by rw [← hcol]; omega)]
        simp
      · have hne : st.colors i ≠ p := by
          intro h
          exact hik (hinj i k hi hk (h.trans hcol.symm))
        rw [if_neg hik, hc i hi]
        simp [Ne.symm hne]
  · rw [if_neg hk]
    have hkn : k = st.ncolors := by omega
    have hnew : ∀ i, i < st.ncolors → st.colors i ≠ p := by
      intro i hi
      exact hk4 i (Nat.zero_le _) (by omega)
    have hp : p ∉ seen := by
      intro h
      obtain ⟨i, hi, hc⟩ := (hmem p).2 h
      exact hnew i hi hc
    by_cases hmax : st.ncolors ≥ maxcolors
    · rw [if_pos hmax]
      exact ⟨fun _ => ⟨hp, by omega⟩, fun h => Bool.noConfusion h⟩
    · rw [if_neg hmax]
      refine ⟨fun h => Bool.noConfusion h, fun _ => ⟨⟨?_, ?_⟩, by dsimp only; omega, ?_⟩⟩
      · intro i j hi hj
        dsimp only at hi hj ⊢
        rw [Function.update_apply, Function.update_apply]
        by_cases hin : i = st.ncolors <;> by_cases hjn : j = st.ncolors
        · intro _; omega
        · rw [if_pos hin, if_neg hjn]
          intro h
          exact absurd h.symm (hnew j (by omega))
        · rw [if_neg hin, if_pos hjn]
          intro h
          exact absurd h (hnew i (by omega))
        · rw [if_neg hin, if_neg hjn]
          exact hinj i j (by omega) (by omega)
      · intro v
        dsimp only
        rw [List.mem_append, List.mem_singleton]
        constructor
        · rintro ⟨i, hi, hc⟩
          rw [Function.update_apply] at hc
          by_cases hin : i = st.ncolors
          · rw [if_pos hin] at hc
            exact Or.inr hc.symm
          · rw [if_neg hin] at hc
            exact Or.inl ((hmem v).1 ⟨i, by omega, hc⟩)
        · rintro (h | h)
          · obtain ⟨i, hi, hc⟩ := (hmem v).2 h
            refine ⟨i, by omega, ?_⟩
            rw [Function.update_apply, if_neg (by omega)]
            exact hc
          · refine ⟨st.ncolors, by omega, ?_⟩
            rw [Function.update_apply, if_pos rfl, h]
      · intro hc _ i hi
        dsimp only at hi ⊢
        rw [List.count_append, List.count_singleton, Function.update_apply,
          Function.update_apply]
        by_cases hin : i = st.ncolors
        · rw [if_pos hin, if_pos hin, List.count_eq_zero_of_not_mem hp]
          simp
        · rw [if_neg hin, if_neg hin, hc i (by omega)]
          simp [Ne.symm (hnew i (by omega))]

/-- When the tallies are those of a list of pixels, `ncolors` is the number of
distinct values in the list. -/
theorem tallies_card (px : List Nat) (st : vnc_colors_s) (ht : tallies px st) :
    st.ncolors = px.toFinset.card := by
  obtain ⟨hinj, hmem⟩ := ht
  have himg : px.toFinset = (Finset.range st.ncolors).image st.colors := by
    ext v
    rw [List.mem_toFinset, Finset.mem_image]
    constructor
    · intro h
      obtain ⟨i, hi, hc⟩ := (hmem v).2 h
      exact ⟨i, Finset.mem_range.2 hi, hc⟩
    · rintro ⟨i, hi, hc⟩
      exact (hmem v).1 ⟨i, Finset.mem_range.1 hi, hc⟩
  rw [himg, Finset.card_image_of_injOn, Finset.card_range]
  intro i hi j hj h
  exact hinj i j (Finset.mem_range.1 (Finset.mem_coe.1 hi))
    (Finset.mem_range.1 (Finset.mem_coe.1 hj)) h

/-- The scan of a list of pixels from tallies of the pixels seen before: it
returns `-E2BIG` only if the pixels seen and scanned hold more than `maxcolors`
distinct values; otherwise it leaves the tallies of all of them, and exact
counts as long as the counters do not wrap. -/
theorem vnc_colors_scan_spec (vc : VncConfig) (maxcolors : Nat) :
    ∀ (ps seen : List Nat) (st : vnc_colors_s), tallies seen st → st.ncolors ≤ maxcolors →
      ((vnc_colors_scan vc maxcolors ps st).1 = true →
        maxcolors < (seen ++ ps).toFinset.card) ∧
      ((vnc_colors_scan vc maxcolors ps st).1 = false →
        tallies (seen ++ ps) (vnc_colors_scan vc maxcolors ps st).2 ∧
        (vnc_colors_scan vc maxcolors ps st).2.ncolors ≤ maxcolors ∧
        (counted seen st → (seen ++ ps).length < 2 ^ vc.uint_bits →
          counted (seen ++ ps) (vnc_colors_scan vc maxcolors ps st).2)) := by
  intro ps
  induction ps with
  | nil =>
    intro seen st ht hle
    rw [List.append_nil]
    exact ⟨fun h => Bool.noConfusion h, fun _ => ⟨ht, hle, fun hc _ => hc⟩⟩
  | cons p ps ih =>
    intro seen st ht hle
    obtain ⟨hb, hn⟩ := vnc_colors_pixel_spec vc maxcolors st p seen ht hle
    rw [vnc_colors_scan]
    by_cases hbail : (vnc_colors_pixel vc maxcolors st p).1 = true
    · rw [if_pos hbail]
      refine ⟨fun _ => ?_, fun h => absurd (hbail.symm.trans h) (by simp)⟩
      obtain ⟨hp, hmax⟩ := hb hbail
      have hcard := tallies_card seen st ht
      have hsub : insert p seen.toFinset ⊆ (seen ++ p :: ps).toFinset := by
        intro v hv
        rw [List.mem_toFinset, List.mem_append, List.mem_cons]
        rcases Finset.mem_insert.1 hv with h | h
        · exact Or.inr (Or.inl h)
        · exact Or.inl (List.mem_toFinset.1 h)
      have hins : (insert p seen.toFinset).card = seen.toFinset.card + 1 :=
        Finset.card_insert_of_not_mem (fun h => hp (List.mem_toFinset.1 h))
      have := Finset.card_le_card hsub
      omega
    · rw [if_neg hbail]
      have hb0 : (vnc_colors_pixel vc maxcolors st p).1 = false := by simpa using hbail
      obtain ⟨t1, l1, c1⟩ := hn hb0
      obtain ⟨i1, i2⟩ := ih (seen ++ [p]) _ t1 l1
      rw [List.append_assoc, List.singleton_append] at i1 i2
      refine ⟨i1, fun h => ?_⟩
      obtain ⟨t2, l2, c2⟩ := i2 h
      refine ⟨t2, l2, fun hc hfit => c2 (c1 hc ?_) hfit⟩
      rw [List.length_append, List.length_cons] at hfit
      omega

/-- The scan of two lists one after the other. -/
theorem vnc_colors_scan_append (vc : VncConfig) (maxcolors : Nat) :
    ∀ (a b : List Nat) (st : vnc_colors_s),
      vnc_colors_scan vc maxcolors (a ++ b) st
        = if (vnc_colors_scan vc maxcolors a st).1 then vnc_colors_scan vc maxcolors a st
          else vnc_colors_scan vc maxcolors b (vnc_colors_scan vc maxcolors a st).2 := by
  intro a
  induction a with
  | nil =>
    intro b st
    rfl
  | cons p a ih =>
    intro b st
    rw [List.cons_append, vnc_colors_scan, vnc_colors_scan]
    by_cases hbail : (vnc_colors_pixel vc maxcolors st p).1 = true
    · rw [if_pos hbail, if_pos hbail, if_pos hbail]
    · rw [if_neg hbail, if_neg hbail, ih]

/-- The column loop is the scan of the pixels of one row. -/
theorem vnc_colors_row_eq_scan (vc : VncConfig) (fb : Nat → Nat) (maxcolors : Nat) :
    ∀ (n pixptr : Nat) (st : vnc_colors_s),
      vnc_colors_row vc fb maxcolors n pixptr st
        = vnc_colors_scan vc maxcolors
            ((List.range n).map (fun c => fb (pixptr + vc.sizeof_lfb_color_t * c))) st := by
  intro n
  induction n with
  | zero =>
    intro pixptr st
    rfl
  | succ n ih =>
    intro pixptr st
    rw [vnc_colors_row, List.range_succ_eq_map, List.map_cons, List.map_map, vnc_colors_scan,
      Nat.mul_zero, Nat.add_zero]
    rw [ih]
    have hmap : (List.range n).map (fun c => fb (pixptr + vc.sizeof_lfb_color_t
          + vc.sizeof_lfb_color_t * c))
        = (List.range n).map ((fun c => fb (pixptr + vc.sizeof_lfb_color_t * c)) ∘ Nat.succ) := by
      apply List.map_congr_left
      intro c _
      simp only [Function.comp, Nat.succ_eq_add_one]
      congr 1
      rw [Nat.mul_add, Nat.mul_one]
      omega
    rw [hmap]

/-- The row loop is the scan of the pixels of the rows, one row after the
other. -/
theorem vnc_colors_rows_eq_scan (vc : VncConfig) (fb : Nat → Nat) (maxcolors w : Nat) :
    ∀ (n rowstart : Nat) (st : vnc_colors_s),
      vnc_colors_rows vc fb maxcolors w n rowstart st
        = vnc_colors_scan vc maxcolors
            ((List.range n).flatMap (fun r => (List.range w).map (fun c =>
              fb (rowstart + vc.RFB_STRIDE * r + vc.sizeof_lfb_color_t * c)))) st := by
  intro n
  induction n with
  | zero =>
    intro rowstart st
    rfl
  | succ n ih =>
    intro rowstart st
    rw [vnc_colors_rows, List.range_succ_eq_map, List.flatMap_cons, List.flatMap_map,
      vnc_colors_scan_append, Nat.mul_zero, Nat.add_zero, ← vnc_colors_row_eq_scan]
    rw [ih]
    have hmap : (List.range n).flatMap (fun r => (List.range w).map (fun c =>
          fb (rowstart + vc.RFB_STRIDE + vc.RFB_STRIDE * r + vc.sizeof_lfb_color_t * c)))
        = (List.range n).flatMap ((fun r => (List.range w).map (fun c =>
          fb (rowstart + vc.RFB_STRIDE * r + vc.sizeof_lfb_color_t * c))) ∘ Nat.succ) := by
      congr 1
      funext r
      simp only [Function.comp, Nat.succ_eq_add_one]
      apply List.map_congr_left
      intro c _
      congr 1
      rw [Nat.mul_add, Nat.mul_one]
      omega
    rw [hmap]
    rfl

/-- A rectangle of `w` by `h` holds `h * w` pixels. -/
theorem rect_pixels_length (vc : VncConfig) (fb : Nat → Nat) (rect : fb_area_s) :
    (rect_pixels vc fb rect).length = rect.h * rect.w := by
  have key : ∀ (f : Nat → List Nat) (l : List Nat), (∀ r, (f r).length = rect.w) →
      (l.map (List.length ∘ f)).sum = l.length * rect.w := by
    intro f l hf
    induction l with
    | nil => simp
    | cons a l ih => simp [hf a, ih, Nat.succ_mul, Nat.add_comm]
  rw [rect_pixels, List.length_flatMap, key _ _ (fun r => by simp), List.length_range]

/-- The inner loop of the sort returns an index of the largest count among
`maxndx` and the `n` indices from `cmpndx` on. -/
theorem vnc_colors_maxndx_spec (counts : Nat → Nat) :
    ∀ (n cmpndx maxndx : Nat),
      (vnc_colors_maxndx counts n cmpndx maxndx = maxndx ∨
        (cmpndx ≤ vnc_colors_maxndx counts n cmpndx maxndx ∧
          vnc_colors_maxndx counts n cmpndx maxndx < cmpndx + n)) ∧
      counts maxndx ≤ counts (vnc_colors_maxndx counts n cmpndx maxndx) ∧
      (∀ j, cmpndx ≤ j → j < cmpndx + n →
        counts j ≤ counts (vnc_colors_maxndx counts n cmpndx maxndx)) := by
  intro n
  induction n with
  | zero =>
    intro cmpndx maxndx
    exact ⟨Or.inl rfl, le_refl _, fun j h1 h2 => by omega⟩
  | succ n ih =>
    intro cmpndx maxndx
    rw [vnc_colors_maxndx]
    obtain ⟨h1, h2, h3⟩ := ih (cmpndx + 1)
      (if counts cmpndx > counts maxndx then cmpndx else maxndx)
    generalize vnc_colors_maxndx counts n (cmpndx + 1)
      (if counts cmpndx > counts maxndx then cmpndx else maxndx) = r at h1 h2 h3
    by_cases hgt : counts cmpndx > counts maxndx
    · rw [if_pos hgt] at h1 h2
      refine ⟨Or.inr ?_, by omega, fun j hj1 hj2 => ?_⟩
      · rcases h1 with h | h
        · omega
        · omega
      · by_cases hj : j = cmpndx
        · rw [hj]; exact h2
        · exact h3 j (by omega) (by omega)
    · rw [if_neg hgt] at h1 h2
      refine ⟨?_, h2, fun j hj1 hj2 => ?_⟩
      · rcases h1 with h | h
        · exact Or.inl h
        · exact Or.inr (by omega)
      · by_cases hj : j = cmpndx
        · rw [hj]; omega
        · exact h3 j (by omega) (by omega)

theorem transpose_transpose (a b i : Nat) : transpose a b (transpose a b i) = i := by
  unfold transpose
  split_ifs <;> omega

theorem transpose_lt {a b i n : Nat} (ha : a < n) (hb : b < n) (hi : i < n) :
    transpose a b i < n := by
  unfold transpose
  split_ifs <;> omega

/-- After the exchange, entry `i` is the old entry at the exchanged index. -/
theorem vnc_colors_swap_apply (st : vnc_colors_s) (a b i : Nat) :
    (vnc_colors_swap st a b).colors i = st.colors (transpose a b i) ∧
    (vnc_colors_swap st a b).counts i = st.counts (transpose a b i) := by
  unfold vnc_colors_swap transpose
  dsimp only
  rw [Function.update_apply, Function.update_apply, Function.update_apply,
    Function.update_apply]
  split_ifs <;> exact ⟨rfl, rfl⟩

/-- The tallies and the counts survive an exchange of two entries below
`ncolors`. -/
theorem tallies_reindex (px : List Nat) (st st1 : vnc_colors_s) (a b : Nat)
    (hn : st1.ncolors = st.ncolors) (ha : a < st.ncolors) (hb : b < st.ncolors)
    (hcol : ∀ i, st1.colors i = st.colors (transpose a b i))
    (hcnt : ∀ i, st1.counts i = st.counts (transpose a b i)) :
    (tallies px st → tallies px st1) ∧ (counted px st → counted px st1) := by
  constructor
  · rintro ⟨hinj, hmem⟩
    refine ⟨fun i j hi hj h => ?_, fun v => ?_⟩
    · rw [hn] at hi hj
      rw [hcol, hcol] at h
      have := hinj _ _ (transpose_lt ha hb hi) (transpose_lt ha hb hj) h
      rw [← transpose_transpose a b i, this, transpose_transpose]
    · rw [← hmem v, hn]
      constructor
      · rintro ⟨i, hi, hc⟩
        exact ⟨transpose a b i, transpose_lt ha hb hi, by rw [← hcol]; exact hc⟩
      · rintro ⟨i, hi, hc⟩
        exact ⟨transpose a b i, transpose_lt ha hb hi,
          by rw [hcol, transpose_transpose]; exact hc⟩
  · intro hc i hi
    rw [hn] at hi
    rw [hcnt, hcol]
    exact hc _ (transpose_lt ha hb hi)

/-- The sort loop of `vnc_colors` from pass `pixndx` on: it keeps `ncolors`,
the tallies and the counts, and leaves the counts in descending order. -/
theorem vnc_colors_sort_spec (px : List Nat) :
    ∀ (n pixndx : Nat) (st : vnc_colors_s),
      n = st.ncolors - 1 - pixndx →
      (∀ i j, i < pixndx → i ≤ j → j < st.ncolors → st.counts j ≤ st.counts i) →
      (vnc_colors_sort n pixndx st).ncolors = st.ncolors ∧
      (tallies px st → tallies px (vnc_colors_sort n pixndx st)) ∧
      (counted px st → counted px (vnc_colors_sort n pixndx st)) ∧
      (∀ i j, i < pixndx + n → i ≤ j → j < st.ncolors →
        (vnc_colors_sort n pixndx st).counts j ≤ (vnc_colors_sort n pixndx st).counts i) := by
  intro n
  induction n with
  | zero =>
    intro pixndx st _ hdesc
    exact ⟨rfl, fun h => h, fun h => h, hdesc⟩
  | succ n ih =>
    intro pixndx st hn hdesc
    rw [vnc_colors_sort]
    obtain ⟨m1, m2, m3⟩ :=
      vnc_colors_maxndx_spec st.counts (st.ncolors - (pixndx + 1)) (pixndx + 1) pixndx
    generalize vnc_colors_maxndx st.counts (st.ncolors - (pixndx + 1)) (pixndx + 1) pixndx = m
      at m1 m2 m3
    have hm : pixndx ≤ m ∧ m < st.ncolors := by
      rcases m1 with h | h <;> omega
    have key : ∀ x, pixndx ≤ x → x < st.ncolors → st.counts x ≤ st.counts m := by
      intro x h1 h2
      by_cases hx : x = pixndx
      · rw [hx]; exact m2
      · exact m3 x (by omega) (by omega)
    have hprops : ∀ st1, (if m ≠ pixndx then vnc_colors_swap st pixndx m else st) = st1 →
        st1.ncolors = st.ncolors ∧ (∀ i, st1.colors i = st.colors (transpose pixndx m i)) ∧
        (∀ i, st1.counts i = st.counts (transpose pixndx m i)) := by
      intro st1 hst1
      by_cases hmp : m = pixndx
      · rw [if_neg (not_not.2 hmp)] at hst1
        have hid : ∀ i, transpose pixndx m i = i := by
          intro i
          unfold transpose
          split_ifs <;> omega
        rw [← hst1]
        exact ⟨rfl, fun i => by rw [hid], fun i => by rw [hid]⟩
      · rw [if_pos hmp] at hst1
        rw [← hst1]
        exact ⟨rfl, fun i => (vnc_colors_swap_apply st pixndx m i).1,
          fun i => (vnc_colors_swap_apply st pixndx m i).2⟩
    generalize hst1 : (if m ≠ pixndx then vnc_colors_swap st pixndx m else st) = st1
    obtain ⟨hn1, hcol, hcnt⟩ := hprops st1 hst1
    obtain ⟨tt, cc⟩ := tallies_reindex px st st1 pixndx m hn1 (by omega) hm.2 hcol hcnt
    have hdesc1 : ∀ i j, i < pixndx + 1 → i ≤ j → j < st1.ncolors →
        st1.counts j ≤ st1.counts i := by
      intro i j hi hij hj
      rw [hn1] at hj
      rw [hcnt j, hcnt i]
      have htj : transpose pixndx m j < st.ncolors := transpose_lt (by omega) hm.2 hj
      by_cases hip : i < pixndx
      · have hti : transpose pixndx m i = i := by
          unfold transpose
          split_ifs <;> omega
        have hle : i ≤ transpose pixndx m j := by
          unfold transpose
          split_ifs <;> omega
        rw [hti]
        exact hdesc i _ hip hle htj
      · have hti : transpose pixndx m i = m := by
          unfold transpose
          split_ifs <;> omega
        have hle : pixndx ≤ transpose pixndx m j := by
          unfold transpose
          split_ifs <;> omega
        rw [hti]
        exact key _ hle htj
    obtain ⟨e1, e2, e3, e4⟩ := ih (pixndx + 1) st1 (by omega) hdesc1
    refine ⟨e1.trans hn1, fun h => e2 (tt h), fun h => e3 (cc h), fun i j hi hij hj => ?_⟩
    exact e4 i j (by omega) hij (by omega)

/-- The two outcomes of `vnc_colors`.  It returns `-E2BIG` when the rectangle
holds more than `maxcolors` distinct values.  Otherwise it returns the number of
distinct values, with `colors[]` holding each of them once; and if the counters
cannot wrap, in descending order of the number of occurrences. -/
theorem vnc_colors_outcome (vc : VncConfig) (fb : Nat → Nat) (rect : fb_area_s)
    (maxcolors : Nat) (colors : Nat → Nat) :
    (maxcolors < (rect_pixels vc fb rect).toFinset.card →
      (vnc_colors vc fb rect maxcolors colors).1 = -(vc.E2BIG : Int)) ∧
    ((rect_pixels vc fb rect).toFinset.card ≤ maxcolors →
      ∃ st : vnc_colors_s,
        vnc_colors vc fb rect maxcolors colors = ((st.ncolors : Int), st.colors) ∧
        st.ncolors = (rect_pixels vc fb rect).toFinset.card ∧
        tallies (rect_pixels vc fb rect) st ∧
        ((rect_pixels vc fb rect).length < 2 ^ vc.uint_bits →
          ∀ i j, i ≤ j → j < st.ncolors →
            (rect_pixels vc fb rect).count (st.colors j)
              ≤ (rect_pixels vc fb rect).count (st.colors i))) := by
  have ht0 : tallies [] { colors := colors, counts := fun _ => 0, ncolors := 0 } :=
    ⟨fun i j hi _ _ => absurd hi (Nat.not_lt_zero _),
     fun v => ⟨fun ⟨i, hi, _⟩ => absurd hi (Nat.not_lt_zero _), fun h => by simp at h⟩⟩
  have hc0 : counted [] { colors := colors, counts := fun _ => 0, ncolors := 0 } :=
    fun i hi => absurd hi (Nat.not_lt_zero _)
  obtain ⟨hbail, hok⟩ := vnc_colors_scan_spec vc maxcolors (rect_pixels vc fb rect) []
    { colors := colors, counts := fun _ => 0, ncolors := 0 } ht0 (Nat.zero_le _)
  rw [List.nil_append] at hbail hok
  have hrows : vnc_colors_rows vc fb maxcolors rect.w rect.h
      (vc.RFB_STRIDE * rect.y + vc.RFB_BYTESPERPIXEL * rect.x)
      { colors := colors, counts := fun _ => 0, ncolors := 0 }
      = vnc_colors_scan vc maxcolors (rect_pixels vc fb rect)
          { colors := colors, counts := fun _ => 0, ncolors := 0 } :=
    vnc_colors_rows_eq_scan vc fb maxcolors rect.w rect.h _ _
  unfold vnc_colors
  dsimp only
  rw [hrows]
  generalize vnc_colors_scan vc maxcolors (rect_pixels vc fb rect)
    { colors := colors, counts := fun _ => 0, ncolors := 0 } = r at hbail hok
  by_cases hb : r.1 = true
  · rw [if_pos hb]
    exact ⟨fun _ => rfl, fun h => absurd (hbail hb) (by omega)⟩
  · rw [if_neg hb]
    have hb0 : r.1 = false := by simpa using hb
    obtain ⟨t1, -, c1⟩ := hok hb0
    obtain ⟨e1, e2, e3, e4⟩ := vnc_colors_sort_spec (rect_pixels vc fb rect)
      (r.2.ncolors - 1) 0 r.2 (by omega) (fun i j hi => absurd hi (Nat.not_lt_zero _))
    have hcard := tallies_card _ _ (e2 t1)
    refine ⟨fun h => ?_, fun _ => ⟨_, rfl, hcard, e2 t1, fun hfit i j hij hj => ?_⟩⟩
    · have hcard1 := tallies_card _ _ t1
      have hle := (hok hb0).2.1
      omega
    · have hcnt := e3 (c1 hc0 hfit)
      rw [e1] at hj
      rw [← hcnt i (by rw [e1]; omega), ← hcnt j (by rw [e1]; exact hj)]
      by_cases hlast : i < 0 + (r.2.ncolors - 1)
      · exact e4 i j hlast hij hj
      · have : i = j := by omega
        rw [this]

/-! ## One byte offered to a full buffer -/

/-- One byte offered to a full RX buffer, in every build configuration: the loop
of `uart_recvchars` ends with `received == 0` and the buffer untouched.  If the
flow-control block does not tell it to stop, the byte has been read (and is
dropped); if it does, the byte has not been read. -/
theorem uart_recvchars_loop_full_one (cfg : Config) (dev : uart_dev_s) (fuel : Nat)
    (hfull : next_index dev.recv.head dev.recv.size = dev.recv.tail)
    (havail : dev.ops.rxavailable dev.nrxavailable = true)
    (hend : dev.ops.rxavailable (dev.nrxavailable + 1) = false)
    (hfuel : 1 < fuel) :
    ∃ dev1, uart_recvchars_loop cfg fuel dev (next_index dev.recv.head dev.recv.size) 0
        = some (dev1, 0) ∧
      dev1.recv = dev.recv ∧ dev1.ndatareceived = dev.ndatareceived ∧
      ((dorxflowcontrol_configured cfg (uart_rxavailable dev).2 true).1 = false →
        dev1.nreceive = dev.nreceive + 1) ∧
      ((dorxflowcontrol_configured cfg (uart_rxavailable dev).2 true).1 = true →
        dev1.nreceive = dev.nreceive) := by
  obtain ⟨f, rfl⟩ : ∃ f, fuel = (f + 1) + 1 := ⟨fuel - 2, by omega⟩
  have ha : (uart_rxavailable dev).1 = true := havail
  have hflag : (next_index dev.recv.head dev.recv.size == (uart_rxavailable dev).2.recv.tail)
      = true := by
    rw [show (uart_rxavailable dev).2.recv.tail = dev.recv.tail from rfl, hfull]
    exact beq_self_eq_true _
  obtain ⟨⟨-, -, -, p4, -, -, -, -, -, -, p11, p12, -⟩, p2, -, pt, pf⟩ :=
    uart_recvchars_pass_spec cfg (uart_rxavailable dev).2
      (next_index dev.recv.head dev.recv.size) 0 _ rfl
  rw [hflag] at p2
  rw [uart_recvchars_loop_succ, if_pos ha]
  by_cases hb : (uart_recvchars_pass cfg (uart_rxavailable dev).2
      (next_index dev.recv.head dev.recv.size) 0).1 = true
  · rw [if_pos hb]
    obtain ⟨e1, e2⟩ := pt hb
    refine ⟨_, rfl, e1, p12, fun h => ?_, fun _ => e2⟩
    rw [← p2, hb] at h
    exact Bool.noConfusion h
  · rw [if_neg hb]
    have hb0 : (uart_recvchars_pass cfg (uart_rxavailable dev).2
        (next_index dev.recv.head dev.recv.size) 0).1 = false := by simpa using hb
    obtain ⟨pn, -, pfull⟩ := pf hb0
    obtain ⟨e1, e2, e3⟩ := pfull hflag
    rw [e2, e3, uart_recvchars_loop_succ]
    have hx : (uart_recvchars_pass cfg (uart_rxavailable dev).2
        (next_index dev.recv.head dev.recv.size) 0).2.1.nrxavailable
        = dev.nrxavailable + 1 := p11
    have hna : (uart_rxavailable (uart_recvchars_pass cfg (uart_rxavailable dev).2
        (next_index dev.recv.head dev.recv.size) 0).2.1).1 = false := by
      show (uart_recvchars_pass cfg (uart_rxavailable dev).2
        (next_index dev.recv.head dev.recv.size) 0).2.1.ops.rxavailable
        (uart_recvchars_pass cfg (uart_rxavailable dev).2
        (next_index dev.recv.head dev.recv.size) 0).2.1.nrxavailable = false
      rw [p4, hx]
      exact hend
    rw [if_neg (by rw [hna]; exact Bool.false_ne_true)]
    refine ⟨_, rfl, e1, p12, fun _ => pn, fun h => ?_⟩
    rw [← p2, hb0] at h
    exact Bool.noConfusion h

/-! ## Claims -/

/-- C1.  On a TX ring buffer with `0 <= head, tail < size` that holds `n`
occupied bytes, against hardware whose `uart_txready` answers true exactly `k`
consecutive times, `uart_xmitchars` returns (any fuel above `min n k` is
enough), it has passed to `uart_send` exactly the first `min n k` buffered
bytes in FIFO order from index `tail`, wrapping at `size`, and on return
`xmit.tail = (tail + min n k) mod size` while `xmit.head` and the storage are
unchanged. -/
theorem uart_xmitchars_drains_min (dev : uart_dev_s) (k fuel : Nat)
    (hrange : inrange dev.xmit)
    (hready : ∀ i, i < k → dev.ops.txready (dev.ntxready + i) = true)
    (hstop : dev.ops.txready (dev.ntxready + k) = false)
    (hfuel : min (occupied_count dev.xmit) k < fuel) :
    ∃ dev1, uart_xmitchars fuel dev = some dev1 ∧
      dev1.sent = dev.sent ++ (List.range (min (occupied_count dev.xmit) k)).map
        (fun i => dev.xmit.buffer ((dev.xmit.tail + i) % dev.xmit.size)) ∧
      dev1.xmit.tail = (dev.xmit.tail + min (occupied_count dev.xmit) k) % dev.xmit.size ∧
      dev1.xmit.head = dev.xmit.head ∧
      dev1.xmit.buffer = dev.xmit.buffer ∧
      dev1.xmit.size = dev.xmit.size := by
  obtain ⟨d, hrun, hsent, htail, hhead, hbuf, hsize, -⟩ :=
    uart_xmitchars_loop_spec fuel dev 0 k hrange (by norm_num) hready (fun _ => hstop) hfuel
  refine ⟨_, by rw [uart_xmitchars, hrun], ?_⟩
  split_ifs <;>
    simp [uart_datasent, uart_disabletxint, hsent, htail, hhead, hbuf, hsize]

/-- C1, the drain scenario: `[A, B, C]` against hardware ready for two sends. -/
theorem uart_xmitchars_drains_min_witness :
    inrange drain_dev.xmit ∧ occupied_count drain_dev.xmit = 3 ∧
    ∃ dev1, uart_xmitchars 3 drain_dev = some dev1 ∧
      dev1.sent = drain_dev.sent ++ (List.range (min (occupied_count drain_dev.xmit) 2)).map
        (fun i => drain_dev.xmit.buffer ((drain_dev.xmit.tail + i) % drain_dev.xmit.size)) ∧
      dev1.xmit.tail = (drain_dev.xmit.tail + min (occupied_count drain_dev.xmit) 2)
        % drain_dev.xmit.size ∧
      dev1.xmit.head = drain_dev.xmit.head ∧
      dev1.xmit.buffer = drain_dev.xmit.buffer ∧
      dev1.xmit.size = drain_dev.xmit.size :=
  ⟨by decide, by decide,
    uart_xmitchars_drains_min drain_dev 2 3 (by decide) (by decide) (by decide) (by decide)⟩

/-- C2.  With flow control not configured, on an RX ring buffer with
`0 <= head, tail < size` and `f = size - 1 - occupied` free slots, against a
source that has exactly `k` bytes available, `uart_recvchars` returns (any fuel
above `k` is enough), it has called `uart_receive` exactly `k` times, stored the
first `min f k` bytes in order in cells `head, head + 1, ...` modulo `size`, set
`recv.head = (head + min f k) mod size`, and discarded the rest: no other cell
and no other field of the buffer has changed. -/
theorem uart_recvchars_stores_min (cfg : Config) (dev : uart_dev_s) (k fuel : Nat)
    (hcfg : cfg.CONFIG_SERIAL_IFLOWCONTROL = false)
    (hrange : inrange dev.recv)
    (havail : ∀ i, i < k → dev.ops.rxavailable (dev.nrxavailable + i) = true)
    (hend : dev.ops.rxavailable (dev.nrxavailable + k) = false)
    (hfuel : k < fuel) :
    ∃ dev1, uart_recvchars cfg fuel dev = some dev1 ∧
      dev1.nreceive = dev.nreceive + k ∧
      (∀ i, i < min (free_count dev.recv) k →
        dev1.recv.buffer ((dev.recv.head + i) % dev.recv.size)
          = dev.ops.receive (dev.nreceive + i)) ∧
      dev1.recv.head = (dev.recv.head + min (free_count dev.recv) k) % dev.recv.size ∧
      (∀ j, (∀ i, i < min (free_count dev.recv) k → j ≠ (dev.recv.head + i) % dev.recv.size) →
        dev1.recv.buffer j = dev.recv.buffer j) ∧
      dev1.recv.tail = dev.recv.tail ∧
      dev1.recv.size = dev.recv.size := by
  have hloop := uart_recvchars_loop_spec cfg hcfg fuel dev 0 k hrange (by norm_num)
    havail hend hfuel
  have hlen : (source_bytes dev.ops dev.nreceive (min (free_count dev.recv) k)).length
      ≤ dev.recv.size := by
    rw [source_bytes_length]
    unfold free_count
    omega
  obtain ⟨h1, h2, h3, h4, h5⟩ := foldl_push_one_spec _ dev.recv hrange.1 hlen
  rw [source_bytes_length] at h1 h4 h5
  refine ⟨_, by rw [uart_recvchars, hloop], ?_⟩
  have h4a : ∀ i, i < min (free_count dev.recv) k →
      (List.foldl push_one dev.recv
          (source_bytes dev.ops dev.nreceive (min (free_count dev.recv) k))).buffer
        ((dev.recv.head + i) % dev.recv.size) = dev.ops.receive (dev.nreceive + i) := by
    intro i hi
    have := h4 i hi
    rw [source_bytes_getElem? _ _ _ _ hi] at this
    exact (Option.some.inj this).symm
  split_ifs <;> exact ⟨rfl, h4a, h1, h5, h2, h3⟩

/-- C2, a scenario: two free slots, three bytes offered. -/
theorem uart_recvchars_stores_min_witness :
    inrange fill_dev.recv ∧ free_count fill_dev.recv = 2 ∧
    ∃ dev1, uart_recvchars cfg_noflow 4 fill_dev = some dev1 ∧
      dev1.nreceive = fill_dev.nreceive + 3 ∧
      (∀ i, i < min (free_count fill_dev.recv) 3 →
        dev1.recv.buffer ((fill_dev.recv.head + i) % fill_dev.recv.size)
          = fill_dev.ops.receive (fill_dev.nreceive + i)) ∧
      dev1.recv.head = (fill_dev.recv.head + min (free_count fill_dev.recv) 3)
        % fill_dev.recv.size ∧
      (∀ j, (∀ i, i < min (free_count fill_dev.recv) 3 →
          j ≠ (fill_dev.recv.head + i) % fill_dev.recv.size) →
        dev1.recv.buffer j = fill_dev.recv.buffer j) ∧
      dev1.recv.tail = fill_dev.recv.tail ∧
      dev1.recv.size = fill_dev.recv.size :=
  ⟨by decide, by decide,
    uart_recvchars_stores_min cfg_noflow fill_dev 3 4 rfl (by decide) (by decide) (by decide)
      (by decide)⟩

/-- C3.  Overrun.  With flow control not configured, on a full RX buffer
(`(head + 1) mod size == tail`, `head` inside the array) against a source of `m`
bytes, `uart_recvchars` returns, the loop ends with `received == 0`, the buffer
(`head`, `tail`, every storage cell) is unchanged, `uart_receive` has been
called exactly `m` times, and `uart_datareceived` has not been called. -/
theorem uart_recvchars_overrun (cfg : Config) (dev : uart_dev_s) (m fuel : Nat)
    (hcfg : cfg.CONFIG_SERIAL_IFLOWCONTROL = false)
    (hhead : dev.recv.head < dev.recv.size)
    (hfull : (dev.recv.head + 1) % dev.recv.size = dev.recv.tail)
    (havail : ∀ i, i < m → dev.ops.rxavailable (dev.nrxavailable + i) = true)
    (hend : dev.ops.rxavailable (dev.nrxavailable + m) = false)
    (hfuel : m < fuel) :
    ∃ dev1, uart_recvchars cfg fuel dev = some dev1 ∧
      (∃ dev0, uart_recvchars_loop cfg fuel dev (next_index dev.recv.head dev.recv.size) 0
        = some (dev0, 0)) ∧
      dev1.recv = dev.recv ∧
      dev1.nreceive = dev.nreceive + m ∧
      dev1.ndatareceived = dev.ndatareceived := by
  have hloop := uart_recvchars_loop_full cfg dev m fuel hcfg hhead hfull havail hend hfuel
  refine ⟨_, by rw [uart_recvchars, hloop], ⟨_, hloop⟩, ?_⟩
  simp

/-- C3, the case of the specification: `m = 3`. -/
theorem uart_recvchars_overrun_witness :
    ∃ dev1, uart_recvchars cfg_noflow 4 overrun_dev = some dev1 ∧
      (∃ dev0, uart_recvchars_loop cfg_noflow 4 overrun_dev
          (next_index overrun_dev.recv.head overrun_dev.recv.size) 0 = some (dev0, 0)) ∧
      dev1.recv = overrun_dev.recv ∧
      dev1.nreceive = overrun_dev.nreceive + 3 ∧
      dev1.ndatareceived = overrun_dev.ndatareceived :=
  uart_recvchars_overrun cfg_noflow overrun_dev 3 4 rfl (by decide) (by decide) (by decide)
    (by decide) (by decide)

/-- C4.  For every sequence of stores (the store step of `uart_recvchars`) and
takes (the send step of `uart_xmitchars`) applied to one ring buffer that starts
empty (`head == tail`, inside the array), where every store finds the buffer not
full and every take finds it not empty, the occupied count
`(head - tail) mod size` after the sequence is the number of stores less the
number of takes, and `0 <= head, tail < size` holds after every step. -/
theorem occupied_is_pushes_minus_pops (b : uart_buffer_s) (ops : List Op)
    (hempty : b.head = b.tail) (hhead : b.head < b.size)
    (hresp : respects b ops = true) :
    (occupied_count (run_ops b ops).1 : Int)
        = ((pushed ops).length : Int) - (pops ops : Int) ∧
      ∀ n, inrange (run_ops b (ops.take n)).1 := by
  obtain ⟨hr, -, -, hnil⟩ := empty_counts b hempty hhead
  constructor
  · obtain ⟨-, hfifo, hlen⟩ := run_ops_spec ops b hr hresp
    have := congrArg List.length hfifo
    rw [hnil, List.nil_append, List.length_append, contents_length, hlen] at this
    omega
  · intro n
    exact (run_ops_spec _ b hr (respects_take ops b n hresp)).1

/-- C4 on the wraparound scenario: three stores, two takes, two stores leave
three bytes occupied. -/
theorem occupied_is_pushes_minus_pops_witness :
    respects (empty_buffer 4 0) wrap_ops = true ∧
    occupied_count (run_ops (empty_buffer 4 0) wrap_ops).1 = 3 ∧
    ((occupied_count (run_ops (empty_buffer 4 0) wrap_ops).1 : Int)
        = ((pushed wrap_ops).length : Int) - (pops wrap_ops : Int) ∧
      ∀ n, inrange (run_ops (empty_buffer 4 0) (wrap_ops.take n)).1) :=
  ⟨by decide, by decide,
    occupied_is_pushes_minus_pops (empty_buffer 4 0) wrap_ops rfl (by decide) (by decide)⟩

/-- C5.  Round trip.  On a ring buffer that is empty at any index position
(`head == tail = p`, `0 <= p < size`), for every byte sequence of length
`N <= size - 1`: storing the `N` bytes with the store step of `uart_recvchars`
and then taking `N` bytes with the send step of `uart_xmitchars` never meets a
full or an empty buffer, yields the same `N` bytes in the same order, and leaves
the buffer empty. -/
theorem push_pop_roundtrip (b : uart_buffer_s) (cs : List Nat)
    (hempty : b.head = b.tail) (hhead : b.head < b.size) (hlen : cs.length ≤ b.size - 1) :
    respects b (cs.map Op.push ++ List.replicate cs.length Op.pop) = true ∧
    (run_ops b (cs.map Op.push ++ List.replicate cs.length Op.pop)).2 = cs ∧
    (run_ops b (cs.map Op.push ++ List.replicate cs.length Op.pop)).1.head
      = (run_ops b (cs.map Op.push ++ List.replicate cs.length Op.pop)).1.tail := by
  obtain ⟨h1, -, -, h4, h5, h6, h7⟩ := roundtrip_spec b cs hempty hhead hlen
  rw [respects_append, run_ops_append, run_ops_pushes]
  exact ⟨by simp [h1, h4], by simp [h5], (occupied_count_zero_iff _ h6).1 h7⟩

/-- C5 on a buffer of size 4 that is empty at index 2: three bytes go round and
wrap past the end of the array on the way. -/
theorem push_pop_roundtrip_witness :
    respects (empty_buffer 4 2)
      ([7, 8, 9].map Op.push ++ List.replicate [7, 8, 9].length Op.pop) = true ∧
    (run_ops (empty_buffer 4 2)
      ([7, 8, 9].map Op.push ++ List.replicate [7, 8, 9].length Op.pop)).2 = [7, 8, 9] ∧
    (run_ops (empty_buffer 4 2)
      ([7, 8, 9].map Op.push ++ List.replicate [7, 8, 9].length Op.pop)).1.head
      = (run_ops (empty_buffer 4 2)
      ([7, 8, 9].map Op.push ++ List.replicate [7, 8, 9].length Op.pop)).1.tail :=
  push_pop_roundtrip (empty_buffer 4 2) [7, 8, 9] rfl (by decide) (by decide)

/-- C6.  FIFO order survives wraparound: for every interleaving of stores and
takes on a ring buffer that starts empty, with every store made when the buffer
is not full and every take when it is not empty, the sequence of bytes taken is
a prefix of the sequence of bytes stored. -/
theorem popped_prefix_of_pushed (b : uart_buffer_s) (ops : List Op)
    (hempty : b.head = b.tail) (hhead : b.head < b.size)
    (hresp : respects b ops = true) :
    (run_ops b ops).2 <+: pushed ops := by
  obtain ⟨hr, -, -, hnil⟩ := empty_counts b hempty hhead
  obtain ⟨-, hfifo, -⟩ := run_ops_spec ops b hr hresp
  rw [hnil, List.nil_append] at hfifo
  exact ⟨_, hfifo.symm⟩

/-- C6, the scenario of the specification: size 4 from `head = tail = 0`, store
`a`, `b`, `c`, take two (they are `a`, `b`), store `d`, `e`.  Then `d` is in
cell 3, `e` in cell 0, `head` is 1, `tail` is 2, cells 1 and 2 still hold `b`
and `c`, and the next three takes return `c`, `d`, `e`. -/
theorem popped_prefix_of_pushed_witness :
    respects (empty_buffer 4 0) wrap_ops = true ∧
    (run_ops (empty_buffer 4 0) wrap_ops).2 <+: pushed wrap_ops ∧
    (run_ops (empty_buffer 4 0) wrap_ops).2 = [97, 98] ∧
    (run_ops (empty_buffer 4 0) wrap_ops).1.buffer 3 = 100 ∧
    (run_ops (empty_buffer 4 0) wrap_ops).1.buffer 0 = 101 ∧
    (run_ops (empty_buffer 4 0) wrap_ops).1.head = 1 ∧
    (run_ops (empty_buffer 4 0) wrap_ops).1.tail = 2 ∧
    (run_ops (empty_buffer 4 0) wrap_ops).1.buffer 1 = 98 ∧
    (run_ops (empty_buffer 4 0) wrap_ops).1.buffer 2 = 99 ∧
    respects (empty_buffer 4 0) (wrap_ops ++ [Op.pop, Op.pop, Op.pop]) = true ∧
    (run_ops (run_ops (empty_buffer 4 0) wrap_ops).1 [Op.pop, Op.pop, Op.pop]).2
      = [99, 100, 101] :=
  ⟨by decide, popped_prefix_of_pushed (empty_buffer 4 0) wrap_ops rfl (by decide) (by decide),
    by decide, by decide, by decide, by decide, by decide, by decide, by decide, by decide,
    by decide⟩

/-- C7, as stated, fails where flow control is configured: the push attempt on
the full buffer is rejected, but the byte is not discarded.  In a build with
full-detection flow control, on the buffer of size 4 filled from empty with
three bytes, against a lower half that engages, `uart_recvchars` requests flow
control, stops at lines 436-439 and returns without calling `uart_receive`: the
byte offered stays in the hardware. -/
theorem full_after_size_minus_one_counterexample :
    cfg_fulldetect.CONFIG_SERIAL_IFLOWCONTROL = true ∧
    full_engage_dev.recv = (run_ops (empty_buffer 4 1) ([7, 8, 9].map Op.push)).1 ∧
    (full_engage_dev.recv.head + 1) % full_engage_dev.recv.size = full_engage_dev.recv.tail ∧
    full_engage_dev.ops.rxavailable full_engage_dev.nrxavailable = true ∧
    full_engage_dev.nreceive = 0 ∧
    (uart_recvchars cfg_fulldetect 2 full_engage_dev).map
      (fun d => (d.nreceive, d.rxflow, d.recv.head, d.recv.tail)) = some (0, [(4, true)], 0, 1) :=
  ⟨rfl, rfl, by decide, by decide, by decide, by decide⟩

/-- C7, amended.  Full/empty disambiguation.  For every size `S` (`S >= 2`
included) and every ring buffer of that size that is empty, storing exactly
`S - 1` bytes never meets a full buffer and leaves the full predicate
`(head + 1) mod S == tail` true; a further store attempted through
`uart_recvchars` (one byte offered) is rejected in every build configuration:
the call returns, nothing is stored, `head`, `tail` and the storage are
unchanged and the readers are not woken.  The byte is read and discarded when
the flow-control block does not stop the loop, in particular when flow control
is not configured; when flow control is configured and the lower half reports
it engaged, the byte is left unread.  Taking `S - 1` bytes then never meets an
empty buffer and leaves the occupied count 0 (`head == tail`). -/
theorem full_after_size_minus_one (cfg : Config) (b : uart_buffer_s) (cs : List Nat)
    (dev : uart_dev_s) (fuel : Nat)
    (hempty : b.head = b.tail) (hhead : b.head < b.size)
    (hlen : cs.length = b.size - 1)
    (hdev : dev.recv = (run_ops b (cs.map Op.push)).1)
    (havail : dev.ops.rxavailable dev.nrxavailable = true)
    (hend : dev.ops.rxavailable (dev.nrxavailable + 1) = false)
    (hfuel : 1 < fuel) :
    respects b (cs.map Op.push) = true ∧
    (dev.recv.head + 1) % dev.recv.size = dev.recv.tail ∧
    (∃ dev1, uart_recvchars cfg fuel dev = some dev1 ∧
      dev1.recv = dev.recv ∧ dev1.ndatareceived = dev.ndatareceived ∧
      ((dorxflowcontrol_configured cfg (uart_rxavailable dev).2 true).1 = false →
        dev1.nreceive = dev.nreceive + 1) ∧
      ((dorxflowcontrol_configured cfg (uart_rxavailable dev).2 true).1 = true →
        dev1.nreceive = dev.nreceive) ∧
      (cfg.CONFIG_SERIAL_IFLOWCONTROL = false → dev1.nreceive = dev.nreceive + 1)) ∧
    respects dev.recv (List.replicate (b.size - 1) Op.pop) = true ∧
    occupied_count (run_ops dev.recv (List.replicate (b.size - 1) Op.pop)).1 = 0 ∧
    (run_ops dev.recv (List.replicate (b.size - 1) Op.pop)).1.head
      = (run_ops dev.recv (List.replicate (b.size - 1) Op.pop)).1.tail := by
  obtain ⟨h1, h2, h3, h4, -, h6, h7⟩ := roundtrip_spec b cs hempty hhead (by omega)
  rw [run_ops_pushes] at hdev
  dsimp only at hdev
  rw [hlen, ← hdev] at h4 h6 h7
  rw [← hdev] at h2 h3
  have hsz : dev.recv.size = b.size := by
    rw [hdev]
    exact (foldl_push_one_spec cs b hhead (by omega)).2.2.1
  have hfullb : is_full dev.recv = true := by
    apply (is_full_iff_free _ h2).2
    unfold free_count
    omega
  have hfull : (dev.recv.head + 1) % dev.recv.size = dev.recv.tail := by
    have := hfullb
    rw [is_full, next_index_eq_mod h2.1, beq_iff_eq] at this
    exact this
  obtain ⟨dev1, hloop, hrecv, hndr, hread, hleft⟩ := uart_recvchars_loop_full_one cfg dev fuel
    (by simpa [is_full] using hfullb) havail hend hfuel
  refine ⟨h1, hfull, ⟨dev1, by simp [uart_recvchars, hloop], hrecv, hndr, hread, hleft, ?_⟩,
    h4, h7, (occupied_count_zero_iff _ h6).1 h7⟩
  intro hcfg
  apply hread
  rw [dorxflowcontrol_configured_off cfg hcfg]

/-- C7 amended, on a buffer of size 4 that starts empty at index 1: without flow
control the byte offered is read and dropped; with full-detection flow control
and a lower half that engages it is left unread. -/
theorem full_after_size_minus_one_witness :
    (∃ dev1, uart_recvchars cfg_noflow 2 full_dev = some dev1 ∧
      dev1.recv = full_dev.recv ∧ dev1.nreceive = full_dev.nreceive + 1) ∧
    (∃ dev1, uart_recvchars cfg_fulldetect 2 full_engage_dev = some dev1 ∧
      dev1.recv = full_engage_dev.recv ∧ dev1.nreceive = full_engage_dev.nreceive) ∧
    respects (empty_buffer 4 1) ([7, 8, 9].map Op.push) = true ∧
    (full_dev.recv.head + 1) % full_dev.recv.size = full_dev.recv.tail ∧
    respects full_dev.recv (List.replicate ((empty_buffer 4 1).size - 1) Op.pop) = true ∧
    occupied_count
      (run_ops full_dev.recv (List.replicate ((empty_buffer 4 1).size - 1) Op.pop)).1 = 0 ∧
    (run_ops full_dev.recv (List.replicate ((empty_buffer 4 1).size - 1) Op.pop)).1.head
      = (run_ops full_dev.recv
          (List.replicate ((empty_buffer 4 1).size - 1) Op.pop)).1.tail := by
  obtain ⟨h1, h2, ⟨d, hd, hr, -, -, -, hn⟩, h4, h5, h6⟩ :=
    full_after_size_minus_one cfg_noflow (empty_buffer 4 1) [7, 8, 9] full_dev 2 rfl
      (by decide) (by decide) rfl (by decide) (by decide) (by decide)
  obtain ⟨-, -, ⟨e, he, her, -, -, hen, -⟩, -⟩ :=
    full_after_size_minus_one cfg_fulldetect (empty_buffer 4 1) [7, 8, 9] full_engage_dev 2 rfl
      (by decide) (by decide) rfl (by decide) (by decide) (by decide)
  exact ⟨⟨d, hd, hr, hn rfl⟩, ⟨e, he, her, hen (by decide)⟩, h1, h2, h4, h5, h6⟩

/-- C8.  TX segment planning.  On every non-empty TX buffer (in particular one
with `0 <= head, tail < size`) `uart_xmitchars_dma` hands one plan to
`uart_dmasend`: when `tail < head`, segment 1 starts at `tail` with length
`head - tail` and segment 2 is absent (`NULL`, `nlength` 0); when `tail > head`,
segment 1 starts at `tail` with length `size - tail` and segment 2 starts at
index 0 with length `head`. -/
theorem uart_xmitchars_dma_plan (dev : uart_dev_s)
    (hrange : inrange dev.xmit) (hne : dev.xmit.head ≠ dev.xmit.tail) :
    (dev.xmit.tail < dev.xmit.head →
      (uart_xmitchars_dma dev).dmatx.buffer = some dev.xmit.tail ∧
      (uart_xmitchars_dma dev).dmatx.length = ((dev.xmit.head - dev.xmit.tail : Nat) : Int) ∧
      (uart_xmitchars_dma dev).dmatx.nbuffer = none ∧
      (uart_xmitchars_dma dev).dmatx.nlength = 0) ∧
    (dev.xmit.tail > dev.xmit.head →
      (uart_xmitchars_dma dev).dmatx.buffer = some dev.xmit.tail ∧
      (uart_xmitchars_dma dev).dmatx.length = ((dev.xmit.size - dev.xmit.tail : Nat) : Int) ∧
      (uart_xmitchars_dma dev).dmatx.nbuffer = some 0 ∧
      (uart_xmitchars_dma dev).dmatx.nlength = (dev.xmit.head : Int)) ∧
    (uart_xmitchars_dma dev).ndmasend = dev.ndmasend + 1 := by
  obtain ⟨hh, ht⟩ := hrange
  refine ⟨?_, ?_, ?_⟩
  · intro hlt
    simp only [uart_xmitchars_dma, hne, if_false, hlt, if_true, uart_dmasend, true_and, and_true]
    omega
  · intro hgt
    have hnlt : ¬ dev.xmit.tail < dev.xmit.head := by omega
    simp only [uart_xmitchars_dma, hne, if_false, hnlt, uart_dmasend, true_and, and_true]
    omega
  · simp [uart_xmitchars_dma, hne, uart_dmasend]

/-- C8, the scenario of the specification: `size = 8`, `tail = 6`, `head = 2`
plans segment 1 at index 6 with length 2 and segment 2 at index 0 with length 2. -/
theorem uart_xmitchars_dma_plan_witness :
    (uart_xmitchars_dma txplan_dev).dmatx.buffer = some 6 ∧
    (uart_xmitchars_dma txplan_dev).dmatx.length = 2 ∧
    (uart_xmitchars_dma txplan_dev).dmatx.nbuffer = some 0 ∧
    (uart_xmitchars_dma txplan_dev).dmatx.nlength = 2 :=
  (uart_xmitchars_dma_plan txplan_dev (by decide) (by decide)).2.1 (by decide)

/-- C9, as stated, fails: on the in-range, non-full RX buffer `size = 8`,
`head = 6`, `tail = 2` in a build with watermark flow control at 50 percent, the
occupancy 4 reaches the watermark 4, `uart_rxflowcontrol` reports it engaged, and
`uart_recvchars_dma` returns at line 250: the descriptor is left as it was and
`uart_dmareceive` is not called, where the claim has segment 1 of length 2 and
segment 2 of length 1. -/
theorem uart_recvchars_dma_plan_counterexample :
    inrange rxplan_wrapped_dev.recv ∧
    (rxplan_wrapped_dev.recv.head + 1) % rxplan_wrapped_dev.recv.size
      ≠ rxplan_wrapped_dev.recv.tail ∧
    rxplan_wrapped_dev.recv.tail ≤ rxplan_wrapped_dev.recv.head ∧
    0 < rxplan_wrapped_dev.recv.tail ∧
    (uart_recvchars_dma cfg_watermark rxplan_wrapped_dev).rxflow = [(4, true)] ∧
    (uart_recvchars_dma cfg_watermark rxplan_wrapped_dev).dmarx = rxplan_wrapped_dev.dmarx ∧
    (uart_recvchars_dma cfg_watermark rxplan_wrapped_dev).ndmareceive = 0 ∧
    ¬ ((uart_recvchars_dma cfg_watermark rxplan_wrapped_dev).dmarx.buffer = some 6 ∧
       (uart_recvchars_dma cfg_watermark rxplan_wrapped_dev).dmarx.length = 2 ∧
       (uart_recvchars_dma cfg_watermark rxplan_wrapped_dev).dmarx.nlength = 1) := by
  decide

/-- C9, amended.  RX segment planning boundary arithmetic.  On every non-full
RX buffer with `0 <= head, tail < size`, when RX flow control is not configured
or its policy does not report engaged, `uart_recvchars_dma` hands one plan to
`uart_dmareceive`: if `tail <= head` and `tail > 0`, segment 1 is `[head, size)`
and segment 2 is `[0, tail - 1)`; if `tail == 0`, segment 1 is
`[head, size - 1)` and segment 2 has length 0; if `tail > head`, segment 1 is
`[head, tail - 1)` and segment 2 is absent. -/
theorem uart_recvchars_dma_plan (cfg : Config) (dev : uart_dev_s)
    (hrange : inrange dev.recv)
    (hnotfull : (dev.recv.head + 1) % dev.recv.size ≠ dev.recv.tail)
    (hflow : cfg.CONFIG_SERIAL_IFLOWCONTROL = false ∨
      (dorxflowcontrol_configured cfg dev false).1 = false) :
    (dev.recv.tail ≤ dev.recv.head → 0 < dev.recv.tail →
      (uart_recvchars_dma cfg dev).dmarx.buffer = some dev.recv.head ∧
      (uart_recvchars_dma cfg dev).dmarx.length = ((dev.recv.size - dev.recv.head : Nat) : Int) ∧
      (uart_recvchars_dma cfg dev).dmarx.nbuffer = some 0 ∧
      (uart_recvchars_dma cfg dev).dmarx.nlength = ((dev.recv.tail - 1 : Nat) : Int)) ∧
    (dev.recv.tail = 0 →
      (uart_recvchars_dma cfg dev).dmarx.buffer = some dev.recv.head ∧
      (uart_recvchars_dma cfg dev).dmarx.length
        = ((dev.recv.size - 1 - dev.recv.head : Nat) : Int) ∧
      (uart_recvchars_dma cfg dev).dmarx.nlength = 0) ∧
    (dev.recv.tail > dev.recv.head →
      (uart_recvchars_dma cfg dev).dmarx.buffer = some dev.recv.head ∧
      (uart_recvchars_dma cfg dev).dmarx.length
        = ((dev.recv.tail - 1 - dev.recv.head : Nat) : Int) ∧
      (uart_recvchars_dma cfg dev).dmarx.nbuffer = none ∧
      (uart_recvchars_dma cfg dev).dmarx.nlength = 0) ∧
    (uart_recvchars_dma cfg dev).ndmareceive = dev.ndmareceive + 1 :=
  uart_recvchars_dma_spec cfg dev hrange hnotfull
    (hflow.elim (fun h => by rw [dorxflowcontrol_configured_off cfg h]) id)

/-- C9 amended, the scenario of the specification without flow control:
`size = 8`, `head = 6`, `tail = 2` plans segment 1 at index 6 with length 2 and
segment 2 at index 0 with length 1. -/
theorem uart_recvchars_dma_plan_witness :
    (uart_recvchars_dma cfg_noflow rxplan_wrapped_dev).dmarx.buffer = some 6 ∧
    (uart_recvchars_dma cfg_noflow rxplan_wrapped_dev).dmarx.length = 2 ∧
    (uart_recvchars_dma cfg_noflow rxplan_wrapped_dev).dmarx.nbuffer = some 0 ∧
    (uart_recvchars_dma cfg_noflow rxplan_wrapped_dev).dmarx.nlength = 1 :=
  (uart_recvchars_dma_plan cfg_noflow rxplan_wrapped_dev (by decide) (by decide)
    (Or.inl rfl)).1 (by decide) (by decide)

/-- C10, as stated, fails: on the RX buffer `size = 8`, `head = 2`, `tail = 6`
in a build without flow control, `uart_recvchars_dma` plans segment 1 at index 2
with length `tail - head - 1 = 3`, that is `[2, 5)`, not length 4: cell 5, the
slot before `tail`, stays reserved.  In a build with watermark flow control at
50 percent whose lower half reports flow control engaged, the occupancy 4
reaches the watermark 4 and nothing is planned at all. -/
theorem uart_recvchars_dma_linear_counterexample :
    rxplan_linear_dev.recv.size = 8 ∧ rxplan_linear_dev.recv.head = 2 ∧
    rxplan_linear_dev.recv.tail = 6 ∧
    (uart_recvchars_dma cfg_noflow rxplan_linear_dev).dmarx.buffer = some 2 ∧
    (uart_recvchars_dma cfg_noflow rxplan_linear_dev).dmarx.length = 3 ∧
    (uart_recvchars_dma cfg_noflow rxplan_linear_dev).dmarx.length ≠ 4 ∧
    (uart_recvchars_dma cfg_watermark rxplan_linear_dev).rxflow = [(4, true)] ∧
    (uart_recvchars_dma cfg_watermark rxplan_linear_dev).dmarx = rxplan_linear_dev.dmarx ∧
    (uart_recvchars_dma cfg_watermark rxplan_linear_dev).ndmareceive = 0 := by
  decide

/-- C10, amended.  For the RX buffer with `size = 8`, `head = 2`, `tail = 6`
(free region not wrapped), when RX flow control is not configured or its policy
does not report engaged, `uart_recvchars_dma` plans segment 1 starting at index
2 with length 3, that is `[2, 5)`, and no segment 2 (`NULL`, `nlength` 0), and
hands the plan to `uart_dmareceive`. -/
theorem uart_recvchars_dma_linear (cfg : Config) (dev : uart_dev_s)
    (hsize : dev.recv.size = 8) (hhead : dev.recv.head = 2) (htail : dev.recv.tail = 6)
    (hflow : cfg.CONFIG_SERIAL_IFLOWCONTROL = false ∨
      (dorxflowcontrol_configured cfg dev false).1 = false) :
    (uart_recvchars_dma cfg dev).dmarx.buffer = some 2 ∧
    (uart_recvchars_dma cfg dev).dmarx.length = 3 ∧
    (uart_recvchars_dma cfg dev).dmarx.nbuffer = none ∧
    (uart_recvchars_dma cfg dev).dmarx.nlength = 0 ∧
    (uart_recvchars_dma cfg dev).ndmareceive = dev.ndmareceive + 1 := by
  have h := uart_recvchars_dma_spec cfg dev (by rw [inrange, hsize, hhead, htail]; omega)
    (by rw [hsize, hhead, htail]; decide)
    (hflow.elim (fun h => by rw [dorxflowcontrol_configured_off cfg h]) id)
  obtain ⟨h1, h2, h3, h4⟩ := h.2.2.1 (by rw [hhead, htail]; omega)
  rw [hhead, htail] at h2
  rw [hhead] at h1
  exact ⟨h1, h2, h3, h4, h.2.2.2⟩

/-- C10 amended, in a build without flow control. -/
theorem uart_recvchars_dma_linear_witness :
    (uart_recvchars_dma cfg_noflow rxplan_linear_dev).dmarx.buffer = some 2 ∧
    (uart_recvchars_dma cfg_noflow rxplan_linear_dev).dmarx.length = 3 ∧
    (uart_recvchars_dma cfg_noflow rxplan_linear_dev).dmarx.nbuffer = none ∧
    (uart_recvchars_dma cfg_noflow rxplan_linear_dev).dmarx.nlength = 0 ∧
    (uart_recvchars_dma cfg_noflow rxplan_linear_dev).ndmareceive
      = rxplan_linear_dev.ndmareceive + 1 :=
  uart_recvchars_dma_linear cfg_noflow rxplan_linear_dev rfl rfl rfl (Or.inl rfl)

/-- C11, as stated, fails: on the in-range, non-full RX buffer `size = 8`,
`head = 6`, `tail = 2` (free space `8 - 1 - 4 = 3`) in a build with watermark
flow control at 50 percent, `uart_rxflowcontrol` reports flow control engaged
and `uart_recvchars_dma` returns at line 250 without planning: the descriptor
keeps `length + nlength = 0` and `uart_dmareceive` is not called. -/
theorem uart_recvchars_dma_total_counterexample :
    inrange rxplan_wrapped_dev.recv ∧
    (rxplan_wrapped_dev.recv.head + 1) % rxplan_wrapped_dev.recv.size
      ≠ rxplan_wrapped_dev.recv.tail ∧
    (rxplan_wrapped_dev.recv.size : Int) - 1 - occupied_count rxplan_wrapped_dev.recv = 3 ∧
    (uart_recvchars_dma cfg_watermark rxplan_wrapped_dev).dmarx.length
      + (uart_recvchars_dma cfg_watermark rxplan_wrapped_dev).dmarx.nlength = 0 ∧
    planned_slots (uart_recvchars_dma cfg_watermark rxplan_wrapped_dev).dmarx = [] ∧
    (uart_recvchars_dma cfg_watermark rxplan_wrapped_dev).ndmareceive = 0 := by
  decide

/-- C11, amended.  On every RX buffer with `0 <= head, tail < size` that is not
full, when RX flow control is not configured or its policy does not report
engaged, the total planned by `uart_recvchars_dma`, `length + nlength`, equals
the free space `size - 1 - ((head - tail) mod size)`, and the cells the plan
addresses are exactly the cells of the array that are neither in the occupied
region `[tail, head)` nor the reserved slot before `tail`, each once. -/
theorem uart_recvchars_dma_total (cfg : Config) (dev : uart_dev_s)
    (hrange : inrange dev.recv)
    (hnotfull : (dev.recv.head + 1) % dev.recv.size ≠ dev.recv.tail)
    (hflow : cfg.CONFIG_SERIAL_IFLOWCONTROL = false ∨
      (dorxflowcontrol_configured cfg dev false).1 = false) :
    (uart_recvchars_dma cfg dev).dmarx.length + (uart_recvchars_dma cfg dev).dmarx.nlength
      = (dev.recv.size : Int) - 1 - occupied_count dev.recv ∧
    (planned_slots (uart_recvchars_dma cfg dev).dmarx).length
      = dev.recv.size - 1 - occupied_count dev.recv ∧
    ∀ j, j ∈ planned_slots (uart_recvchars_dma cfg dev).dmarx ↔
      j < dev.recv.size ∧ j ∉ occupied_slots dev.recv ∧ j ≠ reserved_slot dev.recv := by
  obtain ⟨h1, h2, h3⟩ := uart_recvchars_dma_slots cfg dev hrange hnotfull
    (hflow.elim (fun h => by rw [dorxflowcontrol_configured_off cfg h]) id)
  have hlt := occupied_count_lt _ hrange
  unfold free_count at h1 h2
  exact ⟨by rw [h1]; omega, h2, h3⟩

/-- C11 amended, on the wrapped RX planning scenario without flow control:
`size = 8`, `head = 6`, `tail = 2`.  Cells 2..5 are occupied, cell 1 is
reserved, and the plan addresses cells 6, 7, 0: three, the free space. -/
theorem uart_recvchars_dma_total_witness :
    occupied_slots rxplan_wrapped_dev.recv = [2, 3, 4, 5] ∧
    reserved_slot rxplan_wrapped_dev.recv = 1 ∧
    planned_slots (uart_recvchars_dma cfg_noflow rxplan_wrapped_dev).dmarx = [6, 7, 0] ∧
    ((uart_recvchars_dma cfg_noflow rxplan_wrapped_dev).dmarx.length
        + (uart_recvchars_dma cfg_noflow rxplan_wrapped_dev).dmarx.nlength
      = (rxplan_wrapped_dev.recv.size : Int) - 1 - occupied_count rxplan_wrapped_dev.recv ∧
    (planned_slots (uart_recvchars_dma cfg_noflow rxplan_wrapped_dev).dmarx).length
      = rxplan_wrapped_dev.recv.size - 1 - occupied_count rxplan_wrapped_dev.recv ∧
    ∀ j, j ∈ planned_slots (uart_recvchars_dma cfg_noflow rxplan_wrapped_dev).dmarx ↔
      j < rxplan_wrapped_dev.recv.size ∧ j ∉ occupied_slots rxplan_wrapped_dev.recv ∧
        j ≠ reserved_slot rxplan_wrapped_dev.recv) :=
  ⟨by decide, by decide, by decide,
    uart_recvchars_dma_total cfg_noflow rxplan_wrapped_dev (by decide) (by decide)
      (Or.inl rfl)⟩

/-- C12.  On every non-empty TX buffer with `0 <= head, tail < size`, the plan
of `uart_xmitchars_dma` has `length + nlength` equal to the occupied count
`(head - tail) mod size`, and the bytes in the cells of segment 1 followed by
those of segment 2 are exactly the bytes that `uart_xmitchars` passes to
`uart_send`, in the same order, on the same buffer with hardware that is always
ready (any fuel above the occupied count is enough for it to return). -/
theorem dma_plan_matches_drain (dev : uart_dev_s) (fuel : Nat)
    (hrange : inrange dev.xmit) (hne : dev.xmit.head ≠ dev.xmit.tail)
    (hready : ∀ i, dev.ops.txready i = true)
    (hfuel : occupied_count dev.xmit < fuel) :
    (uart_xmitchars_dma dev).dmatx.length + (uart_xmitchars_dma dev).dmatx.nlength
      = (occupied_count dev.xmit : Int) ∧
    ∃ dev1, uart_xmitchars fuel dev = some dev1 ∧
      dev1.sent = dev.sent ++ (planned_slots (uart_xmitchars_dma dev).dmatx).map dev.xmit.buffer
      := by
  obtain ⟨hlen, hslots⟩ := uart_xmitchars_dma_slots dev hrange hne
  refine ⟨hlen, ?_⟩
  obtain ⟨d, hrun, hsent, -⟩ :=
    uart_xmitchars_loop_spec fuel dev 0 (occupied_count dev.xmit) hrange (by norm_num)
      (fun i _ => hready _) (fun h => absurd h (lt_irrefl _)) (by rw [Nat.min_self]; exact hfuel)
  rw [Nat.min_self] at hrun hsent
  refine ⟨_, by rw [uart_xmitchars, hrun], ?_⟩
  rw [hslots, List.map_map]
  split_ifs <;> simpa [uart_datasent, uart_disabletxint] using hsent

/-- C12 on the TX planning scenario (`size = 8`, `tail = 6`, `head = 2`, cell
`i` holding `100 + i`): the plan is 2 + 2 bytes and both the plan and the drain
give 106, 107, 100, 101. -/
theorem dma_plan_matches_drain_witness :
    occupied_count txdrain_dev.xmit = 4 ∧
    (planned_slots (uart_xmitchars_dma txdrain_dev).dmatx).map txdrain_dev.xmit.buffer
      = [106, 107, 100, 101] ∧
    ((uart_xmitchars_dma txdrain_dev).dmatx.length
        + (uart_xmitchars_dma txdrain_dev).dmatx.nlength
      = (occupied_count txdrain_dev.xmit : Int) ∧
    ∃ dev1, uart_xmitchars 5 txdrain_dev = some dev1 ∧
      dev1.sent = txdrain_dev.sent
        ++ (planned_slots (uart_xmitchars_dma txdrain_dev).dmatx).map txdrain_dev.xmit.buffer) :=
  ⟨by decide, by decide,
    dma_plan_matches_drain txdrain_dev 5 (by decide) (by decide) (fun _ => rfl) (by decide)⟩

/-- C13.  When the RX buffer is full (`(head + 1) mod size == tail`, `head`
inside the array), `uart_recvchars_dma` is a no-op with respect to DMA in every
build configuration: it does not call `uart_dmareceive`, and it leaves the
`dmarx` descriptor and the ring buffer (indices and storage) unchanged. -/
theorem uart_recvchars_dma_full_noop (cfg : Config) (dev : uart_dev_s)
    (hhead : dev.recv.head < dev.recv.size)
    (hfull : (dev.recv.head + 1) % dev.recv.size = dev.recv.tail) :
    (uart_recvchars_dma cfg dev).ndmareceive = dev.ndmareceive ∧
    (uart_recvchars_dma cfg dev).dmarx = dev.dmarx ∧
    (uart_recvchars_dma cfg dev).recv = dev.recv := by
  have hf : (next_index dev.recv.head dev.recv.size == dev.recv.tail) = true := by
    rw [next_index_eq_mod hhead, hfull]
    exact beq_self_eq_true _
  have hframe := dorxflowcontrol_configured_frame cfg dev true
  unfold uart_recvchars_dma
  simp only [hf, if_true, ite_self]
  rw [hframe]
  exact ⟨rfl, rfl, rfl⟩

/-- C13 on the full RX buffer of size 4 (head 3, tail 0), in a build with
watermark flow control. -/
theorem uart_recvchars_dma_full_noop_witness :
    (uart_recvchars_dma cfg_watermark overrun_dev).ndmareceive = overrun_dev.ndmareceive ∧
    (uart_recvchars_dma cfg_watermark overrun_dev).dmarx = overrun_dev.dmarx ∧
    (uart_recvchars_dma cfg_watermark overrun_dev).recv = overrun_dev.recv :=
  uart_recvchars_dma_full_noop cfg_watermark overrun_dev (by decide) (by decide)

/-- C14, as stated, fails for a report that overflows `size_t`: with 32-bit
`size_t`, `size = 3`, `tail = 1` and `nbytes = 2^32 - 1`, the sum
`tail + nbytes` wraps to 0, so `uart_xmitchars_done` sets `tail` to 0, while
`(tail + n) mod size` is 1. -/
theorem uart_xmitchars_done_counterexample :
    txdone_wrap_dev.xmit.size = 3 ∧ txdone_wrap_dev.xmit.tail = 1 ∧
    txdone_wrap_dev.dmatx.nbytes = 2 ^ 32 - 1 ∧
    (uart_xmitchars_done cfg_noflow txdone_wrap_dev).xmit.tail = 0 ∧
    (txdone_wrap_dev.xmit.tail + txdone_wrap_dev.dmatx.nbytes) % txdone_wrap_dev.xmit.size = 1 ∧
    (uart_xmitchars_done cfg_noflow txdone_wrap_dev).xmit.tail
      ≠ (txdone_wrap_dev.xmit.tail + txdone_wrap_dev.dmatx.nbytes)
          % txdone_wrap_dev.xmit.size := by
  decide

/-- C14, amended.  TX completion: for every TX buffer (every `size > 0`
included) and every reported `nbytes = n` for which `tail + n` does not
overflow `size_t`, `uart_xmitchars_done` sets `xmit.tail` to
`(tail + n) mod size`, leaves `xmit.head` and the storage unchanged, clears the
descriptor (`nbytes = 0`, `length = 0`, `nlength = 0`), and calls
`uart_datasent` exactly once if `n > 0` and not at all if `n == 0`. -/
theorem uart_xmitchars_done_advances (cfg : Config) (dev : uart_dev_s)
    (hfit : dev.xmit.tail + dev.dmatx.nbytes < 2 ^ cfg.size_t_bits) :
    (uart_xmitchars_done cfg dev).xmit.tail
      = (dev.xmit.tail + dev.dmatx.nbytes) % dev.xmit.size ∧
    (uart_xmitchars_done cfg dev).xmit.head = dev.xmit.head ∧
    (uart_xmitchars_done cfg dev).xmit.buffer = dev.xmit.buffer ∧
    (uart_xmitchars_done cfg dev).xmit.size = dev.xmit.size ∧
    (uart_xmitchars_done cfg dev).dmatx.nbytes = 0 ∧
    (uart_xmitchars_done cfg dev).dmatx.length = 0 ∧
    (uart_xmitchars_done cfg dev).dmatx.nlength = 0 ∧
    (uart_xmitchars_done cfg dev).ndatasent
      = dev.ndatasent + (if dev.dmatx.nbytes = 0 then 0 else 1) := by
  obtain ⟨h1, h2⟩ := size_t_sum_fits hfit
  rw [uart_xmitchars_done_eq, h1, h2]
  exact ⟨rfl, rfl, rfl, rfl, rfl, rfl, rfl, rfl⟩

/-- C14 amended, on the TX planning scenario: the plan of four bytes completes
in full, `tail` moves from 6 to 2 and the writers are woken once. -/
theorem uart_xmitchars_done_advances_witness :
    (uart_xmitchars_done cfg_noflow (dmatx_report (uart_xmitchars_dma txplan_dev) 4)).xmit.tail
      = 2 ∧
    (uart_xmitchars_done cfg_noflow (dmatx_report (uart_xmitchars_dma txplan_dev) 4)).ndatasent
      = 1 :=
  ⟨(uart_xmitchars_done_advances cfg_noflow (dmatx_report (uart_xmitchars_dma txplan_dev) 4)
      (by decide)).1,
   (uart_xmitchars_done_advances cfg_noflow (dmatx_report (uart_xmitchars_dma txplan_dev) 4)
      (by decide)).2.2.2.2.2.2.2⟩

/-- C15, as stated, fails for a report that overflows `size_t`: with 32-bit
`size_t`, `size = 3`, `head = 1` and `nbytes = 2^32 - 1`, the sum
`head + nbytes` wraps to 0, so `uart_recvchars_done` sets `head` to 0, while
`(head + n) mod size` is 1. -/
theorem uart_recvchars_done_counterexample :
    rxdone_wrap_dev.recv.size = 3 ∧ rxdone_wrap_dev.recv.head = 1 ∧
    rxdone_wrap_dev.dmarx.nbytes = 2 ^ 32 - 1 ∧
    (uart_recvchars_done cfg_noflow rxdone_wrap_dev).recv.head = 0 ∧
    (rxdone_wrap_dev.recv.head + rxdone_wrap_dev.dmarx.nbytes) % rxdone_wrap_dev.recv.size = 1 ∧
    (uart_recvchars_done cfg_noflow rxdone_wrap_dev).recv.head
      ≠ (rxdone_wrap_dev.recv.head + rxdone_wrap_dev.dmarx.nbytes)
          % rxdone_wrap_dev.recv.size := by
  decide

/-- C15, amended.  RX completion: for every RX buffer (every `size > 0`
included) and every reported `nbytes = n` for which `head + n` does not
overflow `size_t`, `uart_recvchars_done` sets `recv.head` to
`(head + n) mod size`, leaves `recv.tail` and the storage unchanged, clears the
descriptor (`nbytes = 0`, `length = 0`, `nlength = 0`), and calls
`uart_datareceived` exactly once if `n > 0` and not at all if `n == 0`. -/
theorem uart_recvchars_done_advances (cfg : Config) (dev : uart_dev_s)
    (hfit : dev.recv.head + dev.dmarx.nbytes < 2 ^ cfg.size_t_bits) :
    (uart_recvchars_done cfg dev).recv.head
      = (dev.recv.head + dev.dmarx.nbytes) % dev.recv.size ∧
    (uart_recvchars_done cfg dev).recv.tail = dev.recv.tail ∧
    (uart_recvchars_done cfg dev).recv.buffer = dev.recv.buffer ∧
    (uart_recvchars_done cfg dev).recv.size = dev.recv.size ∧
    (uart_recvchars_done cfg dev).dmarx.nbytes = 0 ∧
    (uart_recvchars_done cfg dev).dmarx.length = 0 ∧
    (uart_recvchars_done cfg dev).dmarx.nlength = 0 ∧
    (uart_recvchars_done cfg dev).ndatareceived
      = dev.ndatareceived + (if dev.dmarx.nbytes = 0 then 0 else 1) := by
  obtain ⟨h1, h2⟩ := size_t_sum_fits hfit
  rw [uart_recvchars_done_eq, h1, h2]
  exact ⟨rfl, rfl, rfl, rfl, rfl, rfl, rfl, rfl⟩

/-- C15 amended, on the wrapped RX planning scenario without flow control: the
plan of three bytes completes in full, `head` moves from 6 to 1 and the readers
are woken once. -/
theorem uart_recvchars_done_advances_witness :
    (uart_recvchars_done cfg_noflow
      (dmarx_report (uart_recvchars_dma cfg_noflow rxplan_wrapped_dev) 3)).recv.head = 1 ∧
    (uart_recvchars_done cfg_noflow
      (dmarx_report (uart_recvchars_dma cfg_noflow rxplan_wrapped_dev) 3)).ndatareceived = 1 :=
  ⟨(uart_recvchars_done_advances cfg_noflow
      (dmarx_report (uart_recvchars_dma cfg_noflow rxplan_wrapped_dev) 3) (by decide)).1,
   (uart_recvchars_done_advances cfg_noflow
      (dmarx_report (uart_recvchars_dma cfg_noflow rxplan_wrapped_dev) 3)
      (by decide)).2.2.2.2.2.2.2⟩

/-- C16.  Plan-then-complete keeps the ring invariant.  On every RX buffer with
`0 <= head, tail < size` that is not full, if `uart_recvchars_dma` plans
`L = length + nlength` bytes (it hands the plan to `uart_dmareceive`) and
`uart_recvchars_done` then runs with `nbytes = n <= L`, the indices still
satisfy `0 <= head, tail < size` and the occupied count `(head - tail) mod size`
has grown by exactly `n`; so it is at most `size - 1`, and a transfer with
`n > 0` does not leave `head == tail`.  Symmetrically for TX: after
`uart_xmitchars_dma` plans `L` bytes and `uart_xmitchars_done` runs with
`n <= L`, the indices are in range and the occupied count has shrunk by exactly
`n`.  The platform is one whose `size_t` holds the sum of two indices
(`2 * size <= SIZE_MAX + 1`), as it does whenever `size_t` is as wide as the
`int` in which lines 231 and 405 form `head + 1`. -/
theorem plan_then_complete (cfg : Config) (dev : uart_dev_s) (n : Nat) :
    (inrange dev.recv →
      (dev.recv.head + 1) % dev.recv.size ≠ dev.recv.tail →
      (uart_recvchars_dma cfg dev).ndmareceive = dev.ndmareceive + 1 →
      (n : Int) ≤ (uart_recvchars_dma cfg dev).dmarx.length
        + (uart_recvchars_dma cfg dev).dmarx.nlength →
      2 * dev.recv.size ≤ 2 ^ cfg.size_t_bits →
      inrange (uart_recvchars_done cfg (dmarx_report (uart_recvchars_dma cfg dev) n)).recv ∧
      occupied_count (uart_recvchars_done cfg (dmarx_report (uart_recvchars_dma cfg dev) n)).recv
        = occupied_count dev.recv + n ∧
      occupied_count (uart_recvchars_done cfg (dmarx_report (uart_recvchars_dma cfg dev) n)).recv
        ≤ dev.recv.size - 1 ∧
      (0 < n →
        (uart_recvchars_done cfg (dmarx_report (uart_recvchars_dma cfg dev) n)).recv.head
          ≠ (uart_recvchars_done cfg (dmarx_report (uart_recvchars_dma cfg dev) n)).recv.tail)) ∧
    (inrange dev.xmit →
      (uart_xmitchars_dma dev).ndmasend = dev.ndmasend + 1 →
      (n : Int) ≤ (uart_xmitchars_dma dev).dmatx.length + (uart_xmitchars_dma dev).dmatx.nlength →
      2 * dev.xmit.size ≤ 2 ^ cfg.size_t_bits →
      inrange (uart_xmitchars_done cfg (dmatx_report (uart_xmitchars_dma dev) n)).xmit ∧
      occupied_count (uart_xmitchars_done cfg (dmatx_report (uart_xmitchars_dma dev) n)).xmit + n
        = occupied_count dev.xmit) := by
  constructor
  · intro hrange hnotfull hstart hle hplat
    have hflow := uart_recvchars_dma_started cfg dev hrange.1 hnotfull hstart
    obtain ⟨hL, -, -⟩ := uart_recvchars_dma_slots cfg dev hrange hnotfull hflow
    have hn : n ≤ free_count dev.recv := by omega
    have hfit : dev.recv.head + n < 2 ^ cfg.size_t_bits := by
      have := hrange.1
      unfold free_count at hn
      omega
    have hrecv := (uart_recvchars_dma_frame cfg dev).1
    obtain ⟨h1, h2⟩ := size_t_sum_fits hfit
    have hR : (uart_recvchars_done cfg (dmarx_report (uart_recvchars_dma cfg dev) n)).recv
        = { dev.recv with head := (dev.recv.head + n) % dev.recv.size } := by
      rw [uart_recvchars_done_eq]
      simp only [dmarx_report, hrecv, h1, h2]
    rw [hR]
    obtain ⟨hr, hocc⟩ := advance_head_spec dev.recv n hrange hn
    refine ⟨hr, hocc, ?_, ?_⟩
    · rw [hocc]
      have hlt := occupied_count_lt _ hrange
      unfold free_count at hn
      omega
    · intro hpos heq
      have := (occupied_count_zero_iff _ hr).2 heq
      omega
  · intro hrange hstart hle hplat
    have hne : dev.xmit.head ≠ dev.xmit.tail := by
      intro heq
      simp [uart_xmitchars_dma, heq] at hstart
    obtain ⟨hL, -⟩ := uart_xmitchars_dma_slots dev hrange hne
    have hn : n ≤ occupied_count dev.xmit := by omega
    have hfit : dev.xmit.tail + n < 2 ^ cfg.size_t_bits := by
      have := hrange.2
      have := occupied_count_lt _ hrange
      omega
    have hx : (uart_xmitchars_dma dev).xmit = dev.xmit := by
      rw [uart_xmitchars_dma_frame]
    obtain ⟨h1, h2⟩ := size_t_sum_fits hfit
    have hR : (uart_xmitchars_done cfg (dmatx_report (uart_xmitchars_dma dev) n)).xmit
        = { dev.xmit with tail := (dev.xmit.tail + n) % dev.xmit.size } := by
      rw [uart_xmitchars_done_eq]
      simp only [dmatx_report, hx, h1, h2]
    rw [hR]
    exact advance_tail_spec dev.xmit n hrange hn

/-- C16 on the two planning scenarios without flow control: the RX plan of
three bytes completed with two takes the occupied count from 4 to 6, the TX plan
of four bytes completed with three takes it from 4 to 1. -/
theorem plan_then_complete_witness :
    occupied_count rxplan_wrapped_dev.recv = 4 ∧
    occupied_count (uart_recvchars_done cfg_noflow
      (dmarx_report (uart_recvchars_dma cfg_noflow rxplan_wrapped_dev) 2)).recv = 6 ∧
    occupied_count txplan_dev.xmit = 4 ∧
    occupied_count (uart_xmitchars_done cfg_noflow
      (dmatx_report (uart_xmitchars_dma txplan_dev) 3)).xmit = 1 ∧
    inrange (uart_recvchars_done cfg_noflow
      (dmarx_report (uart_recvchars_dma cfg_noflow rxplan_wrapped_dev) 2)).recv ∧
    occupied_count (uart_recvchars_done cfg_noflow
      (dmarx_report (uart_recvchars_dma cfg_noflow rxplan_wrapped_dev) 2)).recv
        = occupied_count rxplan_wrapped_dev.recv + 2 ∧
    inrange (uart_xmitchars_done cfg_noflow
      (dmatx_report (uart_xmitchars_dma txplan_dev) 3)).xmit ∧
    occupied_count (uart_xmitchars_done cfg_noflow
      (dmatx_report (uart_xmitchars_dma txplan_dev) 3)).xmit + 3
        = occupied_count txplan_dev.xmit :=
  ⟨by decide, by decide, by decide, by decide,
    ((plan_then_complete cfg_noflow rxplan_wrapped_dev 2).1 (by decide) (by decide)
      (by decide) (by decide) (by decide)).1,
    ((plan_then_complete cfg_noflow rxplan_wrapped_dev 2).1 (by decide) (by decide)
      (by decide) (by decide) (by decide)).2.1,
    ((plan_then_complete cfg_noflow txplan_dev 3).2 (by decide) (by decide) (by decide)
      (by decide)).1,
    ((plan_then_complete cfg_noflow txplan_dev 3).2 (by decide) (by decide) (by decide)
      (by decide)).2⟩

/-- C17.  `bytes_completed` is consumed exactly once: on every buffer with
`0 <= head, tail < size`, for every reported `n` and in every build
configuration, running `uart_xmitchars_done` (respectively
`uart_recvchars_done`) a second time right after the first, with no new DMA
report in between, returns the device exactly as the first run left it: every
index, the descriptor and the wakeup counts are unchanged. -/
theorem done_twice_is_done_once (cfg : Config) (dev : uart_dev_s) :
    (inrange dev.xmit →
      uart_xmitchars_done cfg (uart_xmitchars_done cfg dev) = uart_xmitchars_done cfg dev) ∧
    (inrange dev.recv →
      uart_recvchars_done cfg (uart_recvchars_done cfg dev) = uart_recvchars_done cfg dev) := by
  constructor
  · intro h
    have hpos : 0 < dev.xmit.size := by have := h.1; omega
    apply uart_xmitchars_done_clear <;> rw [uart_xmitchars_done_eq]
    · exact Nat.mod_lt _ hpos
    · exact lt_of_le_of_lt (Nat.mod_le _ _) (Nat.mod_lt _ (by positivity))
  · intro h
    have hpos : 0 < dev.recv.size := by have := h.1; omega
    apply uart_recvchars_done_clear <;> rw [uart_recvchars_done_eq]
    · exact Nat.mod_lt _ hpos
    · exact lt_of_le_of_lt (Nat.mod_le _ _) (Nat.mod_lt _ (by positivity))

/-- C17 on the two planning scenarios, each completed with a report of two
bytes: the second run adds no wakeup and moves no index. -/
theorem done_twice_is_done_once_witness :
    (uart_xmitchars_done cfg_noflow
        (uart_xmitchars_done cfg_noflow (dmatx_report (uart_xmitchars_dma txplan_dev) 2))
      = uart_xmitchars_done cfg_noflow (dmatx_report (uart_xmitchars_dma txplan_dev) 2)) ∧
    (uart_recvchars_done cfg_noflow
        (uart_recvchars_done cfg_noflow
          (dmarx_report (uart_recvchars_dma cfg_noflow rxplan_wrapped_dev) 2))
      = uart_recvchars_done cfg_noflow
          (dmarx_report (uart_recvchars_dma cfg_noflow rxplan_wrapped_dev) 2)) :=
  ⟨(done_twice_is_done_once cfg_noflow
      (dmatx_report (uart_xmitchars_dma txplan_dev) 2)).1 (by decide),
   (done_twice_is_done_once cfg_noflow
      (dmarx_report (uart_recvchars_dma cfg_noflow rxplan_wrapped_dev) 2)).2 (by decide)⟩

/-- C18, as stated, fails: `uart_xmitchars_done` and `uart_recvchars_done`
contain no assertion.  On the TX planning scenario (`length + nlength = 4`) a
report of 5 bytes moves `tail` from 6 to `(6 + 5) mod 8 = 3`, clears the
descriptor and wakes the writers; on the wrapped RX planning scenario
(`length + nlength = 3`) a report of 4 bytes moves `head` from 6 to
`(6 + 4) mod 8 = 2`, which is `tail`, clears the descriptor and wakes the
readers. -/
theorem done_beyond_plan_counterexample :
    (uart_xmitchars_dma txplan_dev).dmatx.length
      + (uart_xmitchars_dma txplan_dev).dmatx.nlength = 4 ∧
    (dmatx_report (uart_xmitchars_dma txplan_dev) 5).xmit.tail = 6 ∧
    (uart_xmitchars_done cfg_noflow (dmatx_report (uart_xmitchars_dma txplan_dev) 5)).xmit.tail
      = 3 ∧
    (uart_xmitchars_done cfg_noflow (dmatx_report (uart_xmitchars_dma txplan_dev) 5)).ndatasent
      = 1 ∧
    (uart_recvchars_dma cfg_noflow rxplan_wrapped_dev).dmarx.length
      + (uart_recvchars_dma cfg_noflow rxplan_wrapped_dev).dmarx.nlength = 3 ∧
    (dmarx_report (uart_recvchars_dma cfg_noflow rxplan_wrapped_dev) 4).recv.head = 6 ∧
    (uart_recvchars_done cfg_noflow
      (dmarx_report (uart_recvchars_dma cfg_noflow rxplan_wrapped_dev) 4)).recv.head = 2 ∧
    (uart_recvchars_done cfg_noflow
      (dmarx_report (uart_recvchars_dma cfg_noflow rxplan_wrapped_dev) 4)).ndatareceived
      = 1 := by
  decide

/-- C18, amended.  A completion handler asked to advance by more than the space
reserved for the in-flight transfer does not fail: when `uart_xmitchars_done`
or `uart_recvchars_done` runs with `nbytes` greater than the planned
`length + nlength` (and `index + nbytes` within `size_t`), it makes no check,
sets the index to `(index + nbytes) mod size`, clears the descriptor and signals
the wakeup, as for any other non-zero `nbytes`. -/
theorem done_beyond_plan (cfg : Config) (dev : uart_dev_s) :
    (dev.dmatx.length + dev.dmatx.nlength < (dev.dmatx.nbytes : Int) →
      0 ≤ dev.dmatx.length + dev.dmatx.nlength →
      dev.xmit.tail + dev.dmatx.nbytes < 2 ^ cfg.size_t_bits →
      (uart_xmitchars_done cfg dev).xmit.tail
        = (dev.xmit.tail + dev.dmatx.nbytes) % dev.xmit.size ∧
      (uart_xmitchars_done cfg dev).dmatx.nbytes = 0 ∧
      (uart_xmitchars_done cfg dev).dmatx.length = 0 ∧
      (uart_xmitchars_done cfg dev).dmatx.nlength = 0 ∧
      (uart_xmitchars_done cfg dev).ndatasent = dev.ndatasent + 1) ∧
    (dev.dmarx.length + dev.dmarx.nlength < (dev.dmarx.nbytes : Int) →
      0 ≤ dev.dmarx.length + dev.dmarx.nlength →
      dev.recv.head + dev.dmarx.nbytes < 2 ^ cfg.size_t_bits →
      (uart_recvchars_done cfg dev).recv.head
        = (dev.recv.head + dev.dmarx.nbytes) % dev.recv.size ∧
      (uart_recvchars_done cfg dev).dmarx.nbytes = 0 ∧
      (uart_recvchars_done cfg dev).dmarx.length = 0 ∧
      (uart_recvchars_done cfg dev).dmarx.nlength = 0 ∧
      (uart_recvchars_done cfg dev).ndatareceived = dev.ndatareceived + 1) := by
  constructor
  · intro hgt hpos hfit
    obtain ⟨h1, h2⟩ := size_t_sum_fits hfit
    have hn : dev.dmatx.nbytes ≠ 0 := by omega
    rw [uart_xmitchars_done_eq, h1, h2]
    exact ⟨rfl, rfl, rfl, rfl, by simp [hn]⟩
  · intro hgt hpos hfit
    obtain ⟨h1, h2⟩ := size_t_sum_fits hfit
    have hn : dev.dmarx.nbytes ≠ 0 := by omega
    rw [uart_recvchars_done_eq, h1, h2]
    exact ⟨rfl, rfl, rfl, rfl, by simp [hn]⟩

/-- C18 amended, on the TX planning scenario with a report of 5 bytes against
a plan of 4. -/
theorem done_beyond_plan_witness :
    (uart_xmitchars_done cfg_noflow (dmatx_report (uart_xmitchars_dma txplan_dev) 5)).xmit.tail
      = ((dmatx_report (uart_xmitchars_dma txplan_dev) 5).xmit.tail
          + (dmatx_report (uart_xmitchars_dma txplan_dev) 5).dmatx.nbytes)
        % (dmatx_report (uart_xmitchars_dma txplan_dev) 5).xmit.size ∧
    (uart_xmitchars_done cfg_noflow
      (dmatx_report (uart_xmitchars_dma txplan_dev) 5)).dmatx.nbytes = 0 ∧
    (uart_xmitchars_done cfg_noflow
      (dmatx_report (uart_xmitchars_dma txplan_dev) 5)).dmatx.length = 0 ∧
    (uart_xmitchars_done cfg_noflow
      (dmatx_report (uart_xmitchars_dma txplan_dev) 5)).dmatx.nlength = 0 ∧
    (uart_xmitchars_done cfg_noflow (dmatx_report (uart_xmitchars_dma txplan_dev) 5)).ndatasent
      = (dmatx_report (uart_xmitchars_dma txplan_dev) 5).ndatasent + 1 :=
  (done_beyond_plan cfg_noflow (dmatx_report (uart_xmitchars_dma txplan_dev) 5)).1
    (by decide) (by decide) (by decide)

/-- C19.  On every TX buffer with `0 <= head, tail < size` and against every
hardware behaviour, `uart_xmitchars` returns (any fuel above the occupied count
is enough) and has called `uart_disabletxint` exactly once if the buffer is
empty (`head == tail`) after the send loop and not at all if bytes remain.  On
a buffer that is already empty at entry it sends nothing, disables the TX
interrupt and signals no wakeup. -/
theorem uart_xmitchars_disables_when_empty (dev : uart_dev_s) (fuel : Nat)
    (hrange : inrange dev.xmit) (hfuel : occupied_count dev.xmit < fuel) :
    ∃ dev1, uart_xmitchars fuel dev = some dev1 ∧
      (dev1.xmit.head = dev1.xmit.tail → dev1.ndisabletxint = dev.ndisabletxint + 1) ∧
      (dev1.xmit.head ≠ dev1.xmit.tail → dev1.ndisabletxint = dev.ndisabletxint) ∧
      (dev.xmit.head = dev.xmit.tail →
        dev1.sent = dev.sent ∧ dev1.ndisabletxint = dev.ndisabletxint + 1 ∧
        dev1.ndatasent = dev.ndatasent) := by
  obtain ⟨k, dev1, hk, hrun, hsent, htail, hhead, -, hsize, hdis, hds⟩ :=
    uart_xmitchars_any dev fuel hrange hfuel
  refine ⟨dev1, hrun, ?_, ?_, ?_⟩
  · intro he
    rw [hdis, if_pos he]
  · intro hne
    rw [hdis, if_neg hne, Nat.add_zero]
  · intro he
    have h0 : occupied_count dev.xmit = 0 := (occupied_count_zero_iff _ hrange).2 he
    have hk0 : k = 0 := by omega
    subst hk0
    have he1 : dev1.xmit.head = dev1.xmit.tail := by
      rw [hhead, htail, Nat.add_zero, Nat.mod_eq_of_lt hrange.2, he]
    refine ⟨by simpa using hsent, by rw [hdis, if_pos he1], by simpa using hds⟩

/-- C19, the drain scenario of the specification: `[A, B, C]` against hardware
ready for two sends.  One byte remains, the TX interrupt is not disabled, and
the writers are woken once. -/
theorem uart_xmitchars_disables_when_empty_witness :
    (uart_xmitchars 4 drain_dev).map
        (fun d => (d.sent, d.xmit.head, d.xmit.tail, d.ndisabletxint, d.ndatasent))
      = some ([65, 66], 3, 2, 0, 1) ∧
    ∃ dev1, uart_xmitchars 4 drain_dev = some dev1 ∧
      (dev1.xmit.head = dev1.xmit.tail → dev1.ndisabletxint = drain_dev.ndisabletxint + 1) ∧
      (dev1.xmit.head ≠ dev1.xmit.tail → dev1.ndisabletxint = drain_dev.ndisabletxint) ∧
      (drain_dev.xmit.head = drain_dev.xmit.tail →
        dev1.sent = drain_dev.sent ∧ dev1.ndisabletxint = drain_dev.ndisabletxint + 1 ∧
        dev1.ndatasent = drain_dev.ndatasent) :=
  ⟨by decide, uart_xmitchars_disables_when_empty drain_dev 4 (by decide) (by decide)⟩

/-- C20.  On every TX buffer with `0 <= head, tail < size`, whatever its size
and the number of bytes sent, and against every hardware behaviour,
`uart_xmitchars` returns (any fuel above the occupied count is enough) and has
invoked `uart_datasent` exactly once if at least one byte was handed to
`uart_send` during the call, and not at all if none was.  The buffer size is
one the `uint16_t` counter of line 344 can count (`size <= 2^16`), as it is
with an index type no wider than that counter. -/
theorem uart_xmitchars_wakeup (dev : uart_dev_s) (fuel : Nat)
    (hrange : inrange dev.xmit) (hsize : dev.xmit.size ≤ 65536)
    (hfuel : occupied_count dev.xmit < fuel) :
    ∃ dev1, uart_xmitchars fuel dev = some dev1 ∧
      dev.sent.length ≤ dev1.sent.length ∧
      (dev.sent.length < dev1.sent.length → dev1.ndatasent = dev.ndatasent + 1) ∧
      (dev1.sent.length = dev.sent.length → dev1.ndatasent = dev.ndatasent) := by
  obtain ⟨k, dev1, hk, hrun, hsent, -, -, -, -, -, hds⟩ :=
    uart_xmitchars_any dev fuel hrange hfuel
  have hlt := occupied_count_lt _ hrange
  have hmod : k % 65536 = k := Nat.mod_eq_of_lt (by omega)
  have hlen : dev1.sent.length = dev.sent.length + k := by
    rw [hsent, List.length_append, List.length_map, List.length_range]
  rw [hmod] at hds
  refine ⟨dev1, hrun, by omega, ?_, ?_⟩
  · intro h
    have hk0 : k ≠ 0 := by omega
    rw [hds, if_neg hk0]
  · intro h
    have hk0 : k = 0 := by omega
    rw [hds, if_pos hk0, Nat.add_zero]

/-- C20 on the drain scenario of the specification: two bytes sent, one
wakeup. -/
theorem uart_xmitchars_wakeup_witness :
    (uart_xmitchars 4 drain_dev).map (fun d => (d.sent.length, d.ndatasent)) = some (2, 1) ∧
    ∃ dev1, uart_xmitchars 4 drain_dev = some dev1 ∧
      drain_dev.sent.length ≤ dev1.sent.length ∧
      (drain_dev.sent.length < dev1.sent.length →
        dev1.ndatasent = drain_dev.ndatasent + 1) ∧
      (dev1.sent.length = drain_dev.sent.length → dev1.ndatasent = drain_dev.ndatasent) :=
  ⟨by decide, uart_xmitchars_wakeup drain_dev 4 (by decide) (by decide) (by decide)⟩

/-- C21.  On every RX buffer with `0 <= head, tail < size`, whatever its size,
in every build configuration and against every hardware behaviour: when
`uart_recvchars` returns it has stored some number `m` of bytes (the first `m`
read, `m` no greater than the free count) and has invoked `uart_datareceived`
exactly once if `m >= 1` and not at all if `m = 0`; bytes read but discarded do
not count.  It returns as soon as the hardware reports no more data.  The
buffer size is one the `uint16_t` counter of line 406 can count
(`size <= 2^16`), as it is with an index type no wider than that counter. -/
theorem uart_recvchars_wakeup (cfg : Config) (dev : uart_dev_s) (fuel : Nat)
    (hrange : inrange dev.recv) (hsize : dev.recv.size ≤ 65536) :
    (∀ dev1, uart_recvchars cfg fuel dev = some dev1 →
      ∃ m, m ≤ free_count dev.recv ∧
        dev1.recv = (source_bytes dev.ops dev.nreceive m).foldl push_one dev.recv ∧
        occupied_count dev1.recv = occupied_count dev.recv + m ∧
        dev.nreceive + m ≤ dev1.nreceive ∧
        dev1.ndatareceived = dev.ndatareceived + (if m = 0 then 0 else 1)) ∧
    (∀ k, dev.ops.rxavailable (dev.nrxavailable + k) = false → k < fuel →
      (uart_recvchars cfg fuel dev).isSome = true) := by
  constructor
  · intro dev1 h
    obtain ⟨r, hr, hrecv1, -, -, hnrec, hndr1⟩ := uart_recvchars_result cfg fuel dev dev1 h
    obtain ⟨m, hm, hread, hrecv, hcnt⟩ := uart_recvchars_loop_any cfg fuel dev 0 r hrange
      (by norm_num) hr
    obtain ⟨-, -, -, -, -, -, -, -, -, -, hndr, -⟩ :=
      uart_recvchars_loop_frame cfg fuel dev _ 0 r hr
    have hlt := occupied_count_lt _ hrange
    have hm1 : m < 65536 := by unfold free_count at hm; omega
    have hcnt1 : r.2 = m := by rw [hcnt, Nat.zero_add, Nat.mod_eq_of_lt hm1]
    have hocc := (foldl_push_one_count (source_bytes dev.ops dev.nreceive m) dev.recv hrange
      (by rw [source_bytes_length]; exact hm)).2
    rw [source_bytes_length] at hocc
    refine ⟨m, hm, by rw [hrecv1, hrecv], by rw [hrecv1, hrecv]; exact hocc,
      by rw [hnrec]; exact hread, ?_⟩
    rw [hndr1, hndr, hcnt1]
  · intro k hend hfuel
    obtain ⟨r, hr⟩ := uart_recvchars_loop_returns cfg fuel dev
      (next_index dev.recv.head dev.recv.size) 0 k hend hfuel
    rw [uart_recvchars, hr]
    rfl

/-- C21 on a source of three characters and a buffer of size 4 with two free
slots: two bytes stored, one dropped, one wakeup. -/
theorem uart_recvchars_wakeup_witness :
    (uart_recvchars cfg_noflow 4 fill_dev).map
      (fun d => (d.recv.head, d.nreceive, d.ndatareceived)) = some (1, 3, 1) ∧
    (∃ dev1, uart_recvchars cfg_noflow 4 fill_dev = some dev1 ∧
      ∃ m, m ≤ free_count fill_dev.recv ∧
        dev1.recv
          = (source_bytes fill_dev.ops fill_dev.nreceive m).foldl push_one fill_dev.recv ∧
        occupied_count dev1.recv = occupied_count fill_dev.recv + m ∧
        fill_dev.nreceive + m ≤ dev1.nreceive ∧
        dev1.ndatareceived = fill_dev.ndatareceived + (if m = 0 then 0 else 1)) ∧
    (uart_recvchars cfg_noflow 4 fill_dev).isSome = true :=
  ⟨by decide,
   ⟨(uart_recvchars cfg_noflow 4 fill_dev).get (by decide), (Option.some_get _).symm,
    (uart_recvchars_wakeup cfg_noflow fill_dev 4 (by decide) (by decide)).1 _
      (Option.some_get _).symm⟩,
   (uart_recvchars_wakeup cfg_noflow fill_dev 4 (by decide) (by decide)).2 3 (by decide)
     (by decide)⟩

/-- C22.  Watermark policy.  On every RX buffer with `0 <= head, tail < size`
(whose size an `unsigned int` can hold) and for every threshold, one evaluation
of the watermark variant of `uart_dorxflowcontrol` calls `uart_rxflowcontrol`
exactly once, with arguments `(buffered, true)` where
`buffered = (head - tail) mod size`, if `buffered >= threshold`, and returns
what that call returned; otherwise it makes no call, changes nothing and
returns false. -/
theorem watermark_policy (cfg : Config) (dev : uart_dev_s) (watermark : Nat)
    (hrange : inrange dev.recv) (htype : dev.recv.size ≤ 2 ^ cfg.uint_bits) :
    (watermark ≤ occupied_count dev.recv →
      (uart_dorxflowcontrol_watermarks cfg dev watermark).2.rxflow
        = dev.rxflow ++ [(occupied_count dev.recv, true)] ∧
      (uart_dorxflowcontrol_watermarks cfg dev watermark).1
        = dev.ops.rxflowcontrol dev.rxflow.length (occupied_count dev.recv) true) ∧
    (occupied_count dev.recv < watermark →
      uart_dorxflowcontrol_watermarks cfg dev watermark = (false, dev)) := by
  rw [uart_dorxflowcontrol_watermarks_eq, rx_nbuffered_eq cfg _ hrange htype]
  constructor
  · intro h
    rw [if_pos h]
    exact ⟨rfl, rfl⟩
  · intro h
    rw [if_neg (by omega)]

/-- C22, the scenario of the specification: capacity 10, threshold 5.  At
occupancy 5 there is one call, `(5, true)`; at occupancy 4 there is none. -/
theorem watermark_policy_witness :
    occupied_count watermark_at5_dev.recv = 5 ∧
    (uart_dorxflowcontrol_watermarks cfg_watermark watermark_at5_dev 5).2.rxflow
      = watermark_at5_dev.rxflow ++ [(occupied_count watermark_at5_dev.recv, true)] ∧
    (uart_dorxflowcontrol_watermarks cfg_watermark watermark_at5_dev 5).2.rxflow = [(5, true)] ∧
    occupied_count watermark_at4_dev.recv = 4 ∧
    uart_dorxflowcontrol_watermarks cfg_watermark watermark_at4_dev 5
      = (false, watermark_at4_dev) ∧
    (uart_dorxflowcontrol_watermarks cfg_watermark watermark_at4_dev 5).2.rxflow = [] :=
  ⟨by decide,
   ((watermark_policy cfg_watermark watermark_at5_dev 5 (by decide) (by decide)).1
      (by decide)).1,
   by decide, by decide,
   (watermark_policy cfg_watermark watermark_at4_dev 5 (by decide) (by decide)).2 (by decide),
   by decide⟩

/-- C23, as stated, fails: lines 243 and 417 divide in integers, which rounds
down.  At 50 percent of a capacity of 9 the threshold passed to the policy is
`450 / 100 = 4`, where `ceil(4.5)` is 5. -/
theorem watermark_level_counterexample :
    cfg_watermark.CONFIG_SERIAL_IFLOWCONTROL_UPPER_WATERMARK = 50 ∧
    (empty_buffer 9 0).size = 9 ∧
    watermark_level cfg_watermark (empty_buffer 9 0) = 4 ∧
    threshold_ceil 50 9 = 5 ∧
    watermark_level cfg_watermark (empty_buffer 9 0)
      ≠ threshold_ceil cfg_watermark.CONFIG_SERIAL_IFLOWCONTROL_UPPER_WATERMARK
          (empty_buffer 9 0).size := by
  decide

/-- C23, amended.  For every watermark percentage `p` and every capacity `size`
(with `p * size / 100` within `unsigned int`), the threshold that
`uart_recvchars` and `uart_recvchars_dma` precompute and pass to the watermark
policy equals `floor(p * size / 100)`; it never exceeds `ceil(p * size / 100)`
and equals it exactly when 100 divides `p * size`. -/
theorem watermark_level_floor (cfg : Config) (rxbuf : uart_buffer_s)
    (hfit : cfg.CONFIG_SERIAL_IFLOWCONTROL_UPPER_WATERMARK * rxbuf.size / 100
      < 2 ^ cfg.uint_bits) :
    watermark_level cfg rxbuf
      = cfg.CONFIG_SERIAL_IFLOWCONTROL_UPPER_WATERMARK * rxbuf.size / 100 ∧
    watermark_level cfg rxbuf
      ≤ threshold_ceil cfg.CONFIG_SERIAL_IFLOWCONTROL_UPPER_WATERMARK rxbuf.size ∧
    (watermark_level cfg rxbuf
        = threshold_ceil cfg.CONFIG_SERIAL_IFLOWCONTROL_UPPER_WATERMARK rxbuf.size ↔
      cfg.CONFIG_SERIAL_IFLOWCONTROL_UPPER_WATERMARK * rxbuf.size % 100 = 0) ∧
    (cfg.CONFIG_SERIAL_IFLOWCONTROL = true →
      cfg.CONFIG_SERIAL_IFLOWCONTROL_WATERMARKS = true →
      ∀ (dev : uart_dev_s) (full : Bool), dev.recv = rxbuf →
        dorxflowcontrol_configured cfg dev full
          = uart_dorxflowcontrol_watermarks cfg dev
              (cfg.CONFIG_SERIAL_IFLOWCONTROL_UPPER_WATERMARK * rxbuf.size / 100)) := by
  have hw : watermark_level cfg rxbuf
      = cfg.CONFIG_SERIAL_IFLOWCONTROL_UPPER_WATERMARK * rxbuf.size / 100 := by
    unfold watermark_level
    rw [show (((cfg.CONFIG_SERIAL_IFLOWCONTROL_UPPER_WATERMARK * rxbuf.size : Nat) : Int) / 100)
      = ((cfg.CONFIG_SERIAL_IFLOWCONTROL_UPPER_WATERMARK * rxbuf.size / 100 : Nat) : Int)
      by norm_cast]
    exact to_unsigned_of_lt _ _ hfit
  refine ⟨hw, ?_, ?_, ?_⟩
  · rw [hw]; unfold threshold_ceil; omega
  · rw [hw]; unfold threshold_ceil; omega
  · intro h1 h2 dev full hdev
    rw [← hw, ← hdev]
    simp [dorxflowcontrol_configured, h1, h2]

/-- C23 amended, at 50 percent of a capacity of 10: the threshold is 5, and
here floor and ceiling agree. -/
theorem watermark_level_floor_witness :
    watermark_level cfg_watermark watermark_at5_dev.recv = 50 * 10 / 100 ∧
    watermark_level cfg_watermark watermark_at5_dev.recv = 5 ∧
    threshold_ceil 50 10 = 5 ∧
    dorxflowcontrol_configured cfg_watermark watermark_at5_dev false
      = uart_dorxflowcontrol_watermarks cfg_watermark watermark_at5_dev (50 * 10 / 100) :=
  ⟨(watermark_level_floor cfg_watermark watermark_at5_dev.recv (by decide)).1, by decide,
   by decide,
   (watermark_level_floor cfg_watermark watermark_at5_dev.recv (by decide)).2.2.2 rfl rfl
     watermark_at5_dev false rfl⟩

/-- C24.  Full-detection policy.  One evaluation of the variant of
`uart_dorxflowcontrol` without watermarks calls `uart_rxflowcontrol` exactly
once, with arguments `(rxbuf->size, true)`, when it is told the buffer is full,
and returns what that call returned; when the buffer is not full it makes no
call, changes nothing and returns false.  In a build with flow control and
without watermarks this is the function the callers run, on the full test of
the buffer. -/
theorem full_detection_policy (cfg : Config) (dev : uart_dev_s) :
    ((uart_dorxflowcontrol_full dev true).2.rxflow = dev.rxflow ++ [(dev.recv.size, true)] ∧
      (uart_dorxflowcontrol_full dev true).1
        = dev.ops.rxflowcontrol dev.rxflow.length dev.recv.size true) ∧
    uart_dorxflowcontrol_full dev false = (false, dev) ∧
    (cfg.CONFIG_SERIAL_IFLOWCONTROL = true →
      cfg.CONFIG_SERIAL_IFLOWCONTROL_WATERMARKS = false →
      dorxflowcontrol_configured cfg dev (is_full dev.recv)
        = uart_dorxflowcontrol_full dev (is_full dev.recv)) := by
  refine ⟨⟨?_, ?_⟩, rfl, ?_⟩
  · simp [uart_dorxflowcontrol_full, uart_rxflowcontrol]
    split_ifs <;> rfl
  · simp only [uart_dorxflowcontrol_full, uart_rxflowcontrol, if_true]
    cases dev.ops.rxflowcontrol dev.rxflow.length dev.recv.size true <;> rfl
  · intro h1 h2
    simp [dorxflowcontrol_configured, h1, h2]

/-- C24 on the full RX buffer of size 4 in a build with full-detection flow
control: one request, `(4, true)`. -/
theorem full_detection_policy_witness :
    is_full overrun_dev.recv = true ∧
    (dorxflowcontrol_configured cfg_fulldetect overrun_dev (is_full overrun_dev.recv)).2.rxflow
      = [(4, true)] ∧
    dorxflowcontrol_configured cfg_fulldetect overrun_dev (is_full overrun_dev.recv)
      = uart_dorxflowcontrol_full overrun_dev (is_full overrun_dev.recv) :=
  ⟨by decide, by decide,
   (full_detection_policy cfg_fulldetect overrun_dev).2.2 rfl rfl⟩

/-- C25, as stated, fails: line 426 computes `is_full` inside the loop, once
per pass.  In a build with full-detection flow control, an RX buffer of size 4
with one free slot is not full at entry; against a source of two characters the
first pass stores one, the second pass finds the buffer full, and
`uart_recvchars` makes the request `(4, true)` during that call. -/
theorem uart_recvchars_full_per_pass_counterexample :
    cfg_fulldetect.CONFIG_SERIAL_IFLOWCONTROL = true ∧
    cfg_fulldetect.CONFIG_SERIAL_IFLOWCONTROL_WATERMARKS = false ∧
    is_full fulldetect_dev.recv = false ∧
    fulldetect_dev.rxflow = [] ∧
    (uart_recvchars cfg_fulldetect 3 fulldetect_dev).map (fun d => d.rxflow)
      = some [(4, true)] := by
  decide

/-- C25, amended.  Under the full-detection strategy, `uart_recvchars` evaluates
the buffer-full condition in every pass of its loop: after any number `j` of
complete passes, the value handed to the policy in the next pass is the
fullness of the buffer as those `j` passes left it, and that pass requests
`(size, true)` exactly if the buffer is full then. -/
theorem uart_recvchars_full_per_pass (cfg : Config) (dev : uart_dev_s) (j nbytes : Nat)
    (s : uart_dev_s × Nat × Nat)
    (hflow : cfg.CONFIG_SERIAL_IFLOWCONTROL = true)
    (hwater : cfg.CONFIG_SERIAL_IFLOWCONTROL_WATERMARKS = false)
    (hp : recv_passes cfg j dev (next_index dev.recv.head dev.recv.size) nbytes = some s) :
    (s.2.1 == s.1.recv.tail) = is_full s.1.recv ∧
    (uart_recvchars_pass cfg (uart_rxavailable s.1).2 s.2.1 s.2.2).2.1.rxflow
      = (if is_full s.1.recv then s.1.rxflow ++ [(s.1.recv.size, true)] else s.1.rxflow) ∧
    ∀ fuel, uart_recvchars_loop cfg (fuel + j) dev
        (next_index dev.recv.head dev.recv.size) nbytes
      = uart_recvchars_loop cfg fuel s.1 s.2.1 s.2.2 := by
  obtain ⟨-, -, -, -, -, -, -, -, q9, q10⟩ := recv_passes_spec cfg j dev _ nbytes s hp
  have hnh := q9 rfl
  obtain ⟨-, -, p3, -, -⟩ :=
    uart_recvchars_pass_spec cfg (uart_rxavailable s.1).2 s.2.1 s.2.2 _ rfl
  refine ⟨by rw [hnh]; rfl, ?_, q10⟩
  rw [p3, hnh]
  have hfull : (next_index s.1.recv.head s.1.recv.size == (uart_rxavailable s.1).2.recv.tail)
      = is_full s.1.recv := rfl
  rw [hfull]
  simp only [dorxflowcontrol_configured, hflow, hwater, if_true, Bool.false_eq_true, if_false,
    uart_dorxflowcontrol_full, uart_rxflowcontrol]
  cases is_full s.1.recv
  · rfl
  · simp only [if_true]
    split_ifs <;> rfl

/-- C25 amended, on the buffer of size 4 with one free slot: after one pass the
buffer is full, and the second pass requests `(4, true)`. -/
theorem uart_recvchars_full_per_pass_witness :
    is_full engage_dev.recv = false ∧
    is_full engage_after_one.1.recv = true ∧
    (engage_after_one.2.1 == engage_after_one.1.recv.tail) = is_full engage_after_one.1.recv ∧
    (uart_recvchars_pass cfg_fulldetect (uart_rxavailable engage_after_one.1).2
        engage_after_one.2.1 engage_after_one.2.2).2.1.rxflow
      = (if is_full engage_after_one.1.recv
          then engage_after_one.1.rxflow ++ [(engage_after_one.1.recv.size, true)]
          else engage_after_one.1.rxflow) ∧
    ∀ fuel, uart_recvchars_loop cfg_fulldetect (fuel + 1) engage_dev
        (next_index engage_dev.recv.head engage_dev.recv.size) 0
      = uart_recvchars_loop cfg_fulldetect fuel engage_after_one.1 engage_after_one.2.1
          engage_after_one.2.2 :=
  ⟨by decide, by decide,
   uart_recvchars_full_per_pass cfg_fulldetect engage_dev 1 0 engage_after_one rfl rfl rfl⟩

/-- C26.  In `uart_recvchars`, in every build configuration: if, after `j`
complete passes of the loop, the hardware has data and the flow-control policy
reports engaged, the loop stops in that pass before `uart_receive` is called.
`uart_recvchars` returns; `uart_receive` has been called exactly `j` times, once
in each complete pass, and the RX buffer is as the `j` complete passes left it:
nothing is read or stored in the engaged pass, and what was stored stays. -/
theorem uart_recvchars_stops_when_engaged (cfg : Config) (dev : uart_dev_s) (j fuel : Nat)
    (s : uart_dev_s × Nat × Nat)
    (hp : recv_passes cfg j dev (next_index dev.recv.head dev.recv.size) 0 = some s)
    (havail : (uart_rxavailable s.1).1 = true)
    (hengaged : (dorxflowcontrol_configured cfg (uart_rxavailable s.1).2
      (is_full s.1.recv)).1 = true)
    (hfuel : j < fuel) :
    ∃ dev1, uart_recvchars cfg fuel dev = some dev1 ∧
      dev1.nreceive = dev.nreceive + j ∧
      dev1.nreceive = s.1.nreceive ∧
      dev1.recv = s.1.recv := by
  obtain ⟨-, -, -, -, q5, -, -, -, q9, q10⟩ := recv_passes_spec cfg j dev _ 0 s hp
  have hnh := q9 rfl
  obtain ⟨f, rfl⟩ : ∃ f, fuel = (f + 1) + j := ⟨fuel - j - 1, by omega⟩
  obtain ⟨-, p2, -, pt, -⟩ :=
    uart_recvchars_pass_spec cfg (uart_rxavailable s.1).2 s.2.1 s.2.2 _ rfl
  have hfull : (s.2.1 == (uart_rxavailable s.1).2.recv.tail) = is_full s.1.recv := by
    rw [hnh]; rfl
  rw [hfull, hengaged] at p2
  obtain ⟨e1, e2⟩ := pt p2
  have hloop := q10 (f + 1)
  rw [uart_recvchars_loop_succ, if_pos havail, if_pos p2] at hloop
  have e1x : (uart_recvchars_pass cfg (uart_rxavailable s.1).2 s.2.1 s.2.2).2.1.recv
      = s.1.recv := e1
  have e2x : (uart_recvchars_pass cfg (uart_rxavailable s.1).2 s.2.1 s.2.2).2.1.nreceive
      = s.1.nreceive := e2
  generalize (uart_recvchars_pass cfg (uart_rxavailable s.1).2 s.2.1 s.2.2).2.1 = d
    at hloop e1x e2x
  refine ⟨_, by rw [uart_recvchars, hloop], ?_⟩
  by_cases hz : s.2.2 = 0
  · rw [if_neg (not_not.2 hz)]
    exact ⟨e2x.trans q5, e2x, e1x⟩
  · rw [if_pos hz]
    exact ⟨e2x.trans q5, e2x, e1x⟩

/-- C26 on the buffer of size 4 with one free slot, full-detection flow control
and a lower half that engages: the first pass stores the character 10, the
second finds the buffer full and is told to stop; one character has been read,
and it is in the buffer. -/
theorem uart_recvchars_stops_when_engaged_witness :
    (uart_recvchars cfg_fulldetect 3 engage_dev).map
      (fun d => (d.nreceive, d.recv.head, d.recv.buffer 2, d.rxflow))
      = some (1, 3, 10, [(4, true)]) ∧
    ∃ dev1, uart_recvchars cfg_fulldetect 3 engage_dev = some dev1 ∧
      dev1.nreceive = engage_dev.nreceive + 1 ∧
      dev1.nreceive = engage_after_one.1.nreceive ∧
      dev1.recv = engage_after_one.1.recv :=
  ⟨by decide,
   uart_recvchars_stops_when_engaged cfg_fulldetect engage_dev 1 3 engage_after_one rfl
     (by decide) (by decide) (by decide)⟩

/-- C27.  Every call to `uart_rxflowcontrol` passes `upper = true`: each record
of the calls after one of the operations is the record before it followed by
requests to assert only.  This holds for both variants of
`uart_dorxflowcontrol`, for `uart_recvchars_dma`, for `uart_recvchars` when it
returns and after any number of passes of its loop, complete or ending in
`break`; the other four operations make no call at all. -/
theorem rxflowcontrol_only_asserts (cfg : Config) (dev : uart_dev_s) (watermark : Nat)
    (full : Bool) (fuel : Nat) :
    only_asserts dev.rxflow (uart_dorxflowcontrol_watermarks cfg dev watermark).2.rxflow ∧
    only_asserts dev.rxflow (uart_dorxflowcontrol_full dev full).2.rxflow ∧
    only_asserts dev.rxflow (uart_recvchars_dma cfg dev).rxflow ∧
    (∀ dev1, uart_recvchars cfg fuel dev = some dev1 → only_asserts dev.rxflow dev1.rxflow) ∧
    (∀ j nexthead nbytes s, recv_passes cfg j dev nexthead nbytes = some s →
      only_asserts dev.rxflow s.1.rxflow ∧
      only_asserts dev.rxflow
        (uart_recvchars_pass cfg (uart_rxavailable s.1).2 s.2.1 s.2.2).2.1.rxflow) ∧
    (uart_recvchars_done cfg dev).rxflow = dev.rxflow ∧
    (uart_xmitchars_dma dev).rxflow = dev.rxflow ∧
    (uart_xmitchars_done cfg dev).rxflow = dev.rxflow ∧
    (∀ dev1, uart_xmitchars fuel dev = some dev1 → dev1.rxflow = dev.rxflow) := by
  refine ⟨?_, ?_, uart_recvchars_dma_asserts cfg dev, ?_, ?_, ?_, ?_, ?_, ?_⟩
  · unfold uart_dorxflowcontrol_watermarks uart_rxflowcontrol
    dsimp only
    split_ifs <;> first | exact only_asserts_refl _ | exact ⟨[_], rfl, by simp⟩
  · unfold uart_dorxflowcontrol_full uart_rxflowcontrol
    dsimp only
    split_ifs <;> first | exact only_asserts_refl _ | exact ⟨[_], rfl, by simp⟩
  · intro dev1 h
    obtain ⟨r, hr, -, -, hflow, -⟩ := uart_recvchars_result cfg fuel dev dev1 h
    rw [hflow]
    exact (uart_recvchars_loop_frame cfg fuel dev _ 0 r hr).2.2.2.2.2.2.2.2.2.2.2.2.2
  · intro j nexthead nbytes s h
    obtain ⟨-, -, -, -, -, -, -, q8, -, -⟩ := recv_passes_spec cfg j dev nexthead nbytes s h
    obtain ⟨⟨-, -, -, -, -, -, -, -, -, -, -, -, -, -, p15⟩, -⟩ :=
      uart_recvchars_pass_spec cfg (uart_rxavailable s.1).2 s.2.1 s.2.2 _ rfl
    exact ⟨q8, only_asserts_trans q8 p15⟩
  · rw [uart_recvchars_done_eq]
  · rw [uart_xmitchars_dma_frame]
  · rw [uart_xmitchars_done_eq]
  · intro dev1 h
    obtain ⟨r, hr, -, -, hflow⟩ := uart_xmitchars_result fuel dev dev1 h
    rw [hflow]
    exact (uart_xmitchars_loop_frame fuel dev 0 r hr).2.2.2.2.2.2

/-- C27 on the buffer of size 4 with one free slot under full-detection flow
control, and on the watermark scenario at the threshold: the one request each
makes asserts; the drain scenario makes none. -/
theorem rxflowcontrol_only_asserts_witness :
    (uart_recvchars cfg_fulldetect 3 engage_dev).map (fun d => d.rxflow) = some [(4, true)] ∧
    (uart_recvchars_dma cfg_watermark watermark_at5_dev).rxflow = [(5, true)] ∧
    only_asserts watermark_at5_dev.rxflow
      (uart_recvchars_dma cfg_watermark watermark_at5_dev).rxflow ∧
    (∃ dev1, uart_recvchars cfg_fulldetect 3 engage_dev = some dev1 ∧
      only_asserts engage_dev.rxflow dev1.rxflow) ∧
    only_asserts engage_dev.rxflow engage_after_one.1.rxflow ∧
    (∃ dev1, uart_xmitchars 4 drain_dev = some dev1 ∧ dev1.rxflow = drain_dev.rxflow) :=
  ⟨by decide, by decide,
   (rxflowcontrol_only_asserts cfg_watermark watermark_at5_dev 0 false 0).2.2.1,
   ⟨(uart_recvchars cfg_fulldetect 3 engage_dev).get (by decide), (Option.some_get _).symm,
    (rxflowcontrol_only_asserts cfg_fulldetect engage_dev 0 false 3).2.2.2.1 _
      (Option.some_get _).symm⟩,
   ((rxflowcontrol_only_asserts cfg_fulldetect engage_dev 0 false 3).2.2.2.2.1
      1 (next_index engage_dev.recv.head engage_dev.recv.size) 0 engage_after_one rfl).1,
   ⟨(uart_xmitchars 4 drain_dev).get (by decide), (Option.some_get _).symm,
    (rxflowcontrol_only_asserts cfg_noflow drain_dev 0 false 4).2.2.2.2.2.2.2.2 _
      (Option.some_get _).symm⟩⟩

/-- C28.  Single-owner indices.  For every device state, build configuration
and hardware behaviour: `uart_recvchars` (when it returns, and after any number
of complete passes of its loop), `uart_recvchars_dma` and `uart_recvchars_done`
leave `recv.tail` and the whole TX buffer as they were; `uart_xmitchars` (when
it returns), `uart_xmitchars_dma` and `uart_xmitchars_done` leave `xmit.head`,
the TX storage and the whole RX buffer as they were. -/
theorem single_owner_frame (cfg : Config) (dev : uart_dev_s) (fuel : Nat) :
    (∀ dev1, uart_recvchars cfg fuel dev = some dev1 →
      dev1.recv.tail = dev.recv.tail ∧ dev1.xmit = dev.xmit) ∧
    (∀ j nexthead nbytes s, recv_passes cfg j dev nexthead nbytes = some s →
      s.1.recv.tail = dev.recv.tail ∧ s.1.xmit = dev.xmit) ∧
    ((uart_recvchars_dma cfg dev).recv.tail = dev.recv.tail ∧
      (uart_recvchars_dma cfg dev).xmit = dev.xmit) ∧
    ((uart_recvchars_done cfg dev).recv.tail = dev.recv.tail ∧
      (uart_recvchars_done cfg dev).xmit = dev.xmit) ∧
    (∀ dev1, uart_xmitchars fuel dev = some dev1 →
      dev1.xmit.head = dev.xmit.head ∧ dev1.xmit.buffer = dev.xmit.buffer ∧
      dev1.recv = dev.recv) ∧
    ((uart_xmitchars_dma dev).xmit.head = dev.xmit.head ∧
      (uart_xmitchars_dma dev).xmit.buffer = dev.xmit.buffer ∧
      (uart_xmitchars_dma dev).recv = dev.recv) ∧
    ((uart_xmitchars_done cfg dev).xmit.head = dev.xmit.head ∧
      (uart_xmitchars_done cfg dev).xmit.buffer = dev.xmit.buffer ∧
      (uart_xmitchars_done cfg dev).recv = dev.recv) := by
  refine ⟨?_, ?_, ?_, ?_, ?_, ?_, ?_⟩
  · intro dev1 h
    obtain ⟨r, hr, hrecv, hxmit, -⟩ := uart_recvchars_result cfg fuel dev dev1 h
    obtain ⟨f1, -, f3, -⟩ := uart_recvchars_loop_frame cfg fuel dev _ 0 r hr
    exact ⟨by rw [hrecv, f1], by rw [hxmit, f3]⟩
  · intro j nexthead nbytes s h
    obtain ⟨q1, -, q3, -⟩ := recv_passes_spec cfg j dev nexthead nbytes s h
    exact ⟨q1, q3⟩
  · obtain ⟨h1, h2, -⟩ := uart_recvchars_dma_frame cfg dev
    exact ⟨by rw [h1], h2⟩
  · rw [uart_recvchars_done_eq]
    exact ⟨rfl, rfl⟩
  · intro dev1 h
    obtain ⟨r, hr, hxmit, hrecv, -⟩ := uart_xmitchars_result fuel dev dev1 h
    obtain ⟨f1, f2, -, f4, -⟩ := uart_xmitchars_loop_frame fuel dev 0 r hr
    exact ⟨by rw [hxmit, f1], by rw [hxmit, f2], by rw [hrecv, f4]⟩
  · rw [uart_xmitchars_dma_frame]
    exact ⟨rfl, rfl, rfl⟩
  · rw [uart_xmitchars_done_eq]
    exact ⟨rfl, rfl, rfl⟩

/-- C28 on the receive scenario with two free slots and on the drain scenario:
`uart_recvchars` moves `head` from 3 to 1 and leaves `tail` at 2;
`uart_xmitchars` moves `tail` from 0 to 2 and leaves `head` at 3. -/
theorem single_owner_frame_witness :
    (uart_recvchars cfg_noflow 4 fill_dev).map (fun d => (d.recv.head, d.recv.tail))
      = some (1, 2) ∧
    (uart_xmitchars 4 drain_dev).map (fun d => (d.xmit.head, d.xmit.tail)) = some (3, 2) ∧
    (∃ dev1, uart_recvchars cfg_noflow 4 fill_dev = some dev1 ∧
      dev1.recv.tail = fill_dev.recv.tail ∧ dev1.xmit = fill_dev.xmit) ∧
    (engage_after_one.1.recv.tail = engage_dev.recv.tail ∧
      engage_after_one.1.xmit = engage_dev.xmit) ∧
    (∃ dev1, uart_xmitchars 4 drain_dev = some dev1 ∧
      dev1.xmit.head = drain_dev.xmit.head ∧ dev1.xmit.buffer = drain_dev.xmit.buffer ∧
      dev1.recv = drain_dev.recv) :=
  ⟨by decide, by decide,
   ⟨(uart_recvchars cfg_noflow 4 fill_dev).get (by decide), (Option.some_get _).symm,
    (single_owner_frame cfg_noflow fill_dev 4).1 _ (Option.some_get _).symm⟩,
   (single_owner_frame cfg_fulldetect engage_dev 0).2.1
      1 (next_index engage_dev.recv.head engage_dev.recv.size) 0 engage_after_one rfl,
   ⟨(uart_xmitchars 4 drain_dev).get (by decide), (Option.some_get _).symm,
    (single_owner_frame cfg_noflow drain_dev 4).2.2.2.2.1 _ (Option.some_get _).symm⟩⟩

/-- C29.  `uart_recvchars` never overwrites unread data.  In every build
configuration and against every hardware behaviour, on a buffer with
`0 <= head, tail < size`, when `uart_recvchars` returns: every cell of the
region occupied at entry holds the byte it held, and so does the reserved slot
just before `tail`; the cells written are those of the store step run over the
first `m` bytes read, `m` no greater than the free count, and none of them is an
occupied cell or the reserved slot. -/
theorem uart_recvchars_keeps_unread (cfg : Config) (dev dev1 : uart_dev_s) (fuel : Nat)
    (hrange : inrange dev.recv) (hrun : uart_recvchars cfg fuel dev = some dev1) :
    (∀ j ∈ occupied_slots dev.recv, dev1.recv.buffer j = dev.recv.buffer j) ∧
    dev1.recv.buffer (reserved_slot dev.recv) = dev.recv.buffer (reserved_slot dev.recv) ∧
    dev1.recv.tail = dev.recv.tail ∧
    ∃ m, m ≤ free_count dev.recv ∧
      dev1.recv = (source_bytes dev.ops dev.nreceive m).foldl push_one dev.recv ∧
      (∀ j, (∀ i, i < m → j ≠ (dev.recv.head + i) % dev.recv.size) →
        dev1.recv.buffer j = dev.recv.buffer j) ∧
      ∀ i, i < m →
        (dev.recv.head + i) % dev.recv.size ∉ occupied_slots dev.recv ∧
        (dev.recv.head + i) % dev.recv.size ≠ reserved_slot dev.recv := by
  obtain ⟨r, hr, hrecv, -⟩ := uart_recvchars_result cfg fuel dev dev1 hrun
  obtain ⟨m, hm, -, hfold, -⟩ := uart_recvchars_loop_any cfg fuel dev 0 r hrange
    (by norm_num) hr
  have hlt := occupied_count_lt _ hrange
  obtain ⟨-, h2, -, -, h5⟩ := foldl_push_one_spec (source_bytes dev.ops dev.nreceive m)
    dev.recv hrange.1 (by rw [source_bytes_length]; unfold free_count at hm; omega)
  rw [source_bytes_length] at h5
  rw [← hfold, ← hrecv] at h2 h5
  have hcells := fun i (hi : i < m) => stored_cells_free dev.recv hrange m i hm hi
  refine ⟨?_, ?_, h2, m, hm, by rw [hrecv, hfold], h5, hcells⟩
  · intro j hj
    apply h5
    intro i hi heq
    exact (hcells i hi).1 (heq ▸ hj)
  · apply h5
    intro i hi heq
    exact (hcells i hi).2 heq.symm

/-- C29 on the receive scenario with two free slots and three characters to
read: the occupied cell 2 and the reserved cell 1 are untouched, cells 3 and 0
are written. -/
theorem uart_recvchars_keeps_unread_witness :
    occupied_slots fill_dev.recv = [2] ∧ reserved_slot fill_dev.recv = 1 ∧
    (uart_recvchars cfg_noflow 4 fill_dev).map
      (fun d => (d.recv.buffer 2, d.recv.buffer 1, d.recv.buffer 3, d.recv.buffer 0))
      = some (0, 0, 10, 20) ∧
    ∃ dev1, uart_recvchars cfg_noflow 4 fill_dev = some dev1 ∧
      (∀ j ∈ occupied_slots fill_dev.recv, dev1.recv.buffer j = fill_dev.recv.buffer j) ∧
      dev1.recv.buffer (reserved_slot fill_dev.recv)
        = fill_dev.recv.buffer (reserved_slot fill_dev.recv) :=
  ⟨by decide, by decide, by decide,
   (uart_recvchars cfg_noflow 4 fill_dev).get (by decide), (Option.some_get _).symm,
   (uart_recvchars_keeps_unread cfg_noflow fill_dev _ 4 (by decide)
      (Option.some_get _).symm).1,
   (uart_recvchars_keeps_unread cfg_noflow fill_dev _ 4 (by decide)
      (Option.some_get _).symm).2.1⟩

/-- C30.  The occupancy as `uart_dorxflowcontrol` computes it, by branches
(`head - tail` when `head >= tail`, otherwise `size - tail + head`), equals
`(head - tail) mod size` on every buffer with `0 <= head, tail < size` (whose
size an `unsigned int` can hold), and is at most `size - 1`. -/
theorem rx_nbuffered_is_occupied_count (cfg : Config) (b : uart_buffer_s)
    (hrange : inrange b) (htype : b.size ≤ 2 ^ cfg.uint_bits) :
    rx_nbuffered cfg b = occupied_count b ∧ rx_nbuffered cfg b ≤ b.size - 1 ∧
    ∀ (dev : uart_dev_s) (watermark : Nat), dev.recv = b →
      uart_dorxflowcontrol_watermarks cfg dev watermark
        = (if rx_nbuffered cfg b ≥ watermark then
            (dev.ops.rxflowcontrol dev.rxflow.length (rx_nbuffered cfg b) true,
             { dev with rxflow := dev.rxflow ++ [(rx_nbuffered cfg b, true)] })
          else (false, dev)) := by
  have heq := rx_nbuffered_eq cfg b hrange htype
  have hlt := occupied_count_lt b hrange
  refine ⟨heq, by rw [heq]; omega, ?_⟩
  intro dev watermark hdev
  subst hdev
  rw [uart_dorxflowcontrol_watermarks_eq]

/-- C30 on a wrapped buffer of size 8 (head 2, tail 6): both formulas give 4. -/
theorem rx_nbuffered_is_occupied_count_witness :
    rx_nbuffered cfg_watermark txplan_dev.xmit = 4 ∧
    occupied_count txplan_dev.xmit = 4 ∧
    rx_nbuffered cfg_watermark txplan_dev.xmit = occupied_count txplan_dev.xmit ∧
    rx_nbuffered cfg_watermark txplan_dev.xmit ≤ txplan_dev.xmit.size - 1 :=
  ⟨by decide, by decide,
   (rx_nbuffered_is_occupied_count cfg_watermark txplan_dev.xmit (by decide) (by decide)).1,
   (rx_nbuffered_is_occupied_count cfg_watermark txplan_dev.xmit (by decide) (by decide)).2.1⟩

/-- C31.  When `uart_xmitchars_dma` is invoked on an empty TX buffer
(`head == tail`) it is a no-op: the device is returned as it was, so
`uart_dmasend` is not called and the `dmatx` descriptor and the indices of the
ring buffer are unchanged. -/
theorem uart_xmitchars_dma_empty_noop (dev : uart_dev_s)
    (hempty : dev.xmit.head = dev.xmit.tail) :
    uart_xmitchars_dma dev = dev ∧
    (uart_xmitchars_dma dev).ndmasend = dev.ndmasend ∧
    (uart_xmitchars_dma dev).dmatx = dev.dmatx ∧
    (uart_xmitchars_dma dev).xmit.head = dev.xmit.head ∧
    (uart_xmitchars_dma dev).xmit.tail = dev.xmit.tail := by
  have h : uart_xmitchars_dma dev = dev := by
    unfold uart_xmitchars_dma
    rw [if_pos hempty]
  rw [h]
  exact ⟨rfl, rfl, rfl, rfl, rfl⟩

/-- C31 on an empty TX buffer of size 4 with both indices at 2. -/
theorem uart_xmitchars_dma_empty_noop_witness :
    (uart_xmitchars_dma (fresh_dev (empty_buffer 4 2) (empty_buffer 4 0) idle_ops)).ndmasend = 0 ∧
    uart_xmitchars_dma (fresh_dev (empty_buffer 4 2) (empty_buffer 4 0) idle_ops)
      = fresh_dev (empty_buffer 4 2) (empty_buffer 4 0) idle_ops :=
  ⟨by decide,
   (uart_xmitchars_dma_empty_noop (fresh_dev (empty_buffer 4 2) (empty_buffer 4 0) idle_ops)
      rfl).1⟩

/-- C32.  `vnc_colors` returns `-E2BIG` exactly when the update rectangle
contains more than `maxcolors` distinct pixel values (`maxcolors <= 8`, and
`E2BIG` a positive number); otherwise it returns the number of distinct pixel
values in the rectangle, and `colors[0 .. result)` contains each distinct value
exactly once: every value of the rectangle is there, every entry is a value of
the rectangle, and no two entries are equal. -/
theorem vnc_colors_distinct (vc : VncConfig) (fb : Nat → Nat) (rect : fb_area_s)
    (maxcolors : Nat) (colors : Nat → Nat) (_hmax : maxcolors ≤ 8) (hE : 0 < vc.E2BIG) :
    ((vnc_colors vc fb rect maxcolors colors).1 = -(vc.E2BIG : Int) ↔
      maxcolors < (rect_pixels vc fb rect).toFinset.card) ∧
    ((rect_pixels vc fb rect).toFinset.card ≤ maxcolors →
      (vnc_colors vc fb rect maxcolors colors).1
        = ((rect_pixels vc fb rect).toFinset.card : Int) ∧
      (∀ v ∈ rect_pixels vc fb rect, ∃ i, i < (rect_pixels vc fb rect).toFinset.card ∧
        (vnc_colors vc fb rect maxcolors colors).2 i = v) ∧
      (∀ i, i < (rect_pixels vc fb rect).toFinset.card →
        (vnc_colors vc fb rect maxcolors colors).2 i ∈ rect_pixels vc fb rect) ∧
      (∀ i j, i < (rect_pixels vc fb rect).toFinset.card →
        j < (rect_pixels vc fb rect).toFinset.card →
        (vnc_colors vc fb rect maxcolors colors).2 i
          = (vnc_colors vc fb rect maxcolors colors).2 j → i = j)) := by
  obtain ⟨hbig, hok⟩ := vnc_colors_outcome vc fb rect maxcolors colors
  have hfew : (rect_pixels vc fb rect).toFinset.card ≤ maxcolors →
      (vnc_colors vc fb rect maxcolors colors).1
        = ((rect_pixels vc fb rect).toFinset.card : Int) ∧
      (∀ v ∈ rect_pixels vc fb rect, ∃ i, i < (rect_pixels vc fb rect).toFinset.card ∧
        (vnc_colors vc fb rect maxcolors colors).2 i = v) ∧
      (∀ i, i < (rect_pixels vc fb rect).toFinset.card →
        (vnc_colors vc fb rect maxcolors colors).2 i ∈ rect_pixels vc fb rect) ∧
      (∀ i j, i < (rect_pixels vc fb rect).toFinset.card →
        j < (rect_pixels vc fb rect).toFinset.card →
        (vnc_colors vc fb rect maxcolors colors).2 i
          = (vnc_colors vc fb rect maxcolors colors).2 j → i = j) := by
    intro hle
    obtain ⟨st, hrun, hcard, ⟨hinj, hmem⟩, -⟩ := hok hle
    rw [hrun, ← hcard]
    exact ⟨rfl, fun v hv => (hmem v).2 hv, fun i hi => (hmem _).1 ⟨i, hi, rfl⟩, hinj⟩
  refine ⟨⟨fun h => ?_, hbig⟩, hfew⟩
  by_contra hnot
  have h1 := (hfew (by omega)).1
  rw [h1] at h
  omega

/-- C32 on the rectangle with the pixels `5 7 5` and `9 9 9`: three distinct
values; with room for three colours the result is 3 and `colors[0..3)` is
`9, 5, 7`, with room for two the result is `-E2BIG`. -/
theorem vnc_colors_distinct_witness :
    rect_pixels vnc_build vnc_fb vnc_rect = [5, 7, 5, 9, 9, 9] ∧
    (rect_pixels vnc_build vnc_fb vnc_rect).toFinset.card = 3 ∧
    (vnc_colors vnc_build vnc_fb vnc_rect 3 (fun _ => 0)).1 = 3 ∧
    (List.range 3).map (vnc_colors vnc_build vnc_fb vnc_rect 3 (fun _ => 0)).2 = [9, 5, 7] ∧
    (vnc_colors vnc_build vnc_fb vnc_rect 2 (fun _ => 0)).1 = -7 ∧
    ((vnc_colors vnc_build vnc_fb vnc_rect 2 (fun _ => 0)).1 = -(vnc_build.E2BIG : Int) ↔
      2 < (rect_pixels vnc_build vnc_fb vnc_rect).toFinset.card) ∧
    (vnc_colors vnc_build vnc_fb vnc_rect 3 (fun _ => 0)).1
      = ((rect_pixels vnc_build vnc_fb vnc_rect).toFinset.card : Int) :=
  ⟨by decide, by decide, by decide, by decide, by decide,
   (vnc_colors_distinct vnc_build vnc_fb vnc_rect 2 (fun _ => 0) (by decide) (by decide)).1,
   ((vnc_colors_distinct vnc_build vnc_fb vnc_rect 3 (fun _ => 0) (by decide) (by decide)).2
      (by decide)).1⟩

/-- C33.  When `vnc_colors` succeeds, the colours it returns are ordered by
frequency, the most frequent first: for every rectangle with at most
`maxcolors` distinct values (`maxcolors <= 8`) whose number of pixels an
`unsigned int` counter can hold, the number of occurrences in the rectangle of
`colors[i]` is at least that of `colors[i + 1]` for every `i < result - 1`, and
so at least that of every later entry. -/
theorem vnc_colors_most_frequent_first (vc : VncConfig) (fb : Nat → Nat) (rect : fb_area_s)
    (maxcolors : Nat) (colors : Nat → Nat) (_hmax : maxcolors ≤ 8)
    (hfit : rect.h * rect.w < 2 ^ vc.uint_bits)
    (hle : (rect_pixels vc fb rect).toFinset.card ≤ maxcolors) :
    (vnc_colors vc fb rect maxcolors colors).1
      = ((rect_pixels vc fb rect).toFinset.card : Int) ∧
    (∀ i, i + 1 < (rect_pixels vc fb rect).toFinset.card →
      (rect_pixels vc fb rect).count ((vnc_colors vc fb rect maxcolors colors).2 (i + 1))
        ≤ (rect_pixels vc fb rect).count ((vnc_colors vc fb rect maxcolors colors).2 i)) ∧
    (∀ i j, i ≤ j → j < (rect_pixels vc fb rect).toFinset.card →
      (rect_pixels vc fb rect).count ((vnc_colors vc fb rect maxcolors colors).2 j)
        ≤ (rect_pixels vc fb rect).count ((vnc_colors vc fb rect maxcolors colors).2 i)) := by
  obtain ⟨st, hrun, hcard, -, hdesc⟩ := (vnc_colors_outcome vc fb rect maxcolors colors).2 hle
  have hd := hdesc (by rw [rect_pixels_length]; exact hfit)
  rw [hrun, ← hcard]
  exact ⟨rfl, fun i hi => hd i (i + 1) (Nat.le_succ i) hi, hd⟩

/-- C33 on the rectangle with the pixels `5 7 5` and `9 9 9`: the colours come
back as `9, 5, 7`, seen three times, twice and once. -/
theorem vnc_colors_most_frequent_first_witness :
    (List.range 3).map (vnc_colors vnc_build vnc_fb vnc_rect 3 (fun _ => 0)).2 = [9, 5, 7] ∧
    (List.range 3).map (fun i => (rect_pixels vnc_build vnc_fb vnc_rect).count
      ((vnc_colors vnc_build vnc_fb vnc_rect 3 (fun _ => 0)).2 i)) = [3, 2, 1] ∧
    (rect_pixels vnc_build vnc_fb vnc_rect).count
        ((vnc_colors vnc_build vnc_fb vnc_rect 3 (fun _ => 0)).2 (0 + 1))
      ≤ (rect_pixels vnc_build vnc_fb vnc_rect).count
        ((vnc_colors vnc_build vnc_fb vnc_rect 3 (fun _ => 0)).2 0) :=
  ⟨by decide, by decide,
   (vnc_colors_most_frequent_first vnc_build vnc_fb vnc_rect 3 (fun _ => 0) (by decide)
      (by decide) (by decide)).2.1 0 (by decide)⟩

/-- C34 does not hold of the code.  In the 16-bit build, line 179 shifts the
pixel left by 6 where the layout of the comment needs 5: the top green bit
(pixel bit 10) is lost and the top blue bit (pixel bit 4) lands in result bit
10.  The pixel `0x0400` (top green bit only) is converted to 0 where the layout
gives `0x8000`; the pixel `0x0010` (top blue bit only) is converted to `0x0480`
where the layout gives `0x0080`. -/
theorem vnc_convert_rgb32_888_green_shift :
    vnc_convert_rgb32_888 0x0400 = 0 ∧ layout_rgb32_888 0x0400 = 0x8000 ∧
    vnc_convert_rgb32_888 0x0010 = 0x0480 ∧ layout_rgb32_888 0x0010 = 0x0080 ∧
    vnc_convert_rgb32_888 0xffff = 0x00f8fcf8 ∧ layout_rgb32_888 0xffff = 0x00f8fcf8 := by
  decide

/-- C35 does not hold of the code.  In the 32-bit build, line 208 masks the red
field with `0x70` where the layout of the comment needs `0xe0`: the top red bit
(pixel bit 23) is lost and pixel bit 20 lands in result bit 4, inside the green
field.  The pixel `0x00800000` is converted to 0 where the layout gives `0x80`;
the pixel `0x00100000` is converted to `0x10` where the layout gives 0. -/
theorem vnc_convert_rgb8_332_red_mask :
    vnc_convert_rgb8_332 0x00800000 = 0 ∧ layout_rgb8_332 0x00800000 = 0x80 ∧
    vnc_convert_rgb8_332 0x00100000 = 0x10 ∧ layout_rgb8_332 0x00100000 = 0 ∧
    vnc_convert_rgb8_332 0x0000e0c0 = 0x1f ∧ layout_rgb8_332 0x0000e0c0 = 0x1f := by
  decide

/-- C36 does not hold of the code.  In the 8-bit build, lines 87 and 101 cast
the 16-bit result to `uint8_t`, which drops result bits 15..8: the pixel `0xe0`
(red only) is converted to 0 by both functions, where the layouts give `0xe000`
(5:6:5) and `0x7000` (5:5:5).  Only the blue field, and in 5:5:5 the lowest
green bit, survive the cast. -/
theorem vnc_convert_rgb16_cast :
    vnc_convert_rgb16_565 0xe0 = 0 ∧ layout_rgb16_565 0xe0 = 0xe000 ∧
    vnc_convert_rgb16_555 0xe0 = 0 ∧ layout_rgb16_555 0xe0 = 0x7000 ∧
    vnc_convert_rgb16_565 0xff = 0x0018 ∧ layout_rgb16_565 0xff = 0xe718 ∧
    vnc_convert_rgb16_555 0xff = 0x0098 ∧ layout_rgb16_555 0xff = 0x7398 := by
  decide

/-- C37.  DMA and byte-mode receive agree.  On every RX buffer with
`0 <= head, tail < size` that is not full and for every byte sequence of length
`n` no greater than the free count: if `uart_recvchars_dma` plans a transfer,
the DMA engine writes the bytes into the planned segments (segment 1 first,
then segment 2) and `uart_recvchars_done` runs with `nbytes = n`, then `head`,
`tail`, `size` and the storage are the same as after `uart_recvchars`, in a
build without flow control, against a source holding those same `n` bytes.
The platform is one whose `size_t` holds the sum of two indices. -/
theorem dma_matches_byte_mode (cfg cfg0 : Config) (dev : uart_dev_s) (bytes : List Nat)
    (fuel : Nat)
    (hrange : inrange dev.recv)
    (hnotfull : (dev.recv.head + 1) % dev.recv.size ≠ dev.recv.tail)
    (hlen : bytes.length ≤ free_count dev.recv)
    (hstart : (uart_recvchars_dma cfg dev).ndmareceive = dev.ndmareceive + 1)
    (hplat : 2 * dev.recv.size ≤ 2 ^ cfg.size_t_bits)
    (hcfg0 : cfg0.CONFIG_SERIAL_IFLOWCONTROL = false)
    (havail : ∀ i, i < bytes.length → dev.ops.rxavailable (dev.nrxavailable + i) = true)
    (hend : dev.ops.rxavailable (dev.nrxavailable + bytes.length) = false)
    (hsrc : source_bytes dev.ops dev.nreceive bytes.length = bytes)
    (hfuel : bytes.length < fuel) :
    ∃ dev1, uart_recvchars cfg0 fuel dev = some dev1 ∧
      (uart_recvchars_done cfg (dma_fill (uart_recvchars_dma cfg dev) bytes)).recv.head
        = dev1.recv.head ∧
      (uart_recvchars_done cfg (dma_fill (uart_recvchars_dma cfg dev) bytes)).recv.tail
        = dev1.recv.tail ∧
      (uart_recvchars_done cfg (dma_fill (uart_recvchars_dma cfg dev) bytes)).recv.size
        = dev1.recv.size ∧
      (uart_recvchars_done cfg (dma_fill (uart_recvchars_dma cfg dev) bytes)).recv.buffer
        = dev1.recv.buffer := by
  have hflow := uart_recvchars_dma_started cfg dev hrange.1 hnotfull hstart
  have hslots := uart_recvchars_dma_slots_order cfg dev hrange hnotfull hflow
  have hfr := (uart_recvchars_dma_frame cfg dev).1
  obtain ⟨dev1, hrun, hrecv, -, -⟩ :=
    uart_recvchars_noflow cfg0 hcfg0 fuel dev bytes.length hrange havail hend hfuel
  rw [Nat.min_eq_right hlen, hsrc] at hrecv
  have hlt := occupied_count_lt _ hrange
  have hsz : bytes.length ≤ dev.recv.size := by unfold free_count at hlen; omega
  obtain ⟨f1, f2, f3, -, -⟩ := foldl_push_one_spec bytes dev.recv hrange.1 hsz
  have hfill := dma_fill_eq_push bytes dev.recv (free_count dev.recv) hrange.1 hlen
  have hfit : dev.recv.head + bytes.length < 2 ^ cfg.size_t_bits := by
    have := hrange.1
    unfold free_count at hlen
    omega
  obtain ⟨m1, m2⟩ := size_t_sum_fits hfit
  refine ⟨dev1, hrun, ?_⟩
  rw [hrecv, f1, f2, f3, uart_recvchars_done_eq]
  dsimp only [dma_fill]
  rw [hslots, hfr, m1, m2, hfill]
  exact ⟨rfl, rfl, rfl, rfl⟩

/-- C37 on the buffer of size 8 with head 6, tail 2 and the bytes 10, 20, 30:
both ways leave `head` at 1 with the bytes in cells 6, 7 and 0. -/
theorem dma_matches_byte_mode_witness :
    (planned_slots (uart_recvchars_dma cfg_noflow rxagree_dev).dmarx = [6, 7, 0]) ∧
    (uart_recvchars cfg_noflow 4 rxagree_dev).map
      (fun d => (d.recv.head, d.recv.tail, d.recv.buffer 6, d.recv.buffer 7, d.recv.buffer 0))
      = some (1, 2, 10, 20, 30) ∧
    ∃ dev1, uart_recvchars cfg_noflow 4 rxagree_dev = some dev1 ∧
      (uart_recvchars_done cfg_noflow
        (dma_fill (uart_recvchars_dma cfg_noflow rxagree_dev) [10, 20, 30])).recv.head
        = dev1.recv.head ∧
      (uart_recvchars_done cfg_noflow
        (dma_fill (uart_recvchars_dma cfg_noflow rxagree_dev) [10, 20, 30])).recv.tail
        = dev1.recv.tail ∧
      (uart_recvchars_done cfg_noflow
        (dma_fill (uart_recvchars_dma cfg_noflow rxagree_dev) [10, 20, 30])).recv.size
        = dev1.recv.size ∧
      (uart_recvchars_done cfg_noflow
        (dma_fill (uart_recvchars_dma cfg_noflow rxagree_dev) [10, 20, 30])).recv.buffer
        = dev1.recv.buffer :=
  ⟨by decide, by decide,
   dma_matches_byte_mode cfg_noflow cfg_noflow rxagree_dev [10, 20, 30] 4 (by decide)
     (by decide) (by decide) (by decide) (by decide) rfl (by decide) (by decide) (by decide)
     (by decide)⟩

/-- C38.  Whenever `uart_xmitchars_dma` or `uart_recvchars_dma` starts a
transfer (it hands the descriptor to `uart_dmasend` or `uart_dmareceive`) on a
buffer with `0 <= head, tail < size`, in every build configuration: segment 1
has length at least 1 and lies inside the backing array (its start index plus
its length is at most `size`), and segment 2, when its length is not zero,
starts at index 0 and ends at or before the start index of segment 1. -/
theorem dma_segments_in_bounds (cfg : Config) (dev : uart_dev_s) :
    (inrange dev.xmit → (uart_xmitchars_dma dev).ndmasend = dev.ndmasend + 1 →
      ∃ s : Nat, (uart_xmitchars_dma dev).dmatx.buffer = some s ∧
        1 ≤ (uart_xmitchars_dma dev).dmatx.length ∧
        (s : Int) + (uart_xmitchars_dma dev).dmatx.length ≤ dev.xmit.size ∧
        0 ≤ (uart_xmitchars_dma dev).dmatx.nlength ∧
        ((uart_xmitchars_dma dev).dmatx.nlength ≠ 0 →
          (uart_xmitchars_dma dev).dmatx.nbuffer = some 0 ∧
          (uart_xmitchars_dma dev).dmatx.nlength ≤ s)) ∧
    (inrange dev.recv → (uart_recvchars_dma cfg dev).ndmareceive = dev.ndmareceive + 1 →
      ∃ s : Nat, (uart_recvchars_dma cfg dev).dmarx.buffer = some s ∧
        1 ≤ (uart_recvchars_dma cfg dev).dmarx.length ∧
        (s : Int) + (uart_recvchars_dma cfg dev).dmarx.length ≤ dev.recv.size ∧
        0 ≤ (uart_recvchars_dma cfg dev).dmarx.nlength ∧
        ((uart_recvchars_dma cfg dev).dmarx.nlength ≠ 0 →
          (uart_recvchars_dma cfg dev).dmarx.nbuffer = some 0 ∧
          (uart_recvchars_dma cfg dev).dmarx.nlength ≤ s)) := by
  constructor
  · intro hrange hstart
    have hne := uart_xmitchars_dma_started_nonempty dev hstart
    obtain ⟨hh, ht⟩ := hrange
    refine ⟨dev.xmit.tail, ?_⟩
    by_cases hlt : dev.xmit.tail < dev.xmit.head
    · unfold uart_xmitchars_dma
      rw [if_neg hne]
      dsimp only
      rw [if_pos hlt]
      dsimp only [uart_dmasend]
      exact ⟨rfl, by omega, by omega, le_refl _, fun h => absurd rfl h⟩
    · unfold uart_xmitchars_dma
      rw [if_neg hne]
      dsimp only
      rw [if_neg hlt]
      dsimp only [uart_dmasend]
      exact ⟨rfl, by omega, by omega, by omega, fun _ => ⟨rfl, by omega⟩⟩
  · intro hrange hstart
    have hnotfull := uart_recvchars_dma_started_notfull cfg dev hrange.1 hstart
    have hflow := uart_recvchars_dma_started cfg dev hrange.1 hnotfull hstart
    obtain ⟨hA, hB, hC, -⟩ := uart_recvchars_dma_spec cfg dev hrange hnotfull hflow
    obtain ⟨hh, ht⟩ := hrange
    have hnf := hnotfull
    rw [add_mod_cases _ _ (by omega)] at hnf
    refine ⟨dev.recv.head, ?_⟩
    by_cases hle : dev.recv.tail ≤ dev.recv.head
    · by_cases hpos : 0 < dev.recv.tail
      · obtain ⟨h1, h2, h3, h4⟩ := hA hle hpos
        rw [h1, h2, h3, h4]
        refine ⟨rfl, by omega, by omega, by omega, fun _ => ⟨rfl, by omega⟩⟩
      · obtain ⟨h1, h2, h4⟩ := hB (by omega)
        rw [h1, h2, h4]
        have h0 : dev.recv.tail = 0 := by omega
        rw [h0] at hnf
        split_ifs at hnf
        · refine ⟨rfl, by omega, by omega, le_refl _, fun h => absurd rfl h⟩
        · omega
    · obtain ⟨h1, h2, h3, h4⟩ := hC (by omega)
      rw [h1, h2, h4]
      split_ifs at hnf
      · refine ⟨rfl, by omega, by omega, le_refl _, fun h => absurd rfl h⟩
      · omega

/-- C38 on a wrapped TX buffer of size 8 (tail 6, head 2) and a wrapped free
region of an RX buffer of size 8 (head 6, tail 2): segment 1 runs to the end of
the array, segment 2 starts at 0 and stops before segment 1 starts. -/
theorem dma_segments_in_bounds_witness :
    (∃ s : Nat, (uart_xmitchars_dma txplan_dev).dmatx.buffer = some s ∧
      1 ≤ (uart_xmitchars_dma txplan_dev).dmatx.length ∧
      (s : Int) + (uart_xmitchars_dma txplan_dev).dmatx.length ≤ txplan_dev.xmit.size ∧
      0 ≤ (uart_xmitchars_dma txplan_dev).dmatx.nlength ∧
      ((uart_xmitchars_dma txplan_dev).dmatx.nlength ≠ 0 →
        (uart_xmitchars_dma txplan_dev).dmatx.nbuffer = some 0 ∧
        (uart_xmitchars_dma txplan_dev).dmatx.nlength ≤ s)) ∧
    (∃ s : Nat, (uart_recvchars_dma cfg_noflow rxplan_wrapped_dev).dmarx.buffer = some s ∧
      1 ≤ (uart_recvchars_dma cfg_noflow rxplan_wrapped_dev).dmarx.length ∧
      (s : Int) + (uart_recvchars_dma cfg_noflow rxplan_wrapped_dev).dmarx.length
        ≤ rxplan_wrapped_dev.recv.size ∧
      0 ≤ (uart_recvchars_dma cfg_noflow rxplan_wrapped_dev).dmarx.nlength ∧
      ((uart_recvchars_dma cfg_noflow rxplan_wrapped_dev).dmarx.nlength ≠ 0 →
        (uart_recvchars_dma cfg_noflow rxplan_wrapped_dev).dmarx.nbuffer = some 0 ∧
        (uart_recvchars_dma cfg_noflow rxplan_wrapped_dev).dmarx.nlength ≤ s)) :=
  ⟨(dma_segments_in_bounds cfg_noflow txplan_dev).1 (by decide) (by decide),
   (dma_segments_in_bounds cfg_noflow rxplan_wrapped_dev).2 (by decide) (by decide)⟩

/-- C39.  The send loop of `uart_xmitchars` terminates for every hardware
behaviour: on a buffer with `0 <= head, tail < size`, any fuel above the
occupied count is enough, and `size` always is; the loop hands `k` bytes to
`uart_send`, one in each iteration, with `k` no greater than the occupied count
and so at most `size - 1`; and `k` is exactly the occupied count when the
hardware stays ready. -/
theorem uart_xmitchars_terminates (dev : uart_dev_s) (fuel : Nat)
    (hrange : inrange dev.xmit) (hfuel : occupied_count dev.xmit < fuel) :
    (∃ k dev1, uart_xmitchars fuel dev = some dev1 ∧
      dev1.sent.length = dev.sent.length + k ∧
      k ≤ occupied_count dev.xmit ∧ k ≤ dev.xmit.size - 1 ∧
      dev1.ntxready ≤ dev.ntxready + k + 1 ∧
      ((∀ i, dev.ops.txready (dev.ntxready + i) = true) → k = occupied_count dev.xmit)) ∧
    (uart_xmitchars dev.xmit.size dev).isSome = true := by
  have hlt := occupied_count_lt _ hrange
  have key : ∀ f, occupied_count dev.xmit < f →
      ∃ k dev1, uart_xmitchars f dev = some dev1 ∧
        dev1.sent.length = dev.sent.length + k ∧
        k ≤ occupied_count dev.xmit ∧ k ≤ dev.xmit.size - 1 ∧
        dev1.ntxready ≤ dev.ntxready + k + 1 ∧
        ((∀ i, dev.ops.txready (dev.ntxready + i) = true) →
          k = occupied_count dev.xmit) := by
    intro f hf
    obtain ⟨k, hk, hall, hstop⟩ :=
      ready_prefix (fun i => dev.ops.txready (dev.ntxready + i)) (occupied_count dev.xmit)
    obtain ⟨d, hrun, hsent, -, -, -, -, -, -, -, -, hntx, -⟩ :=
      uart_xmitchars_loop_spec f dev 0 k hrange (by norm_num) hall hstop
        (by rw [Nat.min_eq_right hk]; omega)
    rw [Nat.min_eq_right hk] at hrun hsent hntx
    obtain ⟨dev1, h1, h2, h3⟩ := uart_xmitchars_sent f dev _ hrun
    refine ⟨k, dev1, h1, ?_, hk, by omega, ?_, ?_⟩
    · rw [h2]
      show d.sent.length = dev.sent.length + k
      rw [hsent, List.length_append, List.length_map, List.length_range]
    · rw [h3]
      show d.ntxready ≤ dev.ntxready + k + 1
      rw [hntx]
      split_ifs <;> omega
    · intro hready
      by_contra hne
      have hk2 : k < occupied_count dev.xmit := by omega
      have := hstop hk2
      rw [hready k] at this
      exact Bool.noConfusion this
  refine ⟨key fuel hfuel, ?_⟩
  obtain ⟨k, dev1, h1, -⟩ := key dev.xmit.size hlt
  rw [h1]
  rfl

/-- C39 on a TX buffer of size 8 holding four bytes with hardware that is
always ready: the loop ends after four sends. -/
theorem uart_xmitchars_terminates_witness :
    (uart_xmitchars 8 txdrain_dev).map (fun d => d.sent.length) = some 4 ∧
    occupied_count txdrain_dev.xmit = 4 ∧
    (∃ k dev1, uart_xmitchars 8 txdrain_dev = some dev1 ∧
      dev1.sent.length = txdrain_dev.sent.length + k ∧
      k ≤ occupied_count txdrain_dev.xmit ∧ k ≤ txdrain_dev.xmit.size - 1 ∧
      dev1.ntxready ≤ txdrain_dev.ntxready + k + 1 ∧
      ((∀ i, txdrain_dev.ops.txready (txdrain_dev.ntxready + i) = true) →
        k = occupied_count txdrain_dev.xmit)) ∧
    (uart_xmitchars txdrain_dev.xmit.size txdrain_dev).isSome = true :=
  ⟨by decide, by decide,
   (uart_xmitchars_terminates txdrain_dev 8 (by decide) (by decide)).1,
   (uart_xmitchars_terminates txdrain_dev 8 (by decide) (by decide)).2⟩

/-- C40.  In `cpuload_read`, for all 32-bit unsigned values of `active` and
`total`, with the wraparound of C in `1000 * active`: the computed `tmp` lies in
`0..1000`, `intpart <= 100` and `fracpart <= 9`; when `total == 0` both are 0;
when `total > 0` they are `tmp / 10` and `tmp mod 10`; and when `1000 * active`
(after the clamp to `total`) does not overflow 32 bits, `tmp` equals
`1000 - floor(1000 * min(active, total) / total)`. -/
theorem cpuload_read_bounds (active total : Nat)
    (_ha : active < 2 ^ 32) (ht : total < 2 ^ 32) :
    cpuload_read_tmp active total ≤ 1000 ∧
    (cpuload_read active total).1 ≤ 100 ∧
    (cpuload_read active total).2 ≤ 9 ∧
    (total = 0 → cpuload_read active total = (0, 0)) ∧
    (0 < total → cpuload_read active total
      = (cpuload_read_tmp active total / 10, cpuload_read_tmp active total % 10)) ∧
    (1000 * min active total < 2 ^ 32 →
      cpuload_read_tmp active total = 1000 - 1000 * min active total / total) := by
  have htmp := cpuload_read_tmp_eq active total ht
  have hle : cpuload_read_tmp active total ≤ 1000 := by
    rw [htmp]
    exact Nat.sub_le _ _
  have h32 : (2 : Nat) ^ 32 = 4294967296 := by norm_num
  have hparts : 0 < total → cpuload_read active total
      = (cpuload_read_tmp active total / 10, cpuload_read_tmp active total % 10) := by
    intro hpos
    unfold cpuload_read
    rw [if_pos hpos]
    dsimp only
    generalize cpuload_read_tmp active total = t at hle
    have hcast : (t : Int) - ((10 * (t / 10) % 2 ^ 32 : Nat) : Int) = ((t % 10 : Nat) : Int) := by
      rw [h32]
      omega
    rw [hcast, to_unsigned_of_lt _ _ (by rw [h32]; omega)]
  refine ⟨hle, ?_, ?_, ?_, hparts, ?_⟩
  · by_cases hpos : 0 < total
    · rw [hparts hpos]
      show cpuload_read_tmp active total / 10 ≤ 100
      omega
    · simp [cpuload_read, hpos]
  · by_cases hpos : 0 < total
    · rw [hparts hpos]
      show cpuload_read_tmp active total % 10 ≤ 9
      omega
    · simp [cpuload_read, hpos]
  · intro h0
    simp [cpuload_read, h0]
  · intro hfit
    rw [htmp, Nat.mod_eq_of_lt hfit]

/-- C40 at `active = 1`, `total = 3` (idle share 66.7 percent) and at the
largest counts, where the product wraps. -/
theorem cpuload_read_bounds_witness :
    cpuload_read 1 3 = (66, 7) ∧
    cpuload_read_tmp 1 3 = 1000 - 1000 * min 1 3 / 3 ∧
    cpuload_read 4294967295 4294967295 = (100, 0) ∧
    cpuload_read_tmp 4294967295 4294967295 ≤ 1000 ∧
    (cpuload_read 5 0 = (0, 0)) :=
  ⟨by decide,
   (cpuload_read_bounds 1 3 (by norm_num) (by norm_num)).2.2.2.2.2 (by norm_num),
   by decide,
   (cpuload_read_bounds 4294967295 4294967295 (by norm_num) (by norm_num)).1,
   (cpuload_read_bounds 5 0 (by norm_num) (by norm_num)).2.2.2.1 rfl⟩

end Serialirq
